import Mathlib

/-!
Contact Manager: a shallow embedding of `Contact_Manager.cpp`.

The C++ class `ContactManager` keeps its records in a hand-written doubly
linked list of heap cells, two stacks of raw pointers (undo / redo), a vector
of pointers to graph nodes and a text file that is rewritten after every
mutation.

Modelling conventions.

* A pointer is a heap address (`Nat`); `nullptr` is `none`.  `new` allocates at
  the first unused address (the current length of the heap), addresses are never
  reused.  `delete` records the address in `freed`; the cell keeps its last
  content.
* A `std::string` is a Lean `String`, one `Char` per C++ `char`.
* Every operation returns `Option`: `none` means that the C++ call does not
  return (a traversal runs round a cycle for ever) or dereferences an address
  that was never allocated.  Traversals carry a fuel equal to the number of
  allocated cells; this is enough for every traversal of the list that ends at
  `nullptr` (`storeOrder_of_walk`).
* What a mutating operation prints is returned as a `Report`; the functions that
  only read (`searchContact`, `searchByCategory`, `sortContacts`) return the
  records they print, together with the state.
* Interactive input read inside `updateContact` (`cin >> updateChoice`,
  `getline`) is passed as two extra arguments.
* The contacts file is one `String`.  `loadFromFile` reads it through a
  buffered stream that fetches `bufSize` characters at a time, at its own
  offset, from the file as it is at the moment of the fetch; the file is
  rewritten by every `addContact` of the loop while the stream is open.  The
  loop carries a fuel that bounds the number of lines.
-/

namespace ContactManager

/-- Cell of the doubly linked list (`struct Contact`). -/
structure Contact where
  name : String
  phone : String
  category : String
  prev : Option Nat
  next : Option Nat
deriving DecidableEq

/-- Node of the relationship graph (`struct GraphNode`); `connections` holds
addresses of other graph nodes. -/
structure GraphNode where
  name : String
  category : String
  connections : List Nat
deriving DecidableEq

/-- Members of `class ContactManager` together with the two heaps they point
into and the file system entry `contactsFile` names.

* `heap`, `freed`: the `Contact` cells ever allocated, and those released;
* `head`, `undoStack`, `redoStack`: as in the class (top of a stack first);
* `nodes`: the `GraphNode` cells ever allocated; `graph`: the vector of
  pointers into them;
* `file`: content of the contacts file (`none`: the file does not exist);
* `writable`: whether opening the file for writing succeeds. -/
structure State where
  heap : List Contact
  freed : List Nat
  head : Option Nat
  undoStack : List Nat
  redoStack : List Nat
  nodes : List GraphNode
  graph : List Nat
  file : Option String
  writable : Bool
deriving DecidableEq

/-- What a member function prints before it returns. -/
inductive Report where
  /-- `addContact` ran to its end (it prints nothing). -/
  | added
  /-- "Error: Name, phone, and category cannot be empty. Contact not added." -/
  | emptyField
  /-- "Error: Phone number must be exactly 10 digits. Contact not added." -/
  | badPhone
  /-- `undo` ran to its end (it prints nothing). -/
  | undone
  /-- "Error: No action to undo." -/
  | nothingToUndo
  /-- `redo` ran to its end (it prints nothing). -/
  | redone
  /-- "Error: No action to redo." -/
  | nothingToRedo
  /-- "No contacts to delete." / "No contacts to update." -/
  | noContacts
  /-- "Contact not found. Deletion failed." / "Contact not found. Update failed." -/
  | notFound
  /-- "Error: Invalid choice. Contact not updated." -/
  | invalidChoice
  /-- "Contact deleted: Name: ... Phone: ... Category: ..." -/
  | deleted (name phone category : String)
  /-- "Contact updated: Name: ... Phone: ... Category: ..." -/
  | updated (name phone category : String)
deriving DecidableEq

/-- State of `ContactManager(fileName)`: `head(nullptr)`, empty stacks and graph. -/
def emptyManager (file : Option String) (writable : Bool) : State :=
  { heap := [], freed := [], head := none, undoStack := [], redoStack := [],
    nodes := [], graph := [], file := file, writable := writable }

/-- `isDigits`: `all_of(str.begin(), str.end(), ::isdigit)`. -/
def isDigits (str : String) : Bool :=
  str.data.all Char.isDigit

/-- Assignment `a->prev = p`. -/
def setPrev (heap : List Contact) (a : Nat) (p : Option Nat) : Option (List Contact) :=
  match heap[a]? with
  | some c => some (heap.set a { c with prev := p })
  | none => none

/-- Assignment `a->next = n`. -/
def setNext (heap : List Contact) (a : Nat) (n : Option Nat) : Option (List Contact) :=
  match heap[a]? with
  | some c => some (heap.set a { c with next := n })
  | none => none

/-- Assignment `q->connections.push_back(x)`. -/
def pushConnection (nodes : List GraphNode) (q x : Nat) : Option (List GraphNode) :=
  match nodes[q]? with
  | some g => some (nodes.set q { g with connections := g.connections ++ [x] })
  | none => none

/-- `updateGraph`: allocate a node, push it on `graph`, and when the vector now
has more than one entry connect it both ways with the entry before it. -/
def updateGraph (s : State) (name category : String) : Option State :=
  let newNode := s.nodes.length
  let nodes1 := s.nodes ++ [{ name := name, category := category, connections := [] }]
  let graph1 := s.graph ++ [newNode]
  if graph1.length > 1 then
    match graph1[graph1.length - 2]? with
    | none => none
    | some q =>
      match pushConnection nodes1 q newNode with
      | none => none
      | some nodes2 =>
        match pushConnection nodes2 newNode q with
        | none => none
        | some nodes3 => some { s with nodes := nodes3, graph := graph1 }
  else
    some { s with nodes := nodes1, graph := graph1 }

/-- `removeGraphEntry`: `find_if` for the first node of that name, then `erase`
of that one vector entry.  The node itself is neither released nor are the
connections that point to it touched. -/
def removeGraphEntry (nodes : List GraphNode) : List Nat → String → Option (List Nat)
  | [], _ => some []
  | q :: rest, name =>
    match nodes[q]? with
    | none => none
    | some g =>
      if g.name = name then some rest
      else (removeGraphEntry nodes rest name).map (fun r => q :: r)

/-- The `while (current != nullptr)` loop of `saveToFile`: one line
`name,phone,category` and a line end per cell. -/
def saveLoop (heap : List Contact) : Nat → Option Nat → Option String
  | _, none => some ""
  | 0, some _ => none
  | fuel + 1, some a =>
    match heap[a]? with
    | none => none
    | some c =>
      (saveLoop heap fuel c.next).map
        (fun rest => c.name ++ "," ++ c.phone ++ "," ++ c.category ++ "\n" ++ rest)

/-- `saveToFile`: when the file opens, its content is replaced by the output of
the loop; when it does not open only a warning is printed. -/
def saveToFile (s : State) : Option State :=
  if s.writable then
    match saveLoop s.heap s.heap.length s.head with
    | none => none
    | some txt => some { s with file := some txt }
  else
    some s

/-- `addContact`. -/
def addContact (s : State) (name phone category : String) : Option (Report × State) :=
  if name.isEmpty || phone.isEmpty || category.isEmpty then
    some (Report.emptyField, s)
  else if phone.length != 10 || !isDigits phone then
    some (Report.badPhone, s)
  else
    let newContact := s.heap.length
    let heap0 := s.heap ++
      [{ name := name, phone := phone, category := category, prev := none, next := none }]
    let linked : Option (List Contact) :=
      match s.head with
      | none => some heap0
      | some h =>
        match setNext heap0 newContact (some h) with
        | none => none
        | some heap1 => setPrev heap1 h (some newContact)
    match linked with
    | none => none
    | some heap2 =>
      let s1 := { s with heap := heap2, head := some newContact,
                         undoStack := newContact :: s.undoStack }
      match updateGraph s1 name category with
      | none => none
      | some s2 =>
        match saveToFile s2 with
        | none => none
        | some s3 => some (Report.added, s3)

/-- `undo`. -/
def undo (s : State) : Option (Report × State) :=
  match s.undoStack with
  | [] => some (Report.nothingToUndo, s)
  | lastAction :: rest =>
    match s.heap[lastAction]? with
    | none => none
    | some c =>
      -- if (lastAction->next != nullptr) lastAction->next->prev = lastAction->prev;
      let step1 : Option (List Contact) :=
        match c.next with
        | some n => setPrev s.heap n c.prev
        | none => some s.heap
      match step1 with
      | none => none
      | some heap1 =>
        match heap1[lastAction]? with
        | none => none
        | some c1 =>
          -- if (lastAction->prev != nullptr) lastAction->prev->next = lastAction->next;
          -- else head = lastAction->next;
          let step2 : Option (List Contact × Option Nat) :=
            match c1.prev with
            | some p => (setNext heap1 p c1.next).map (fun h => (h, s.head))
            | none => some (heap1, c1.next)
          match step2 with
          | none => none
          | some (heap2, head2) =>
            match heap2[lastAction]? with
            | none => none
            | some c2 =>
              match removeGraphEntry s.nodes s.graph c2.name with
              | none => none
              | some graph1 =>
                match saveToFile { s with heap := heap2, head := head2, undoStack := rest,
                                          redoStack := lastAction :: s.redoStack,
                                          graph := graph1 } with
                | none => none
                | some s2 => some (Report.undone, s2)

/-- `redo`. -/
def redo (s : State) : Option (Report × State) :=
  match s.redoStack with
  | [] => some (Report.nothingToRedo, s)
  | redoAction :: rest =>
    -- if (head != nullptr) { redoAction->next = head; head->prev = redoAction; }
    let step1 : Option (List Contact) :=
      match s.head with
      | some h =>
        match setNext s.heap redoAction (some h) with
        | none => none
        | some heap1 => setPrev heap1 h (some redoAction)
      | none => some s.heap
    match step1 with
    | none => none
    | some heap2 =>
      match heap2[redoAction]? with
      | none => none
      | some c =>
        match updateGraph { s with heap := heap2, head := some redoAction,
                                   undoStack := redoAction :: s.undoStack,
                                   redoStack := rest } c.name c.category with
        | none => none
        | some s2 =>
          match saveToFile s2 with
          | none => none
          | some s3 => some (Report.redone, s3)

/-- The search loop shared by `deleteContact` and `updateContact`
(`while (current != nullptr) { if (current->name == name) ...; current = current->next; }`):
`some (some a)` is the first cell of that name, `some none` the loop running
off the end of the list. -/
def findByName (heap : List Contact) (name : String) : Nat → Option Nat → Option (Option Nat)
  | _, none => some none
  | 0, some _ => none
  | fuel + 1, some a =>
    match heap[a]? with
    | none => none
    | some c => if c.name = name then some (some a) else findByName heap name fuel c.next

/-- `deleteContact`. -/
def deleteContact (s : State) (name : String) : Option (Report × State) :=
  match s.head with
  | none => some (Report.noContacts, s)
  | some _ =>
    match findByName s.heap name s.heap.length s.head with
    | none => none
    | some none => some (Report.notFound, s)
    | some (some current) =>
      match s.heap[current]? with
      | none => none
      | some c =>
        -- if (current->prev != nullptr) current->prev->next = current->next;
        -- else head = current->next;
        let step1 : Option (List Contact × Option Nat) :=
          match c.prev with
          | some p => (setNext s.heap p c.next).map (fun h => (h, s.head))
          | none => some (s.heap, c.next)
        match step1 with
        | none => none
        | some (heap1, head1) =>
          match heap1[current]? with
          | none => none
          | some c1 =>
            -- if (current->next != nullptr) current->next->prev = current->prev;
            let step2 : Option (List Contact) :=
              match c1.next with
              | some n => setPrev heap1 n c1.prev
              | none => some heap1
            match step2 with
            | none => none
            | some heap2 =>
              match removeGraphEntry s.nodes s.graph name with
              | none => none
              | some graph1 =>
                match saveToFile { s with heap := heap2, head := head1, graph := graph1 } with
                | none => none
                | some s2 =>
                  match s2.heap[current]? with
                  | none => none
                  | some c2 =>
                    some (Report.deleted c2.name c2.phone c2.category,
                          { s2 with freed := current :: s2.freed })

/-- `updateContact(name, newPhone, newCategory)`.  `updateChoice` is the number
read by `cin >> updateChoice` and `input` the line read by the `getline` of the
chosen case. -/
def updateContact (s : State) (name _newPhone newCategory : String)
    (updateChoice : Int) (input : String) : Option (Report × State) :=
  match s.head with
  | none => some (Report.noContacts, s)
  | some _ =>
    match findByName s.heap name s.heap.length s.head with
    | none => none
    | some none => some (Report.notFound, s)
    | some (some current) =>
      match s.heap[current]? with
      | none => none
      | some c =>
        let edited : Option Contact :=
          if updateChoice = 1 then some { c with name := input }
          else if updateChoice = 2 then some { c with phone := input }
          else if updateChoice = 3 then some { c with category := input }
          else none
        match edited with
        | none => some (Report.invalidChoice, s)
        | some c1 =>
          match removeGraphEntry s.nodes s.graph name with
          | none => none
          | some graph1 =>
            match updateGraph { s with heap := s.heap.set current c1,
                                       undoStack := current :: s.undoStack,
                                       graph := graph1 } c1.name newCategory with
            | none => none
            | some s2 =>
              match saveToFile s2 with
              | none => none
              | some s3 => some (Report.updated c1.name c1.phone c1.category, s3)

/-- Addresses met by following `next` from a pointer until `nullptr`
(the traversal of `displayContacts`). -/
def walk (heap : List Contact) : Nat → Option Nat → Option (List Nat)
  | _, none => some []
  | 0, some _ => none
  | fuel + 1, some a =>
    match heap[a]? with
    | none => none
    | some c => (walk heap fuel c.next).map (fun r => a :: r)

/-- The store order: the record identities reachable from `head`, front first. -/
def storeOrder (s : State) : Option (List Nat) :=
  walk s.heap s.heap.length s.head


/-- The three data fields of the cell at an address. -/
def fields (heap : List Contact) (a : Nat) : String × String × String :=
  match heap[a]? with
  | some c => (c.name, c.phone, c.category)
  | none => ("", "", "")

/-- The store as a sequence of records `(name, phone, category)`, front first. -/
def storeRecords (s : State) : Option (List (String × String × String)) :=
  (storeOrder s).map (fun l => l.map (fields s.heap))

/-- Text that `saveToFile` writes for a sequence of records. -/
def serialize : List (String × String × String) → String
  | [] => ""
  | r :: rest => r.1 ++ "," ++ r.2.1 ++ "," ++ r.2.2 ++ "\n" ++ serialize rest

/-- First address of a list, or a default pointer when the list is empty. -/
def headOr : List Nat → Option Nat → Option Nat
  | [], e => e
  | b :: _, _ => some b

/-- Last address of a list, or a default pointer when the list is empty. -/
def lastOr : Option Nat → List Nat → Option Nat
  | p, [] => p
  | _, a :: rest => lastOr (some a) rest

/-- The cells at the addresses `l` form a doubly linked segment: each `next`
points to the following address (the last one to `e`), each `prev` to the
preceding address (the first one to `p`). -/
def Seg (heap : List Contact) : Option Nat → List Nat → Option Nat → Prop
  | _, [], _ => True
  | p, a :: rest, e =>
    ∃ c, heap[a]? = some c ∧ c.prev = p ∧ c.next = headOr rest e ∧ Seg heap (some a) rest e


/-- Name and category of the graph node at an address. -/
def nodeLabel (nodes : List GraphNode) (q : Nat) : String × String :=
  match nodes[q]? with
  | some g => (g.name, g.category)
  | none => ("", "")

/-- The relationship graph as the sequence of (name, category) of the entries
of the vector `graph`, in vector order. -/
def graphLabels (s : State) : List (String × String) :=
  s.graph.map (nodeLabel s.nodes)

/-- Representation invariant: the cells at the addresses `l` are pairwise
distinct and form the doubly linked list that starts at `head`, and every entry
of `graph` is an allocated graph node. -/
structure WF (s : State) (l : List Nat) : Prop where
  head_eq : s.head = headOr l none
  seg : Seg s.heap none l none
  nodup : l.Nodup
  graph_lt : ∀ q ∈ s.graph, q < s.nodes.length

/-- Effect of a successful `addContact` on a state whose store is the list `l`. -/
structure AddPost (s : State) (name phone category : String) (l : List Nat) (s1 : State) :
    Prop where
  wf : WF s1 (s.heap.length :: l)
  heap_length : s1.heap.length = s.heap.length + 1
  fields_new : fields s1.heap s.heap.length = (name, phone, category)
  fields_old : ∀ a, a < s.heap.length → fields s1.heap a = fields s.heap a
  cell_old : ∀ a, a < s.heap.length → s.head ≠ some a → s1.heap[a]? = s.heap[a]?
  undoStack_eq : s1.undoStack = s.heap.length :: s.undoStack
  redoStack_eq : s1.redoStack = s.redoStack
  freed_eq : s1.freed = s.freed
  graph_eq : s1.graph = s.graph ++ [s.nodes.length]
  graphLabels_eq : graphLabels s1 = graphLabels s ++ [(name, category)]
  writable_eq : s1.writable = s.writable
  file_eq : s1.file =
    if s.writable then some (serialize ((name, phone, category) :: l.map (fields s.heap)))
    else s.file

/-- Effect of `undo` on a state whose store is the list `l` and whose undo
stack is `r :: rest`. -/
structure UndoPost (s : State) (r : Nat) (rest l : List Nat) (s1 : State) : Prop where
  wf : WF s1 (l.erase r)
  heap_length : s1.heap.length = s.heap.length
  fields_eq : ∀ a, fields s1.heap a = fields s.heap a
  cell_self : s1.heap[r]? = s.heap[r]?
  cell_other : ∀ a, a ∉ l → s1.heap[a]? = s.heap[a]?
  undoStack_eq : s1.undoStack = rest
  redoStack_eq : s1.redoStack = r :: s.redoStack
  freed_eq : s1.freed = s.freed
  nodes_eq : s1.nodes = s.nodes
  graphLabels_eq : graphLabels s1 =
    (graphLabels s).eraseP (fun lab => decide (lab.1 = (fields s.heap r).1))
  writable_eq : s1.writable = s.writable
  file_eq : s1.file =
    if s.writable then some (serialize ((l.erase r).map (fields s.heap))) else s.file

/-- Effect of `redo` on a state whose store is the list `l` and whose redo
stack is `r :: rest`. -/
structure RedoPost (s : State) (r : Nat) (rest l : List Nat) (s1 : State) : Prop where
  wf : WF s1 (r :: l)
  heap_length : s1.heap.length = s.heap.length
  fields_eq : ∀ a, fields s1.heap a = fields s.heap a
  cell_other : ∀ a, a ≠ r → s.head ≠ some a → s1.heap[a]? = s.heap[a]?
  undoStack_eq : s1.undoStack = r :: s.undoStack
  redoStack_eq : s1.redoStack = rest
  freed_eq : s1.freed = s.freed
  graphLabels_eq : graphLabels s1 =
    graphLabels s ++ [((fields s.heap r).1, (fields s.heap r).2.2)]
  writable_eq : s1.writable = s.writable
  file_eq : s1.file =
    if s.writable then some (serialize ((r :: l).map (fields s.heap))) else s.file

/-- Effect of `deleteContact` on a state whose store is the list `l` when the
first cell of the given name is `r`. -/
structure DeletePost (s : State) (name : String) (r : Nat) (l : List Nat) (s1 : State) :
    Prop where
  wf : WF s1 (l.erase r)
  heap_length : s1.heap.length = s.heap.length
  fields_eq : ∀ a, fields s1.heap a = fields s.heap a
  cell_self : s1.heap[r]? = s.heap[r]?
  cell_other : ∀ a, a ∉ l → s1.heap[a]? = s.heap[a]?
  undoStack_eq : s1.undoStack = s.undoStack
  redoStack_eq : s1.redoStack = s.redoStack
  freed_eq : s1.freed = r :: s.freed
  nodes_eq : s1.nodes = s.nodes
  graphLabels_eq : graphLabels s1 =
    (graphLabels s).eraseP (fun lab => decide (lab.1 = name))
  writable_eq : s1.writable = s.writable
  file_eq : s1.file =
    if s.writable then some (serialize ((l.erase r).map (fields s.heap))) else s.file

/-- Effect of `updateContact` on a state whose store is the list `l` when the
first cell of the given name is `r` and `c1` is its edited content. -/
structure UpdatePost (s : State) (name newCategory : String) (r : Nat) (c1 : Contact)
    (l : List Nat) (s1 : State) : Prop where
  wf : WF s1 l
  heap_eq : s1.heap = s.heap.set r c1
  undoStack_eq : s1.undoStack = r :: s.undoStack
  redoStack_eq : s1.redoStack = s.redoStack
  freed_eq : s1.freed = s.freed
  graphLabels_eq : graphLabels s1 =
    (graphLabels s).eraseP (fun lab => decide (lab.1 = name)) ++ [(c1.name, newCategory)]
  writable_eq : s1.writable = s.writable
  file_eq : s1.file =
    if s.writable then some (serialize (l.map (fields (s.heap.set r c1)))) else s.file

/-- States built from an empty manager by calls of `addContact` that add a record. -/
inductive BuiltByAdds : State → Prop where
  | empty (file : Option String) (writable : Bool) : BuiltByAdds (emptyManager file writable)
  | add {s s1 : State} (name phone category : String) :
      BuiltByAdds s → addContact s name phone category = some (Report.added, s1) →
      BuiltByAdds s1

/-- The manager after `addContact("A", "1234567890", "x")` on an empty manager
with a writable file. -/
def sampleStore : State :=
  { heap := [Contact.mk "A" "1234567890" "x" none none], freed := [], head := some 0,
    undoStack := [0], redoStack := [], nodes := [GraphNode.mk "A" "x" []], graph := [0],
    file := some "A,1234567890,x\n", writable := true }

/-- One call of a mutating member function, with the input it reads. -/
inductive Call where
  | add (name phone category : String)
  | undo
  | redo
  | update (name newPhone newCategory : String) (updateChoice : Int) (input : String)
  | delete (name : String)
deriving DecidableEq

/-- State after one call (the report is dropped). -/
def step (s : State) : Call → Option State
  | Call.add name phone category => (addContact s name phone category).map Prod.snd
  | Call.undo => (undo s).map Prod.snd
  | Call.redo => (redo s).map Prod.snd
  | Call.update name newPhone newCategory updateChoice input =>
    (updateContact s name newPhone newCategory updateChoice input).map Prod.snd
  | Call.delete name => (deleteContact s name).map Prod.snd

/-- State after a sequence of calls, first call first. -/
def run (s : State) : List Call → Option State
  | [] => some s
  | call :: calls =>
    match step s call with
    | none => none
    | some s1 => run s1 calls

/-- The three `getline` calls on the `stringstream` of one line: `name` up to
the first comma, `phone` up to the second comma, `category` the rest; a part
that is missing is the empty string. -/
def parseLine (line : List Char) : String × String × String :=
  let name := line.takeWhile (fun ch => ch != ',')
  let rest1 := (line.dropWhile (fun ch => ch != ',')).drop 1
  let phone := rest1.takeWhile (fun ch => ch != ',')
  let rest2 := (rest1.dropWhile (fun ch => ch != ',')).drop 1
  (String.mk name, String.mk phone, String.mk rest2)

/-- The `ifstream` of `loadFromFile` between two reads: the characters fetched
from the file and not yet consumed, the file offset at which the next block is
fetched, and the end-of-file flag of the stream. -/
structure Ifstream where
  buf : List Char
  pos : Nat
  eof : Bool
deriving DecidableEq

/-- The characters of the buffer before its first line feed, and what follows
that line feed; `none` when the buffer holds no line feed. -/
def takeLine : List Char → List Char × Option (List Char)
  | [] => ([], none)
  | ch :: rest =>
    if ch = '\n' then ([], some rest)
    else
      match takeLine rest with
      | (line, after) => (ch :: line, after)

/-- `getline(file, line)` on the open stream.  Characters are taken from the
buffer up to a line feed, which is consumed.  When the buffer runs out the
stream fetches the next block, at most `bufSize` characters, at its offset
`pos` from `content`, the file as it is at that moment.  A fetch that gets
nothing is the end of the file: the characters gathered so far are the line
and the stream is flagged, and with no character gathered the call fails
(`some none`).  `acc` holds the characters gathered before the last fetch.  The
first argument bounds the number of fetches; the result is `none` when it is
used up, which does not happen from `content.length + 1` on because every
fetch but the last moves `pos` forward (`getline_fuel`). -/
def getline (bufSize : Nat) (content : List Char) :
    Nat → List Char → List Char → Nat → Option (Option (List Char × Ifstream))
  | 0, _, _, _ => none
  | fuel + 1, acc, buf, pos =>
    match takeLine buf with
    | (part, some rest) => some (some (acc ++ part, Ifstream.mk rest pos false))
    | (part, none) =>
      if (content.drop pos).take bufSize = [] then
        if acc ++ part = [] then some none
        else some (some (acc ++ part, Ifstream.mk [] pos true))
      else
        getline bufSize content fuel (acc ++ part) ((content.drop pos).take bufSize)
          (pos + ((content.drop pos).take bufSize).length)

/-- The characters of the contacts file as it is now (nothing when the file does
not exist). -/
def fileChars (s : State) : List Char :=
  match s.file with
  | none => []
  | some txt => txt.data

/-- The loop `while (getline(file, line))` of `loadFromFile`.  A stream whose
end-of-file flag is set, or a `getline` that fails, ends the loop; otherwise
the line is parsed and handed to `addContact`, whatever that reports.  Every
successful `addContact` rewrites the contacts file through `saveToFile` while
the stream is still open on it, so the next fetch of the stream reads the
rewritten file.  The result is `none` when the loop takes more than `fuel`
rounds or an `addContact` does not return. -/
def loadLoop (bufSize : Nat) : Nat → State → Ifstream → Option State
  | 0, _, _ => none
  | fuel + 1, s, st =>
    if st.eof then some s
    else
      match getline bufSize (fileChars s) ((fileChars s).length + 1) [] st.buf st.pos with
      | none => none
      | some none => some s
      | some (some (line, st1)) =>
        match addContact s (parseLine line).1 (parseLine line).2.1 (parseLine line).2.2 with
        | none => none
        | some (_, s1) => loadLoop bufSize fuel s1 st1

/-- `loadFromFile`: when the file exists a stream is opened on it and the loop
runs, otherwise only a warning is printed.  `bufSize` is the number of
characters the stream fetches from the file at a time, a constant of the C++
library (8191 with the 8192-byte buffer of libstdc++). -/
def loadFromFile (bufSize fuel : Nat) (s : State) : Option State :=
  match s.file with
  | none => some s
  | some _ => loadLoop bufSize fuel s (Ifstream.mk [] 0 false)

/-- The manager after `addContact("A", "1234567890", "x")` and
`addContact("B", "0987654321", "y")` on an empty manager with a writable file. -/
def sampleStore2 : State :=
  { heap := [Contact.mk "A" "1234567890" "x" (some 1) none,
             Contact.mk "B" "0987654321" "y" none (some 0)],
    freed := [], head := some 1, undoStack := [1, 0], redoStack := [],
    nodes := [GraphNode.mk "A" "x" [1], GraphNode.mk "B" "y" [0]], graph := [0, 1],
    file := some "B,0987654321,y\nA,1234567890,x\n", writable := true }

/-- The manager after `addContact("A", "1234567890", "x")`, an update of the
category of A to `y`, `undo()`, `undo()`, `redo()`, `redo()` on an empty manager
whose file does not open: the cell A is its own `next` and its own `prev`. -/
def cyclicStore : State :=
  { heap := [Contact.mk "A" "1234567890" "y" (some 0) (some 0)],
    freed := [], head := some 0, undoStack := [0, 0], redoStack := [],
    nodes := [GraphNode.mk "A" "x" [], GraphNode.mk "A" "" [], GraphNode.mk "A" "y" [3],
              GraphNode.mk "A" "y" [2]],
    graph := [2, 3], file := none, writable := false }

/-- Characters of the line that `saveToFile` writes for one record, without the
line end. -/
def lineChars (rec : String × String × String) : List Char :=
  rec.1.data ++ ',' :: (rec.2.1.data ++ ',' :: rec.2.2.data)

/-- `text.find(term) != string::npos`: the characters of `term` occur in `text`
as one block (the empty `term` is found in every text). -/
def hasSubstr (term : List Char) : List Char → Bool
  | [] => term.isPrefixOf []
  | ch :: rest => term.isPrefixOf (ch :: rest) || hasSubstr term rest

/-- The `while` loop of `searchContact`: the records printed as "Contact found",
in the order of the traversal. -/
def searchLoop (heap : List Contact) (searchTerm : String) :
    Nat → Option Nat → Option (List (String × String × String))
  | _, none => some []
  | 0, some _ => none
  | fuel + 1, some a =>
    match heap[a]? with
    | none => none
    | some c =>
      (searchLoop heap searchTerm fuel c.next).map (fun rest =>
        if hasSubstr searchTerm.data c.name.data || hasSubstr searchTerm.data c.phone.data ||
            hasSubstr searchTerm.data c.category.data then
          (c.name, c.phone, c.category) :: rest
        else rest)

/-- `searchContact`: the records it prints, and the state, which it only reads.
On an empty store it prints "No contacts to search." and no record. -/
def searchContact (s : State) (searchTerm : String) :
    Option (List (String × String × String) × State) :=
  match s.head with
  | none => some ([], s)
  | some _ =>
    (searchLoop s.heap searchTerm s.heap.length s.head).map (fun found => (found, s))

/-- The `while` loop of `searchByCategory`. -/
def categoryLoop (heap : List Contact) (category : String) :
    Nat → Option Nat → Option (List (String × String × String))
  | _, none => some []
  | 0, some _ => none
  | fuel + 1, some a =>
    match heap[a]? with
    | none => none
    | some c =>
      (categoryLoop heap category fuel c.next).map (fun rest =>
        if c.category = category then (c.name, c.phone, c.category) :: rest else rest)

/-- `searchByCategory`: the records it prints, and the state, which it only
reads.  On an empty store it prints "No contacts to search." and no record. -/
def searchByCategory (s : State) (category : String) :
    Option (List (String × String × String) × State) :=
  match s.head with
  | none => some ([], s)
  | some _ =>
    (categoryLoop s.heap category s.heap.length s.head).map (fun found => (found, s))

/-- `a < b` on `std::string`: lexicographic comparison of the characters by
their values, a proper prefix being smaller. -/
def stringLess : List Char → List Char → Bool
  | _, [] => false
  | [], _ :: _ => true
  | a :: as, b :: bs =>
    if a.toNat < b.toNat then true
    else if b.toNat < a.toNat then false
    else stringLess as bs

/-- Insertion of a name into an ascending sequence, before the first greater
name. -/
def insertSorted (x : String) : List String → List String
  | [] => [x]
  | y :: ys => if stringLess x.data y.data then x :: y :: ys else y :: insertSorted x ys

/-- `sort(names.begin(), names.end())`: the names in ascending order of
`stringLess` (equal strings cannot be told apart, so every sorting algorithm
gives this sequence). -/
def sortNames : List String → List String
  | [] => []
  | x :: xs => insertSorted x (sortNames xs)

/-- The first `while` loop of `sortContacts`: `names.push_back(current->name)`. -/
def namesLoop (heap : List Contact) : Nat → Option Nat → Option (List String)
  | _, none => some []
  | 0, some _ => none
  | fuel + 1, some a =>
    match heap[a]? with
    | none => none
    | some c => (namesLoop heap fuel c.next).map (fun rest => c.name :: rest)

/-- The loop `for (const auto& name : names) searchContact(name);`: what the
calls print, one after the other. -/
def displaySorted (s : State) : List String → Option (List (String × String × String) × State)
  | [] => some ([], s)
  | name :: rest =>
    match searchContact s name with
    | none => none
    | some (found, s1) =>
      match displaySorted s1 rest with
      | none => none
      | some (more, s2) => some (found ++ more, s2)

/-- `sortContacts`: the records it prints, and the state.  On an empty store it
prints "No contacts to sort." and no record. -/
def sortContacts (s : State) : Option (List (String × String × String) × State) :=
  match s.head with
  | none => some ([], s)
  | some _ =>
    match namesLoop s.heap s.heap.length s.head with
    | none => none
    | some names => displaySorted s (sortNames names)

/-- States whose graph was built from the empty graph by calls of `updateGraph`
only. -/
inductive BuiltByLinks : State → Prop where
  | empty (s : State) : s.nodes = [] → s.graph = [] → BuiltByLinks s
  | link {s s1 : State} (name category : String) :
      BuiltByLinks s → updateGraph s name category = some s1 → BuiltByLinks s1

/-- States reachable from an empty manager by calls of `addContact`, `undo` and
`redo`, whatever they report. -/
inductive ReachAUR : State → Prop where
  | empty (file : Option String) (writable : Bool) : ReachAUR (emptyManager file writable)
  | add {s s1 : State} (name phone category : String) (r : Report) :
      ReachAUR s → addContact s name phone category = some (r, s1) → ReachAUR s1
  | undo {s s1 : State} (r : Report) : ReachAUR s → undo s = some (r, s1) → ReachAUR s1
  | redo {s s1 : State} (r : Report) : ReachAUR s → redo s = some (r, s1) → ReachAUR s1

/-- The cells on a redo stack (top first) can be put back by `redo`: each has
no `prev`, and its `next` is null or points into `l`, the store together with
the entries above it on the stack. -/
def RedoOK (heap : List Contact) : List Nat → List Nat → Prop
  | [], _ => True
  | r :: rest, l =>
    (∃ c, heap[r]? = some c ∧ c.prev = none ∧ (c.next = none ∨ ∃ x, c.next = some x ∧ x ∈ l)) ∧
      RedoOK heap rest (r :: l)

/-- Invariant of the states reachable by `addContact`, `undo` and `redo`: the
store is the well-formed list `l`, the undo stack is `l`, and the redo stack
holds other cells that `redo` can put back. -/
structure HistInv (s : State) (l : List Nat) : Prop where
  wf : WF s l
  undo_eq : s.undoStack = l
  nodup : (s.redoStack ++ l).Nodup
  redo_ok : RedoOK s.heap s.redoStack l

/-- `contactExists`: whether the traversal meets a cell of that name. -/
def contactExists (s : State) (name : String) : Option Bool :=
  (findByName s.heap name s.heap.length s.head).map Option.isSome

/-- States reachable from an empty manager by calls of `addContact`,
`updateContact` and `deleteContact`, whatever they report. -/
inductive ReachAUD : State → Prop where
  | empty (file : Option String) (writable : Bool) : ReachAUD (emptyManager file writable)
  | add {s s1 : State} (name phone category : String) (r : Report) :
      ReachAUD s → addContact s name phone category = some (r, s1) → ReachAUD s1
  | update {s s1 : State} (name newPhone newCategory : String) (updateChoice : Int)
      (input : String) (r : Report) :
      ReachAUD s →
      updateContact s name newPhone newCategory updateChoice input = some (r, s1) →
      ReachAUD s1
  | delete {s s1 : State} (name : String) (r : Report) :
      ReachAUD s → deleteContact s name = some (r, s1) → ReachAUD s1

/-- States reachable from an empty manager by calls of `addContact` and
`deleteContact` in which a name is added only when `contactExists` says that no
record has it. -/
inductive ReachADFresh : State → Prop where
  | empty (file : Option String) (writable : Bool) :
      ReachADFresh (emptyManager file writable)
  | add {s s1 : State} (name phone category : String) (r : Report) :
      ReachADFresh s → contactExists s name = some false →
      addContact s name phone category = some (r, s1) → ReachADFresh s1
  | delete {s s1 : State} (name : String) (r : Report) :
      ReachADFresh s → deleteContact s name = some (r, s1) → ReachADFresh s1

/-- The names of the graph entries are, up to order, the names of the store
records. -/
structure NamesInv (s : State) (l : List Nat) : Prop where
  wf : WF s l
  perm : ((graphLabels s).map Prod.fst).Perm ((l.map (fields s.heap)).map (fun rec => rec.1))

/-- The graph entries are, up to order, the (name, category) pairs of the store
records, and no two store records share a name. -/
structure PairsInv (s : State) (l : List Nat) : Prop where
  wf : WF s l
  perm : (graphLabels s).Perm ((l.map (fields s.heap)).map (fun rec => (rec.1, rec.2.2)))
  nodup : ((l.map (fields s.heap)).map (fun rec => rec.1)).Nodup

/-! ## Validation -/

theorem isDigit_iff (ch : Char) : ch.isDigit = true ↔ 48 ≤ ch.toNat ∧ ch.toNat ≤ 57 := by
  simp only [Char.isDigit, Bool.and_eq_true, decide_eq_true_eq, Char.toNat]
  rfl

theorem isDigits_iff (str : String) :
    isDigits str = true ↔ ∀ ch ∈ str.data, 48 ≤ ch.toNat ∧ ch.toNat ≤ 57 := by
  simp only [isDigits, List.all_eq_true, isDigit_iff]

theorem addContact_of_invalid (s : State) (name phone category : String)
    (h : name = "" ∨ phone = "" ∨ category = "" ∨
      ¬ (phone.length = 10 ∧ ∀ ch ∈ phone.data, 48 ≤ ch.toNat ∧ ch.toNat ≤ 57)) :
    addContact s name phone category = some (Report.emptyField, s) ∨
    addContact s name phone category = some (Report.badPhone, s) := by
  unfold addContact
  by_cases h1 : (name.isEmpty || phone.isEmpty || category.isEmpty) = true
  · left; simp [h1]
  · right
    have h2 : (phone.length != 10 || !isDigits phone) = true := by
      simp only [Bool.or_eq_true, String.isEmpty_iff, not_or] at h1
      rcases h with h | h | h | h
      · exact absurd h h1.1.1
      · exact absurd h h1.1.2
      · exact absurd h h1.2
      · simp only [Bool.or_eq_true, bne_iff_ne, ne_eq, Bool.not_eq_true', ← Bool.not_eq_true, isDigits_iff]
        by_contra hc
        exact h ⟨by_contra fun h3 => hc (Or.inl h3), by_contra fun h3 => hc (Or.inr h3)⟩
    simp [h1, h2]

/-! ## Linked segments -/

theorem seg_cons (heap : List Contact) (p e : Option Nat) (a : Nat) (rest : List Nat) :
    Seg heap p (a :: rest) e ↔
      ∃ c, heap[a]? = some c ∧ c.prev = p ∧ c.next = headOr rest e ∧ Seg heap (some a) rest e :=
  Iff.rfl

theorem walk_some_succ (heap : List Contact) (fuel a : Nat) :
    walk heap (fuel + 1) (some a) =
      match heap[a]? with
      | none => none
      | some c => (walk heap fuel c.next).map (fun r => a :: r) := rfl

theorem headOr_append (l1 l2 : List Nat) (e : Option Nat) :
    headOr (l1 ++ l2) e = headOr l1 (headOr l2 e) := by
  cases l1 <;> rfl

theorem lastOr_append (p : Option Nat) (l1 l2 : List Nat) :
    lastOr p (l1 ++ l2) = lastOr (lastOr p l1) l2 := by
  induction l1 generalizing p with
  | nil => rfl
  | cons a rest ih => exact ih (some a)

theorem seg_append (heap : List Contact) (p : Option Nat) (l1 l2 : List Nat) (e : Option Nat) :
    Seg heap p (l1 ++ l2) e ↔ Seg heap p l1 (headOr l2 e) ∧ Seg heap (lastOr p l1) l2 e := by
  induction l1 generalizing p with
  | nil => simp [Seg, lastOr]
  | cons a rest ih =>
    rw [List.cons_append, seg_cons, seg_cons, headOr_append, ih]
    show _ ↔ _ ∧ Seg heap (lastOr (some a) rest) l2 e
    constructor
    · rintro ⟨c, h1, h2, h3, h4, h5⟩
      exact ⟨⟨c, h1, h2, h3, h4⟩, h5⟩
    · rintro ⟨⟨c, h1, h2, h3, h4⟩, h5⟩
      exact ⟨c, h1, h2, h3, h4, h5⟩

theorem seg_frame {heap heap1 : List Contact} {p e : Option Nat} {l : List Nat}
    (hsame : ∀ a ∈ l, heap1[a]? = heap[a]?) (h : Seg heap p l e) : Seg heap1 p l e := by
  induction l generalizing p with
  | nil => trivial
  | cons a rest ih =>
    obtain ⟨c, h1, h2, h3, h4⟩ := h
    refine ⟨c, ?_, h2, h3, ih (fun b hb => hsame b (List.mem_cons_of_mem _ hb)) h4⟩
    rw [hsame a (List.mem_cons_self _ _)]; exact h1

theorem seg_lt {heap : List Contact} {p e : Option Nat} {l : List Nat}
    (h : Seg heap p l e) : ∀ a ∈ l, a < heap.length := by
  induction l generalizing p with
  | nil => intro a ha; cases ha
  | cons b rest ih =>
    obtain ⟨c, h1, -, -, h4⟩ := h
    intro a ha
    rcases List.mem_cons.1 ha with rfl | ha
    · by_contra hlt
      rw [List.getElem?_eq_none (by omega)] at h1
      cases h1
    · exact ih h4 a ha

theorem getElem?_set_other (heap : List Contact) (a b : Nat) (c : Contact) (h : a ≠ b) :
    (heap.set a c)[b]? = heap[b]? := by
  simp [List.getElem?_set, h]

theorem getElem?_set_same (heap : List Contact) (a : Nat) (c d : Contact)
    (h : heap[a]? = some d) : (heap.set a c)[a]? = some c := by
  have hlt : a < heap.length := by
    by_contra hlt
    rw [List.getElem?_eq_none (by omega)] at h
    cases h
  simp [List.getElem?_set, hlt]

theorem seg_setPrev {heap : List Contact} {p e : Option Nat} {a : Nat} {rest : List Nat}
    (h : Seg heap p (a :: rest) e) (hna : a ∉ rest) (q : Option Nat) :
    ∃ c, heap[a]? = some c ∧ setPrev heap a q = some (heap.set a { c with prev := q }) ∧
      Seg (heap.set a { c with prev := q }) q (a :: rest) e := by
  obtain ⟨c, h1, h2, h3, h4⟩ := h
  refine ⟨c, h1, by simp [setPrev, h1], ⟨{ c with prev := q }, getElem?_set_same _ _ _ _ h1, rfl, h3, ?_⟩⟩
  exact seg_frame (fun b hb => getElem?_set_other _ _ _ _ (fun hab => hna (hab ▸ hb))) h4

theorem seg_setNext {heap : List Contact} {p e : Option Nat} {a : Nat} {l : List Nat}
    (h : Seg heap p (l ++ [a]) e) (hna : a ∉ l) (n : Option Nat) :
    ∃ c, heap[a]? = some c ∧ setNext heap a n = some (heap.set a { c with next := n }) ∧
      Seg (heap.set a { c with next := n }) p (l ++ [a]) n := by
  rw [seg_append] at h
  obtain ⟨hl, c, h1, h2, h3, -⟩ := h
  refine ⟨c, h1, by simp [setNext, h1], ?_⟩
  rw [seg_append]
  refine ⟨seg_frame (fun b hb => getElem?_set_other _ _ _ _ (fun hab => hna (hab ▸ hb))) hl,
    ⟨{ c with next := n }, getElem?_set_same _ _ _ _ h1, h2, rfl, trivial⟩⟩

theorem walk_of_seg {heap : List Contact} {p : Option Nat} {l : List Nat}
    (h : Seg heap p l none) (fuel : Nat) (hf : l.length ≤ fuel) :
    walk heap fuel (headOr l none) = some l := by
  induction l generalizing p fuel with
  | nil => cases fuel <;> rfl
  | cons a rest ih =>
    obtain ⟨c, h1, -, h3, h4⟩ := h
    cases fuel with
    | zero => simp at hf
    | succ f =>
      have := ih h4 f (by simpa using hf)
      show walk heap (f + 1) (some a) = some (a :: rest)
      rw [walk_some_succ, h1]
      simp only [h3, this, Option.map_some']

theorem length_le_of_nodup_lt {l : List Nat} {n : Nat} (hnd : l.Nodup) (hlt : ∀ a ∈ l, a < n) :
    l.length ≤ n := by
  have hsub : l ⊆ List.range n := fun a ha => List.mem_range.2 (hlt a ha)
  simpa using (List.subperm_of_subset hnd hsub).length_le


/-! ## Graph and traversal loops -/

theorem pushConnection_spec (nodes : List GraphNode) (q x : Nat) (hq : q < nodes.length) :
    ∃ nodes1, pushConnection nodes q x = some nodes1 ∧ nodes1.length = nodes.length ∧
      ∀ r, nodeLabel nodes1 r = nodeLabel nodes r := by
  have hget : nodes[q]? = some nodes[q] := List.getElem?_eq_getElem hq
  refine ⟨nodes.set q { nodes[q] with connections := nodes[q].connections ++ [x] },
    by simp only [pushConnection, hget], by simp, fun r => ?_⟩
  unfold nodeLabel
  by_cases hr : q = r
  · subst hr
    simp [List.getElem?_set, hq]
  · simp [List.getElem?_set, hr]

theorem nodeLabel_append_lt (nodes : List GraphNode) (g : GraphNode) (q : Nat)
    (hq : q < nodes.length) : nodeLabel (nodes ++ [g]) q = nodeLabel nodes q := by
  unfold nodeLabel
  rw [List.getElem?_append_left hq]

theorem nodeLabel_append_length (nodes : List GraphNode) (g : GraphNode) :
    nodeLabel (nodes ++ [g]) nodes.length = (g.name, g.category) := by
  unfold nodeLabel
  simp

theorem updateGraph_spec (s : State) (name category : String)
    (hg : ∀ q ∈ s.graph, q < s.nodes.length) :
    ∃ nodes1, updateGraph s name category =
        some { s with nodes := nodes1, graph := s.graph ++ [s.nodes.length] } ∧
      nodes1.length = s.nodes.length + 1 ∧
      (∀ q, q < s.nodes.length → nodeLabel nodes1 q = nodeLabel s.nodes q) ∧
      nodeLabel nodes1 s.nodes.length = (name, category) := by
  unfold updateGraph
  by_cases hlen : (s.graph ++ [s.nodes.length]).length > 1
  · simp only [hlen, if_true]
    have hpos : 0 < s.graph.length := by simpa using hlen
    have hidx : (s.graph ++ [s.nodes.length]).length - 2 < s.graph.length := by
      simp only [List.length_append, List.length_singleton]; omega
    obtain ⟨q0, hq0, hget⟩ : ∃ q0, q0 ∈ s.graph ∧
        (s.graph ++ [s.nodes.length])[(s.graph ++ [s.nodes.length]).length - 2]? = some q0 :=
      ⟨_, List.getElem_mem hidx, by
        rw [List.getElem?_append_left hidx, List.getElem?_eq_getElem hidx]⟩
    have hq : q0 < s.nodes.length := hg _ hq0
    obtain ⟨n2, h2, hl2, hlab2⟩ := pushConnection_spec
      (s.nodes ++ [{ name := name, category := category, connections := [] }])
      q0 s.nodes.length
      (by rw [List.length_append]; exact Nat.lt_add_right _ hq)
    obtain ⟨n3, h3, hl3, hlab3⟩ := pushConnection_spec n2 s.nodes.length q0
      (by rw [hl2]; simp)
    rw [hget]
    simp only [h2, h3]
    refine ⟨n3, rfl, by rw [hl3, hl2]; simp, fun q hq => ?_, ?_⟩
    · rw [hlab3, hlab2, nodeLabel_append_lt _ _ _ hq]
    · rw [hlab3, hlab2, nodeLabel_append_length]
  · simp only [hlen, if_false]
    exact ⟨_, rfl, by simp, fun q hq => nodeLabel_append_lt _ _ _ hq,
      nodeLabel_append_length _ _⟩

theorem removeGraphEntry_spec (nodes : List GraphNode) (graph : List Nat) (name : String)
    (hg : ∀ q ∈ graph, q < nodes.length) :
    ∃ graph1, removeGraphEntry nodes graph name = some graph1 ∧
      graph1.map (nodeLabel nodes) =
        (graph.map (nodeLabel nodes)).eraseP (fun lab => decide (lab.1 = name)) ∧
      ∀ q ∈ graph1, q ∈ graph := by
  induction graph with
  | nil => exact ⟨[], rfl, rfl, fun q hq => hq⟩
  | cons q rest ih =>
    have hq : q < nodes.length := hg q (List.mem_cons_self _ _)
    have hget : nodes[q]? = some nodes[q] := List.getElem?_eq_getElem hq
    obtain ⟨g1, h1, h2, h3⟩ := ih (fun r hr => hg r (List.mem_cons_of_mem _ hr))
    have hlab : nodeLabel nodes q = (nodes[q].name, nodes[q].category) := by
      simp only [nodeLabel, hget]
    by_cases hn : nodes[q].name = name
    · refine ⟨rest, by simp only [removeGraphEntry, hget, hn, if_true], ?_,
        fun r hr => List.mem_cons_of_mem _ hr⟩
      rw [List.map_cons, List.eraseP_cons_of_pos]
      simp [hlab, hn]
    · refine ⟨q :: g1, by simp only [removeGraphEntry, hget, hn, if_false, h1, Option.map_some'],
        ?_, ?_⟩
      · rw [List.map_cons, List.map_cons, List.eraseP_cons_of_neg, h2]
        simp [hlab, hn]
      · intro r hr
        rcases List.mem_cons.1 hr with rfl | hr
        · exact List.mem_cons_self _ _
        · exact List.mem_cons_of_mem _ (h3 r hr)

theorem saveLoop_eq_walk (heap : List Contact) (fuel : Nat) (p : Option Nat) :
    saveLoop heap fuel p = (walk heap fuel p).map (fun l => serialize (l.map (fields heap))) := by
  induction fuel generalizing p with
  | zero => cases p <;> rfl
  | succ f ih =>
    cases p with
    | none => rfl
    | some a =>
      cases hc : heap[a]? with
      | none => simp only [saveLoop, walk, hc, Option.map_none']
      | some c =>
        simp only [saveLoop, walk, hc, ih, Option.map_map]
        congr 1
        funext l
        simp only [Function.comp, List.map_cons, serialize, fields, hc]

theorem findByName_eq_walk {heap : List Contact} {fuel : Nat} {p : Option Nat} {l : List Nat}
    (name : String) (h : walk heap fuel p = some l) :
    findByName heap name fuel p = some (l.find? (fun a => decide ((fields heap a).1 = name))) := by
  induction fuel generalizing p l with
  | zero =>
    cases p with
    | none => cases h; rfl
    | some a => cases h
  | succ f ih =>
    cases p with
    | none => cases h; rfl
    | some a =>
      cases hc : heap[a]? with
      | none => simp [walk, hc] at h
      | some c =>
        simp only [walk, hc, Option.map_eq_some'] at h
        obtain ⟨r, hr, rfl⟩ := h
        by_cases hn : c.name = name
        · simp [findByName, hc, hn, fields]
        · simp [findByName, hc, hn, fields, ih hr]

/-! ## Well-formed stores and addContact -/

theorem storeOrder_of_wf {s : State} {l : List Nat} (h : WF s l) : storeOrder s = some l := by
  unfold storeOrder
  rw [h.head_eq]
  exact walk_of_seg h.seg _ (length_le_of_nodup_lt h.nodup (seg_lt h.seg))

theorem saveToFile_of_wf {s : State} {l : List Nat} (h : WF s l) :
    saveToFile s = some { s with
      file := (if s.writable then some (serialize (l.map (fields s.heap))) else s.file) } := by
  unfold saveToFile
  have hw := storeOrder_of_wf h
  unfold storeOrder at hw
  by_cases hwr : s.writable = true
  · rw [if_pos hwr, if_pos hwr, saveLoop_eq_walk, hw]
    rfl
  · rw [if_neg hwr, if_neg hwr]

theorem fields_of_getElem? {heap : List Contact} {a : Nat} {c : Contact}
    (h : heap[a]? = some c) : fields heap a = (c.name, c.phone, c.category) := by
  simp only [fields, h]

theorem fields_congr {heap heap1 : List Contact} {a : Nat} (h : heap1[a]? = heap[a]?) :
    fields heap1 a = fields heap a := by
  simp only [fields, h]

theorem map_fields_congr {heap heap1 : List Contact} {l : List Nat}
    (h : ∀ a ∈ l, fields heap1 a = fields heap a) :
    l.map (fields heap1) = l.map (fields heap) :=
  List.map_congr_left h

theorem graphLabels_append (s : State) (nodes1 : List GraphNode) (name category : String)
    (hg : ∀ q ∈ s.graph, q < s.nodes.length)
    (hold : ∀ q, q < s.nodes.length → nodeLabel nodes1 q = nodeLabel s.nodes q)
    (hnew : nodeLabel nodes1 s.nodes.length = (name, category)) :
    (s.graph ++ [s.nodes.length]).map (nodeLabel nodes1) =
      graphLabels s ++ [(name, category)] := by
  unfold graphLabels
  rw [List.map_append, List.map_singleton, hnew]
  congr 1
  exact List.map_congr_left (fun q hq => hold q (hg q hq))

theorem isEmpty_eq_false {str : String} (h : str ≠ "") : str.isEmpty = false := by
  cases hb : str.isEmpty with
  | false => rfl
  | true => exact absurd ((String.isEmpty_iff str).1 hb) h

theorem addContact_valid_eq (s : State) (name phone category : String)
    (hn : name ≠ "") (hp : phone.length = 10)
    (hd : ∀ ch ∈ phone.data, 48 ≤ ch.toNat ∧ ch.toNat ≤ 57) (hc : category ≠ "") :
    addContact s name phone category =
      match (match s.head with
        | none => some (s.heap ++
            [(Contact.mk name phone category none none)])
        | some h =>
          match setNext (s.heap ++
            [(Contact.mk name phone category none none)])
            s.heap.length (some h) with
          | none => none
          | some heap1 => setPrev heap1 h (some s.heap.length)) with
      | none => none
      | some heap2 =>
        match updateGraph { s with heap := heap2, head := some s.heap.length,
                                   undoStack := s.heap.length :: s.undoStack } name category with
        | none => none
        | some s2 =>
          match saveToFile s2 with
          | none => none
          | some s3 => some (Report.added, s3) := by
  have hpe : phone ≠ "" := by
    intro h; rw [h] at hp; simp at hp
  have h1 : (name.isEmpty || phone.isEmpty || category.isEmpty) = false := by
    simp [isEmpty_eq_false hn, isEmpty_eq_false hpe, isEmpty_eq_false hc]
  have h2 : (phone.length != 10 || !isDigits phone) = false := by
    simp [hp, (isDigits_iff phone).2 hd]
  unfold addContact
  simp only [h1, h2, Bool.false_eq_true, if_false]

theorem addContact_wf {s : State} {l : List Nat} (h : WF s l) (name phone category : String)
    (hn : name ≠ "") (hp : phone.length = 10)
    (hd : ∀ ch ∈ phone.data, 48 ≤ ch.toNat ∧ ch.toNat ≤ 57) (hc : category ≠ "") :
    ∃ s1, addContact s name phone category = some (Report.added, s1) ∧
      AddPost s name phone category l s1 := by
  have hlt := seg_lt h.seg
  have hnotin : s.heap.length ∉ l := fun hm => Nat.lt_irrefl _ (hlt _ hm)
  -- the linking step
  obtain ⟨heap2, hlink, hseg2, hlen2, hnew2, hold2⟩ :
      ∃ heap2, (match s.head with
        | none => some (s.heap ++
            [(Contact.mk name phone category none none)])
        | some h =>
          match setNext (s.heap ++
            [(Contact.mk name phone category none none)])
            s.heap.length (some h) with
          | none => none
          | some heap1 => setPrev heap1 h (some s.heap.length)) = some heap2 ∧
        Seg heap2 none (s.heap.length :: l) none ∧ heap2.length = s.heap.length + 1 ∧
        fields heap2 s.heap.length = (name, phone, category) ∧
        (∀ a, a < s.heap.length →
          (fields heap2 a = fields s.heap a ∧ (s.head ≠ some a → heap2[a]? = s.heap[a]?))) := by
    cases l with
    | nil =>
      have hh : s.head = none := h.head_eq
      refine ⟨s.heap ++ [(Contact.mk name phone category none none)], by rw [hh],
        ⟨(Contact.mk name phone category none none),
          by simp, rfl, rfl, trivial⟩, by simp, ?_, ?_⟩
      · simp [fields]
      · intro a ha
        have : (s.heap ++ [(Contact.mk name phone category none none)])[a]? = s.heap[a]? :=
          List.getElem?_append_left ha
        exact ⟨fields_congr this, fun _ => this⟩
    | cons b rest =>
      have hh : s.head = some b := h.head_eq
      have hb : b < s.heap.length := hlt b (List.mem_cons_self _ _)
      have hab : s.heap.length ≠ b := by omega
      set c0 : Contact := Contact.mk name phone category none none with hc0
      have hget0 : (s.heap ++ [c0])[s.heap.length]? = some c0 := by simp
      have hsegb : Seg (s.heap ++ [c0]) none (b :: rest) none :=
        seg_frame (fun a ha => List.getElem?_append_left (hlt a ha)) h.seg
      have hseg1 : Seg ((s.heap ++ [c0]).set s.heap.length { c0 with next := some b })
          none (b :: rest) none :=
        seg_frame (fun a ha => getElem?_set_other _ _ _ _
          (fun hEq => hnotin (hEq ▸ ha))) hsegb
      obtain ⟨cb, hcb, hset, hseg2⟩ := seg_setPrev hseg1 (List.nodup_cons.1 h.nodup).1
        (some s.heap.length)
      refine ⟨((s.heap ++ [c0]).set s.heap.length { c0 with next := some b }).set b
          { cb with prev := some s.heap.length }, ?_,
        ⟨{ c0 with next := some b }, ?_, rfl, rfl, hseg2⟩, by simp, ?_, ?_⟩
      · rw [hh]
        simp only [setNext, hget0, hset]
      · rw [getElem?_set_other _ _ _ _ (Ne.symm hab)]
        exact getElem?_set_same _ _ _ _ hget0
      · have : (((s.heap ++ [c0]).set s.heap.length { c0 with next := some b }).set b
            { cb with prev := some s.heap.length })[s.heap.length]? =
            some { c0 with next := some b } := by
          rw [getElem?_set_other _ _ _ _ (Ne.symm hab)]
          exact getElem?_set_same _ _ _ _ hget0
        rw [fields_of_getElem? this]
      · intro a ha
        have hcb0 : s.heap[b]? = some cb := by
          rw [getElem?_set_other _ _ _ _ hab, List.getElem?_append_left hb] at hcb
          exact hcb
        by_cases hEq : b = a
        · subst hEq
          refine ⟨?_, fun hne => absurd hh hne⟩
          rw [fields_of_getElem? (getElem?_set_same _ _ _ _ hcb), fields_of_getElem? hcb0]
        · have : (((s.heap ++ [c0]).set s.heap.length { c0 with next := some b }).set b
              { cb with prev := some s.heap.length })[a]? = s.heap[a]? := by
            rw [getElem?_set_other _ _ _ _ hEq,
              getElem?_set_other _ _ _ _ (by omega), List.getElem?_append_left ha]
          exact ⟨fields_congr this, fun _ => this⟩
  -- the graph step
  obtain ⟨nodes1, hug, hnl, hlabold, hlabnew⟩ := updateGraph_spec
    (State.mk heap2 s.freed (some s.heap.length) (s.heap.length :: s.undoStack) s.redoStack
      s.nodes s.graph s.file s.writable) name category h.graph_lt
  have hwf2 : WF (State.mk heap2 s.freed (some s.heap.length) (s.heap.length :: s.undoStack)
      s.redoStack nodes1 (s.graph ++ [s.nodes.length]) s.file s.writable) (s.heap.length :: l) :=
    { head_eq := rfl
      seg := hseg2
      nodup := List.nodup_cons.2 ⟨hnotin, h.nodup⟩
      graph_lt := by
        intro q hq
        show q < nodes1.length
        rw [hnl]
        rcases List.mem_append.1 hq with hq | hq
        · exact Nat.lt_succ_of_lt (h.graph_lt q hq)
        · rw [List.mem_singleton.1 hq]; exact Nat.lt_succ_self _ }
  have hsave := saveToFile_of_wf hwf2
  refine ⟨State.mk heap2 s.freed (some s.heap.length) (s.heap.length :: s.undoStack)
    s.redoStack nodes1 (s.graph ++ [s.nodes.length])
    (if s.writable then some (serialize ((s.heap.length :: l).map (fields heap2))) else s.file)
    s.writable, ?_, ?_⟩
  · rw [addContact_valid_eq s name phone category hn hp hd hc, hlink]
    simp only [hug]
    simp only [hsave]
  · exact
      { wf := ⟨rfl, hseg2, hwf2.nodup, hwf2.graph_lt⟩
        heap_length := hlen2
        fields_new := hnew2
        fields_old := fun a ha => (hold2 a ha).1
        cell_old := fun a ha hne => (hold2 a ha).2 hne
        undoStack_eq := rfl
        redoStack_eq := rfl
        freed_eq := rfl
        graph_eq := rfl
        graphLabels_eq := graphLabels_append s nodes1 name category h.graph_lt hlabold hlabnew
        writable_eq := rfl
        file_eq := by
          show (if s.writable = true then _ else _) = _
          rw [List.map_cons, hnew2, map_fields_congr (fun a ha => (hold2 a (hlt a ha)).1)] }

/-! ## Unlinking a cell -/

theorem fields_set_prev (heap : List Contact) (b : Nat) (cb : Contact) (q : Option Nat)
    (hcb : heap[b]? = some cb) (a : Nat) :
    fields (heap.set b { cb with prev := q }) a = fields heap a := by
  by_cases hEq : b = a
  · subst hEq
    rw [fields_of_getElem? (getElem?_set_same _ _ _ _ hcb), fields_of_getElem? hcb]
  · exact fields_congr (getElem?_set_other _ _ _ _ hEq)

theorem fields_set_next (heap : List Contact) (b : Nat) (cb : Contact) (q : Option Nat)
    (hcb : heap[b]? = some cb) (a : Nat) :
    fields (heap.set b { cb with next := q }) a = fields heap a := by
  by_cases hEq : b = a
  · subst hEq
    rw [fields_of_getElem? (getElem?_set_same _ _ _ _ hcb), fields_of_getElem? hcb]
  · exact fields_congr (getElem?_set_other _ _ _ _ hEq)

/-- The assignment `r->next->prev = r->prev` repairs the part of the list behind `r`. -/
theorem unlink_next_side {heap : List Contact} {r : Nat} {post : List Nat} {e : Option Nat}
    (hseg : Seg heap (some r) post e) (hnd : post.Nodup) (cprev : Option Nat) :
    ∃ heap1, (match headOr post none with
        | some n => setPrev heap n cprev
        | none => some heap) = some heap1 ∧
      Seg heap1 cprev post e ∧ heap1.length = heap.length ∧
      (∀ a, a ∉ post → heap1[a]? = heap[a]?) ∧ (∀ a, fields heap1 a = fields heap a) := by
  cases post with
  | nil => exact ⟨heap, rfl, trivial, rfl, fun _ _ => rfl, fun _ => rfl⟩
  | cons b rest =>
    obtain ⟨cb, hcb, hset, hseg1⟩ := seg_setPrev hseg (List.nodup_cons.1 hnd).1 cprev
    refine ⟨heap.set b { cb with prev := cprev }, hset, hseg1, by simp, fun a ha => ?_,
      fields_set_prev heap b cb cprev hcb⟩
    exact getElem?_set_other _ _ _ _ (fun hEq => ha (hEq ▸ List.mem_cons_self _ _))

theorem lastOr_concat (p : Option Nat) (l : List Nat) (q : Nat) :
    lastOr p (l ++ [q]) = some q := by
  rw [lastOr_append]; rfl

/-- The assignment `r->prev->next = r->next`, or `head = r->next` when `r` has no
predecessor, repairs the part of the list in front of `r`. -/
theorem unlink_prev_side {heap : List Contact} {pre : List Nat} {e : Option Nat}
    (hseg : Seg heap none pre e) (hnd : pre.Nodup) (head cnext : Option Nat) :
    ∃ heap2 head2, (match lastOr none pre with
        | some p => (setNext heap p cnext).map (fun h => (h, head))
        | none => some (heap, cnext)) = some (heap2, head2) ∧
      Seg heap2 none pre cnext ∧ heap2.length = heap.length ∧
      head2 = (if pre = [] then cnext else head) ∧
      (∀ a, a ∉ pre → heap2[a]? = heap[a]?) ∧ (∀ a, fields heap2 a = fields heap a) := by
  rcases List.eq_nil_or_concat pre with rfl | ⟨pre1, q, hpre⟩
  · exact ⟨heap, cnext, rfl, trivial, rfl, rfl, fun _ _ => rfl, fun _ => rfl⟩
  · rw [List.concat_eq_append] at hpre
    subst hpre
    have hq : q ∉ pre1 := by
      intro hm
      have := List.nodup_append.1 hnd
      exact this.2.2 hm (List.mem_singleton_self q)
    obtain ⟨cq, hcq, hset, hseg2⟩ := seg_setNext hseg hq cnext
    refine ⟨heap.set q { cq with next := cnext }, head, ?_, hseg2, by simp, by simp,
      fun a ha => ?_, fields_set_next heap q cq cnext hcq⟩
    · rw [lastOr_concat]
      simp only [hset, Option.map_some']
    · exact getElem?_set_other _ _ _ _
        (fun hEq => ha (hEq ▸ List.mem_append_right _ (List.mem_singleton_self q)))

/-! ## undo -/

theorem erase_middle {pre post : List Nat} {r : Nat} (h : r ∉ pre) :
    (pre ++ r :: post).erase r = pre ++ post := by
  rw [List.erase_append_right _ h, List.erase_cons_head]

theorem undo_eq_of_steps {s : State} {r : Nat} {rest : List Nat} {c : Contact}
    {heap1 heap2 : List Contact} {head2 : Option Nat} {graph1 : List Nat} {s2 : State}
    (hU : s.undoStack = r :: rest) (hc : s.heap[r]? = some c)
    (h1 : (match c.next with
        | some n => setPrev s.heap n c.prev
        | none => some s.heap) = some heap1)
    (hc1 : heap1[r]? = some c)
    (h2 : (match c.prev with
        | some p => (setNext heap1 p c.next).map (fun h => (h, s.head))
        | none => some (heap1, c.next)) = some (heap2, head2))
    (hc2 : heap2[r]? = some c)
    (hg : removeGraphEntry s.nodes s.graph c.name = some graph1)
    (hs : saveToFile (State.mk heap2 s.freed head2 rest (r :: s.redoStack) s.nodes graph1
        s.file s.writable) = some s2) :
    undo s = some (Report.undone, s2) := by
  unfold undo
  simp only [hU, hc, h1, hc1, h2, hc2, hg, hs]

theorem undo_wf {s : State} {l : List Nat} (h : WF s l) {r : Nat} {rest : List Nat}
    (hU : s.undoStack = r :: rest) (hr : r ∈ l) :
    ∃ s1, undo s = some (Report.undone, s1) ∧ UndoPost s r rest l s1 := by
  obtain ⟨pre, post, rfl⟩ := List.append_of_mem hr
  have hnd := h.nodup
  rw [List.nodup_append] at hnd
  obtain ⟨hndpre, hndrpost, hdisj⟩ := hnd
  have hrpost : r ∉ post := (List.nodup_cons.1 hndrpost).1
  have hndpost : post.Nodup := (List.nodup_cons.1 hndrpost).2
  have hrpre : r ∉ pre := fun hm => hdisj hm (List.mem_cons_self _ _)
  have hpp : ∀ a, a ∈ pre → a ∉ post := fun a ha hp => hdisj ha (List.mem_cons_of_mem _ hp)
  have hseg := h.seg
  rw [seg_append] at hseg
  obtain ⟨hpre, c, hc, hcp, hcn, hpost⟩ := hseg
  have hpre0 : Seg s.heap none pre (some r) := hpre
  -- first assignment
  obtain ⟨heap1, h1, hseg1, hlen1, hframe1, hfields1⟩ := unlink_next_side hpost hndpost c.prev
  have hc1 : heap1[r]? = some c := by rw [hframe1 r hrpost]; exact hc
  have hpre1 : Seg heap1 none pre (some r) :=
    seg_frame (fun a ha => hframe1 a (hpp a ha)) hpre0
  -- second assignment
  obtain ⟨heap2, head2, h2, hseg2, hlen2, hhead2, hframe2, hfields2⟩ :=
    unlink_prev_side hpre1 hndpre s.head c.next
  have hc2 : heap2[r]? = some c := by rw [hframe2 r hrpre]; exact hc1
  have hpost2 : Seg heap2 c.prev post none :=
    seg_frame (fun a ha => hframe2 a (fun hp => hpp a hp ha)) hseg1
  have hsegF : Seg heap2 none (pre ++ post) none := by
    rw [seg_append]
    exact ⟨hcn ▸ hseg2, hcp ▸ hpost2⟩
  have hheadF : head2 = headOr (pre ++ post) none := by
    rw [hhead2]
    cases pre with
    | nil => simp only [if_true, List.nil_append]; exact hcn
    | cons b pre1 => simp only [if_false, reduceCtorEq]; exact h.head_eq
  obtain ⟨graph1, hg, hlab, hsub⟩ := removeGraphEntry_spec s.nodes s.graph c.name h.graph_lt
  have hwfF : WF (State.mk heap2 s.freed head2 rest (r :: s.redoStack) s.nodes graph1
      s.file s.writable) (pre ++ post) :=
    { head_eq := hheadF
      seg := hsegF
      nodup := by
        rw [List.nodup_append]
        exact ⟨hndpre, hndpost, fun a ha hp => hpp a ha hp⟩
      graph_lt := fun q hq => h.graph_lt q (hsub q hq) }
  have hsave := saveToFile_of_wf hwfF
  have hfieldsF : ∀ a, fields heap2 a = fields s.heap a := fun a => by
    rw [hfields2, hfields1]
  refine ⟨_, undo_eq_of_steps hU hc (hcn ▸ h1) hc1 (hcp ▸ h2) hc2 hg hsave, ?_⟩
  have he : (pre ++ r :: post).erase r = pre ++ post := erase_middle hrpre
  exact
    { wf := by rw [he]; exact ⟨hheadF, hsegF, hwfF.nodup, hwfF.graph_lt⟩
      heap_length := by show heap2.length = _; rw [hlen2, hlen1]
      fields_eq := hfieldsF
      cell_self := by show heap2[r]? = _; rw [hc2, hc]
      cell_other := fun a ha => by
        show heap2[a]? = _
        rw [hframe2 a (fun hp => ha (List.mem_append_left _ hp)),
          hframe1 a (fun hp => ha (List.mem_append_right _ (List.mem_cons_of_mem _ hp)))]
      undoStack_eq := rfl
      redoStack_eq := rfl
      freed_eq := rfl
      nodes_eq := rfl
      graphLabels_eq := by
        show graph1.map (nodeLabel s.nodes) = _
        rw [hlab, fields_of_getElem? hc]
        rfl
      writable_eq := rfl
      file_eq := by
        show (if s.writable = true then _ else _) = _
        rw [he, map_fields_congr (fun a _ => hfieldsF a)] }

/-! ## redo -/

theorem redo_eq_of_steps {s : State} {r : Nat} {rest : List Nat} {c : Contact}
    {heap2 : List Contact} {s2 s3 : State}
    (hR : s.redoStack = r :: rest)
    (h1 : (match s.head with
        | some h =>
          match setNext s.heap r (some h) with
          | none => none
          | some heap1 => setPrev heap1 h (some r)
        | none => some s.heap) = some heap2)
    (hc : heap2[r]? = some c)
    (hg : updateGraph (State.mk heap2 s.freed (some r) (r :: s.undoStack) rest s.nodes s.graph
        s.file s.writable) c.name c.category = some s2)
    (hs : saveToFile s2 = some s3) :
    redo s = some (Report.redone, s3) := by
  unfold redo
  simp only [hR, h1, hc, hg, hs]

theorem redo_wf {s : State} {l : List Nat} (h : WF s l) {r : Nat} {rest : List Nat}
    (hR : s.redoStack = r :: rest) {c : Contact} (hc : s.heap[r]? = some c)
    (hprev : c.prev = none) (hnext : l = [] → c.next = none) (hr : r ∉ l) :
    ∃ s1, redo s = some (Report.redone, s1) ∧ RedoPost s r rest l s1 := by
  have hlt := seg_lt h.seg
  obtain ⟨heap2, hlink, hseg2, hlen2, hfields2, hcell2, c2, hc2, hname2, hcat2⟩ :
      ∃ heap2, (match s.head with
        | some h =>
          match setNext s.heap r (some h) with
          | none => none
          | some heap1 => setPrev heap1 h (some r)
        | none => some s.heap) = some heap2 ∧
        Seg heap2 none (r :: l) none ∧ heap2.length = s.heap.length ∧
        (∀ a, fields heap2 a = fields s.heap a) ∧
        (∀ a, a ≠ r → s.head ≠ some a → heap2[a]? = s.heap[a]?) ∧
        ∃ c2, heap2[r]? = some c2 ∧ c2.name = c.name ∧ c2.category = c.category := by
    cases l with
    | nil =>
      have hh : s.head = none := h.head_eq
      refine ⟨s.heap, by rw [hh], ⟨c, hc, hprev, hnext rfl, trivial⟩, rfl, fun _ => rfl,
        fun _ _ _ => rfl, c, hc, rfl, rfl⟩
    | cons b rest1 =>
      have hh : s.head = some b := h.head_eq
      have hrb : r ≠ b := fun hEq => hr (hEq ▸ List.mem_cons_self _ _)
      have hseg1 : Seg (s.heap.set r { c with next := some b }) none (b :: rest1) none :=
        seg_frame (fun a ha => getElem?_set_other _ _ _ _ (fun hEq => hr (hEq ▸ ha))) h.seg
      obtain ⟨cb, hcb, hset, hsegb⟩ := seg_setPrev hseg1 (List.nodup_cons.1 h.nodup).1 (some r)
      have hcr : ((s.heap.set r { c with next := some b }).set b
          { cb with prev := some r })[r]? = some { c with next := some b } := by
        rw [getElem?_set_other _ _ _ _ (Ne.symm hrb)]
        exact getElem?_set_same _ _ _ _ hc
      refine ⟨(s.heap.set r { c with next := some b }).set b { cb with prev := some r }, ?_,
        ⟨{ c with next := some b }, hcr, hprev, rfl, hsegb⟩, by simp, fun a => ?_,
        fun a har hab => ?_, { c with next := some b }, hcr, rfl, rfl⟩
      · rw [hh]
        simp only [setNext, hc, hset]
      · rw [fields_set_prev _ b cb (some r) hcb a, fields_set_next _ r c (some b) hc a]
      · rw [getElem?_set_other _ _ _ _ (fun hEq => hab (by rw [← hEq]; exact hh)),
          getElem?_set_other _ _ _ _ (Ne.symm har)]
  obtain ⟨nodes1, hug, hnl, hlabold, hlabnew⟩ := updateGraph_spec
    (State.mk heap2 s.freed (some r) (r :: s.undoStack) rest s.nodes s.graph s.file s.writable)
    c2.name c2.category h.graph_lt
  have hwf2 : WF (State.mk heap2 s.freed (some r) (r :: s.undoStack) rest nodes1
      (s.graph ++ [s.nodes.length]) s.file s.writable) (r :: l) :=
    { head_eq := rfl
      seg := hseg2
      nodup := List.nodup_cons.2 ⟨hr, h.nodup⟩
      graph_lt := by
        intro q hq
        show q < nodes1.length
        rw [hnl]
        rcases List.mem_append.1 hq with hq | hq
        · exact Nat.lt_succ_of_lt (h.graph_lt q hq)
        · rw [List.mem_singleton.1 hq]; exact Nat.lt_succ_self _ }
  have hsave := saveToFile_of_wf hwf2
  refine ⟨_, redo_eq_of_steps hR hlink hc2 hug hsave, ?_⟩
  exact
    { wf := ⟨rfl, hseg2, hwf2.nodup, hwf2.graph_lt⟩
      heap_length := hlen2
      fields_eq := hfields2
      cell_other := hcell2
      undoStack_eq := rfl
      redoStack_eq := rfl
      freed_eq := rfl
      graphLabels_eq := by
        have := graphLabels_append s nodes1 c2.name c2.category h.graph_lt hlabold hlabnew
        rw [fields_of_getElem? hc, ← hname2, ← hcat2]
        exact this
      writable_eq := rfl
      file_eq := by
        show (if s.writable = true then _ else _) = _
        rw [map_fields_congr (fun a _ => hfields2 a)] }

/-! ## deleteContact -/

theorem deleteContact_eq_of_steps {s : State} {name : String} {h0 r : Nat} {c c2 : Contact}
    {heap1 heap2 : List Contact} {head1 : Option Nat} {graph1 : List Nat} {s2 : State}
    (hh : s.head = some h0)
    (hf : findByName s.heap name s.heap.length s.head = some (some r))
    (hc : s.heap[r]? = some c)
    (h1 : (match c.prev with
        | some p => (setNext s.heap p c.next).map (fun h => (h, s.head))
        | none => some (s.heap, c.next)) = some (heap1, head1))
    (hc1 : heap1[r]? = some c)
    (h2 : (match c.next with
        | some n => setPrev heap1 n c.prev
        | none => some heap1) = some heap2)
    (hg : removeGraphEntry s.nodes s.graph name = some graph1)
    (hs : saveToFile (State.mk heap2 s.freed head1 s.undoStack s.redoStack s.nodes graph1
        s.file s.writable) = some s2)
    (hc2 : s2.heap[r]? = some c2) :
    deleteContact s name = some (Report.deleted c2.name c2.phone c2.category,
      { s2 with freed := r :: s2.freed }) := by
  rw [hh] at hf h1
  unfold deleteContact
  simp only [hh, hf, hc, h1, hc1, h2, hg, hs, hc2]

theorem deleteContact_wf {s : State} {l : List Nat} (h : WF s l) (name : String) {r : Nat}
    (hfind : l.find? (fun a => decide ((fields s.heap a).1 = name)) = some r) :
    ∃ s1, deleteContact s name =
        some (Report.deleted (fields s.heap r).1 (fields s.heap r).2.1 (fields s.heap r).2.2, s1) ∧
      DeletePost s name r l s1 := by
  have hr : r ∈ l := List.mem_of_find?_eq_some hfind
  have hf : findByName s.heap name s.heap.length s.head = some (some r) := by
    rw [findByName_eq_walk name (storeOrder_of_wf h), hfind]
  obtain ⟨pre, post, rfl⟩ := List.append_of_mem hr
  have hnd := h.nodup
  rw [List.nodup_append] at hnd
  obtain ⟨hndpre, hndrpost, hdisj⟩ := hnd
  have hrpost : r ∉ post := (List.nodup_cons.1 hndrpost).1
  have hndpost : post.Nodup := (List.nodup_cons.1 hndrpost).2
  have hrpre : r ∉ pre := fun hm => hdisj hm (List.mem_cons_self _ _)
  have hpp : ∀ a, a ∈ pre → a ∉ post := fun a ha hp => hdisj ha (List.mem_cons_of_mem _ hp)
  obtain ⟨h0, hh⟩ : ∃ h0, s.head = some h0 := by
    rw [h.head_eq]
    cases pre with
    | nil => exact ⟨r, rfl⟩
    | cons b pre1 => exact ⟨b, rfl⟩
  have hseg := h.seg
  rw [seg_append] at hseg
  obtain ⟨hpre, c, hc, hcp, hcn, hpost⟩ := hseg
  have hpre0 : Seg s.heap none pre (some r) := hpre
  -- first assignment
  obtain ⟨heap1, head1, h1, hseg1, hlen1, hhead1, hframe1, hfields1⟩ :=
    unlink_prev_side hpre0 hndpre s.head c.next
  have hc1 : heap1[r]? = some c := by rw [hframe1 r hrpre]; exact hc
  have hpost1 : Seg heap1 (some r) post none :=
    seg_frame (fun a ha => hframe1 a (fun hp => hpp a hp ha)) hpost
  -- second assignment
  obtain ⟨heap2, h2, hseg2, hlen2, hframe2, hfields2⟩ :=
    unlink_next_side hpost1 hndpost c.prev
  have hc2 : heap2[r]? = some c := by rw [hframe2 r hrpost]; exact hc1
  have hpre2 : Seg heap2 none pre c.next :=
    seg_frame (fun a ha => hframe2 a (hpp a ha)) hseg1
  have hsegF : Seg heap2 none (pre ++ post) none := by
    rw [seg_append]
    exact ⟨hcn ▸ hpre2, hcp ▸ hseg2⟩
  have hheadF : head1 = headOr (pre ++ post) none := by
    rw [hhead1]
    cases pre with
    | nil => simp only [if_true, List.nil_append]; exact hcn
    | cons b pre1 => simp only [if_false, reduceCtorEq]; exact h.head_eq
  obtain ⟨graph1, hg, hlab, hsub⟩ := removeGraphEntry_spec s.nodes s.graph name h.graph_lt
  have hwfF : WF (State.mk heap2 s.freed head1 s.undoStack s.redoStack s.nodes graph1
      s.file s.writable) (pre ++ post) :=
    { head_eq := hheadF
      seg := hsegF
      nodup := by
        rw [List.nodup_append]
        exact ⟨hndpre, hndpost, fun a ha hp => hpp a ha hp⟩
      graph_lt := fun q hq => h.graph_lt q (hsub q hq) }
  have hsave := saveToFile_of_wf hwfF
  have hfieldsF : ∀ a, fields heap2 a = fields s.heap a := fun a => by
    rw [hfields2, hfields1]
  have he : (pre ++ r :: post).erase r = pre ++ post := erase_middle hrpre
  have hrun := deleteContact_eq_of_steps hh hf hc (hcp ▸ h1) hc1 (hcn ▸ h2) hg hsave hc2
  rw [fields_of_getElem? hc]
  refine ⟨_, hrun, ?_⟩
  exact
    { wf := by rw [he]; exact ⟨hheadF, hsegF, hwfF.nodup, hwfF.graph_lt⟩
      heap_length := by show heap2.length = _; rw [hlen2, hlen1]
      fields_eq := hfieldsF
      cell_self := by show heap2[r]? = _; rw [hc2, hc]
      cell_other := fun a ha => by
        show heap2[a]? = _
        rw [hframe2 a (fun hp => ha (List.mem_append_right _ (List.mem_cons_of_mem _ hp))),
          hframe1 a (fun hp => ha (List.mem_append_left _ hp))]
      undoStack_eq := rfl
      redoStack_eq := rfl
      freed_eq := rfl
      nodes_eq := rfl
      graphLabels_eq := hlab
      writable_eq := rfl
      file_eq := by
        show (if s.writable = true then _ else _) = _
        rw [he, map_fields_congr (fun a _ => hfieldsF a)] }

theorem walk_null (heap : List Contact) (fuel : Nat) : walk heap fuel none = some [] := by
  cases fuel <;> rfl

/-- A name that no cell of the store has is reported as not found and nothing changes. -/
theorem deleteContact_absent {s : State} {l : List Nat} (name : String)
    (hl : storeOrder s = some l) (habs : ∀ a ∈ l, (fields s.heap a).1 ≠ name) :
    deleteContact s name = some (if l = [] then Report.noContacts else Report.notFound, s) := by
  have hf := findByName_eq_walk name hl
  have hnone : l.find? (fun a => decide ((fields s.heap a).1 = name)) = none := by
    rw [List.find?_eq_none]
    intro a ha
    simpa using habs a ha
  rw [hnone] at hf
  unfold deleteContact
  unfold storeOrder at hl
  cases hh : s.head with
  | none =>
    rw [hh] at hl
    have : l = [] := by
      rw [walk_null] at hl
      exact (Option.some.inj hl).symm
    simp [this]
  | some h0 =>
    rw [hh] at hf hl
    have : l ≠ [] := by
      intro hnil
      cases hfuel : s.heap.length with
      | zero => rw [hfuel] at hl; simp [walk] at hl
      | succ f =>
        rw [hfuel, walk_some_succ] at hl
        cases hc : s.heap[h0]? with
        | none => rw [hc] at hl; cases hl
        | some c =>
          rw [hc] at hl
          simp only [Option.map_eq_some'] at hl
          obtain ⟨r, -, hr⟩ := hl
          rw [hnil] at hr
          cases hr
    simp only [hf, this, if_false]

/-! ## updateContact -/

theorem seg_set_links {heap : List Contact} {p e : Option Nat} {l : List Nat} {r : Nat}
    {c c1 : Contact} (h : Seg heap p l e) (hc : heap[r]? = some c)
    (hprev : c1.prev = c.prev) (hnext : c1.next = c.next) : Seg (heap.set r c1) p l e := by
  induction l generalizing p with
  | nil => trivial
  | cons a rest ih =>
    obtain ⟨ca, h1, h2, h3, h4⟩ := h
    by_cases hEq : r = a
    · subst hEq
      rw [hc] at h1
      cases h1
      exact ⟨c1, getElem?_set_same _ _ _ _ hc, hprev.trans h2, hnext.trans h3, ih h4⟩
    · exact ⟨ca, by rw [getElem?_set_other _ _ _ _ hEq]; exact h1, h2, h3, ih h4⟩

theorem updateContact_eq_of_steps {s : State} {name newPhone newCategory : String}
    {updateChoice : Int} {input : String} {h0 r : Nat} {c c1 : Contact}
    {graph1 : List Nat} {s2 s3 : State}
    (hh : s.head = some h0)
    (hf : findByName s.heap name s.heap.length s.head = some (some r))
    (hc : s.heap[r]? = some c)
    (hedit : (if updateChoice = 1 then some { c with name := input }
        else if updateChoice = 2 then some { c with phone := input }
        else if updateChoice = 3 then some { c with category := input }
        else none) = some c1)
    (hg : removeGraphEntry s.nodes s.graph name = some graph1)
    (hu : updateGraph (State.mk (s.heap.set r c1) s.freed s.head (r :: s.undoStack) s.redoStack
        s.nodes graph1 s.file s.writable) c1.name newCategory = some s2)
    (hs : saveToFile s2 = some s3) :
    updateContact s name newPhone newCategory updateChoice input =
      some (Report.updated c1.name c1.phone c1.category, s3) := by
  rw [hh] at hf hu
  unfold updateContact
  simp only [hh, hf, hc, hedit, hg, hu, hs]

theorem updateContact_wf {s : State} {l : List Nat} (h : WF s l)
    (name newPhone newCategory : String) (updateChoice : Int) (input : String) {r : Nat}
    (hfind : l.find? (fun a => decide ((fields s.heap a).1 = name)) = some r)
    {c c1 : Contact} (hc : s.heap[r]? = some c)
    (hedit : (if updateChoice = 1 then some { c with name := input }
        else if updateChoice = 2 then some { c with phone := input }
        else if updateChoice = 3 then some { c with category := input }
        else none) = some c1) :
    ∃ s1, updateContact s name newPhone newCategory updateChoice input =
        some (Report.updated c1.name c1.phone c1.category, s1) ∧
      UpdatePost s name newCategory r c1 l s1 := by
  have hr : r ∈ l := List.mem_of_find?_eq_some hfind
  have hf : findByName s.heap name s.heap.length s.head = some (some r) := by
    rw [findByName_eq_walk name (storeOrder_of_wf h), hfind]
  obtain ⟨h0, hh⟩ : ∃ h0, s.head = some h0 := by
    rw [h.head_eq]
    cases l with
    | nil => cases hr
    | cons b l1 => exact ⟨b, rfl⟩
  have hlinks : c1.prev = c.prev ∧ c1.next = c.next := by
    split_ifs at hedit <;> cases hedit <;> exact ⟨rfl, rfl⟩
  have hseg1 : Seg (s.heap.set r c1) none l none := seg_set_links h.seg hc hlinks.1 hlinks.2
  obtain ⟨graph1, hg, hlab, hsub⟩ := removeGraphEntry_spec s.nodes s.graph name h.graph_lt
  have hg1 : ∀ q ∈ graph1, q < s.nodes.length := fun q hq => h.graph_lt q (hsub q hq)
  obtain ⟨nodes1, hug, hnl, hlabold, hlabnew⟩ := updateGraph_spec
    (State.mk (s.heap.set r c1) s.freed s.head (r :: s.undoStack) s.redoStack
      s.nodes graph1 s.file s.writable) c1.name newCategory hg1
  have hwf2 : WF (State.mk (s.heap.set r c1) s.freed s.head (r :: s.undoStack) s.redoStack
      nodes1 (graph1 ++ [s.nodes.length]) s.file s.writable) l :=
    { head_eq := h.head_eq
      seg := hseg1
      nodup := h.nodup
      graph_lt := by
        intro q hq
        show q < nodes1.length
        rw [hnl]
        rcases List.mem_append.1 hq with hq | hq
        · exact Nat.lt_succ_of_lt (hg1 q hq)
        · rw [List.mem_singleton.1 hq]; exact Nat.lt_succ_self _ }
  have hsave := saveToFile_of_wf hwf2
  refine ⟨_, updateContact_eq_of_steps hh hf hc hedit hg hug hsave, ?_⟩
  exact
    { wf := ⟨h.head_eq, hseg1, h.nodup, hwf2.graph_lt⟩
      heap_eq := rfl
      undoStack_eq := rfl
      redoStack_eq := rfl
      freed_eq := rfl
      graphLabels_eq := by
        have := graphLabels_append
          (State.mk (s.heap.set r c1) s.freed s.head (r :: s.undoStack) s.redoStack
            s.nodes graph1 s.file s.writable) nodes1 c1.name newCategory hg1 hlabold hlabnew
        show (graph1 ++ [s.nodes.length]).map (nodeLabel nodes1) = _
        rw [this]
        show graph1.map (nodeLabel s.nodes) ++ _ = _
        rw [hlab]
        rfl
      writable_eq := rfl
      file_eq := rfl }

/-! ## Claims C1 and C2 -/

theorem wf_emptyManager (file : Option String) (writable : Bool) :
    WF (emptyManager file writable) [] :=
  { head_eq := rfl
    seg := trivial
    nodup := List.nodup_nil
    graph_lt := fun q hq => by cases hq }

theorem addContact_valid_report {s : State} {name phone category : String}
    (hn : name ≠ "") (hp : phone.length = 10)
    (hd : ∀ ch ∈ phone.data, 48 ≤ ch.toNat ∧ ch.toNat ≤ 57) (hc : category ≠ "")
    {r : Report} {s1 : State} (h : addContact s name phone category = some (r, s1)) :
    r = Report.added := by
  rw [addContact_valid_eq s name phone category hn hp hd hc] at h
  split at h
  · cases h
  · split at h
    · cases h
    · split at h
      · cases h
      · cases h; rfl

theorem valid_of_added {s s1 : State} {name phone category : String}
    (h : addContact s name phone category = some (Report.added, s1)) :
    name ≠ "" ∧ phone.length = 10 ∧ (∀ ch ∈ phone.data, 48 ≤ ch.toNat ∧ ch.toNat ≤ 57) ∧
      category ≠ "" := by
  by_contra hcon
  have hinv : name = "" ∨ phone = "" ∨ category = "" ∨
      ¬ (phone.length = 10 ∧ ∀ ch ∈ phone.data, 48 ≤ ch.toNat ∧ ch.toNat ≤ 57) := by
    by_contra hv
    simp only [not_or, not_not] at hv
    exact hcon ⟨hv.1, hv.2.2.2.1, hv.2.2.2.2, hv.2.2.1⟩
  rcases addContact_of_invalid s name phone category hinv with h1 | h1 <;>
    rw [h1] at h <;> cases h

theorem builtByAdds_wf {s : State} (hs : BuiltByAdds s) :
    ∃ l, WF s l ∧ ∀ a ∈ l, (fields s.heap a).1 ≠ "" ∧ (fields s.heap a).2.1.length = 10 ∧
      (∀ ch ∈ (fields s.heap a).2.1.data, 48 ≤ ch.toNat ∧ ch.toNat ≤ 57) ∧
      (fields s.heap a).2.2 ≠ "" := by
  induction hs with
  | empty file writable => exact ⟨[], wf_emptyManager file writable, fun a ha => by cases ha⟩
  | add name phone category _ hadd ih =>
    obtain ⟨l, hwf, hval⟩ := ih
    obtain ⟨hn, hp, hd, hc⟩ := valid_of_added hadd
    obtain ⟨s2, hadd2, hpost⟩ := addContact_wf hwf name phone category hn hp hd hc
    rw [hadd2] at hadd
    cases hadd
    refine ⟨_, hpost.wf, fun a ha => ?_⟩
    rcases List.mem_cons.1 ha with rfl | ha
    · rw [hpost.fields_new]
      exact ⟨hn, hp, hd, hc⟩
    · rw [hpost.fields_old a (seg_lt hwf.seg a ha)]
      exact hval a ha

theorem storeRecords_of_wf {s : State} {l : List Nat} (h : WF s l) :
    storeRecords s = some (l.map (fields s.heap)) := by
  unfold storeRecords
  rw [storeOrder_of_wf h]
  rfl

theorem builtByAdds_sampleStore : BuiltByAdds sampleStore :=
  BuiltByAdds.add "A" "1234567890" "x" (BuiltByAdds.empty none true) (by decide)

/-- C1: `addContact` is rejected (it reports an empty field or a bad phone number)
exactly when the name, the phone or the category is empty or the phone is not
exactly 10 ASCII digits; every call that does not add a record returns the
state it was given, so the store order, both histories, the graph and the file
content are unchanged. -/
theorem addContact_rejected_iff (s : State) (name phone category : String) :
    ((addContact s name phone category = some (Report.emptyField, s) ∨
        addContact s name phone category = some (Report.badPhone, s)) ↔
      (name = "" ∨ phone = "" ∨ category = "" ∨
        ¬ (phone.length = 10 ∧ ∀ ch ∈ phone.data, 48 ≤ ch.toNat ∧ ch.toNat ≤ 57))) ∧
    (∀ r s1, addContact s name phone category = some (r, s1) → r ≠ Report.added →
      s1 = s ∧ (r = Report.emptyField ∨ r = Report.badPhone)) := by
  have hvalid : ¬ (name = "" ∨ phone = "" ∨ category = "" ∨
      ¬ (phone.length = 10 ∧ ∀ ch ∈ phone.data, 48 ≤ ch.toNat ∧ ch.toNat ≤ 57)) →
      ∀ r s1, addContact s name phone category = some (r, s1) → r = Report.added := by
    intro hv r s1 h
    simp only [not_or, not_not] at hv
    exact addContact_valid_report hv.1 hv.2.2.2.1 hv.2.2.2.2 hv.2.2.1 h
  constructor
  · constructor
    · intro h
      by_contra hv
      rcases h with h | h
      · have := hvalid hv _ _ h; cases this
      · have := hvalid hv _ _ h; cases this
    · exact addContact_of_invalid s name phone category
  · intro r s1 h hr
    by_cases hv : name = "" ∨ phone = "" ∨ category = "" ∨
        ¬ (phone.length = 10 ∧ ∀ ch ∈ phone.data, 48 ≤ ch.toNat ∧ ch.toNat ≤ 57)
    · rcases addContact_of_invalid s name phone category hv with h1 | h1
      · rw [h1] at h; cases h; exact ⟨rfl, Or.inl rfl⟩
      · rw [h1] at h; cases h; exact ⟨rfl, Or.inr rfl⟩
    · exact absurd (hvalid hv r s1 h) hr

/-- C1, the two inputs named by the specification, on a manager holding one
record: `add("", "1234567890", "x")` and `add("A", "12345", "x")` are rejected. -/
theorem addContact_rejected_iff_witness :
    (addContact sampleStore "" "1234567890" "x" = some (Report.emptyField, sampleStore) ∨
      addContact sampleStore "" "1234567890" "x" = some (Report.badPhone, sampleStore)) ∧
    (addContact sampleStore "A" "12345" "x" = some (Report.emptyField, sampleStore) ∨
      addContact sampleStore "A" "12345" "x" = some (Report.badPhone, sampleStore)) :=
  ⟨(addContact_rejected_iff sampleStore "" "1234567890" "x").1.2 (Or.inl rfl),
   (addContact_rejected_iff sampleStore "A" "12345" "x").1.2
     (Or.inr (Or.inr (Or.inr (by decide))))⟩

/-- C2: on a store built by successful adds, `addContact` with a valid triple
puts the new record in front of the previous records (same order), pushes it on
the undo stack above the previous entries, appends a graph node carrying the
name and the category, and, when the file opens, leaves in the file the
serialization of the new store order. -/
theorem addContact_builtByAdds (s : State) (hs : BuiltByAdds s)
    (name phone category : String) (hn : name ≠ "") (hp : phone.length = 10)
    (hd : ∀ ch ∈ phone.data, 48 ≤ ch.toNat ∧ ch.toNat ≤ 57) (hc : category ≠ "") :
    ∃ s1 l recs, addContact s name phone category = some (Report.added, s1) ∧
      storeOrder s = some l ∧ storeRecords s = some recs ∧
      storeOrder s1 = some (s.heap.length :: l) ∧
      storeRecords s1 = some ((name, phone, category) :: recs) ∧
      s1.undoStack = s.heap.length :: s.undoStack ∧
      s1.graph = s.graph ++ [s.nodes.length] ∧
      graphLabels s1 = graphLabels s ++ [(name, category)] ∧
      (s.writable = true → s1.file = some (serialize ((name, phone, category) :: recs))) := by
  obtain ⟨l, hwf, -⟩ := builtByAdds_wf hs
  obtain ⟨s1, hadd, hpost⟩ := addContact_wf hwf name phone category hn hp hd hc
  refine ⟨s1, l, l.map (fields s.heap), hadd, storeOrder_of_wf hwf, storeRecords_of_wf hwf,
    storeOrder_of_wf hpost.wf, ?_, hpost.undoStack_eq, hpost.graph_eq, hpost.graphLabels_eq, ?_⟩
  · rw [storeRecords_of_wf hpost.wf, List.map_cons, hpost.fields_new,
      map_fields_congr (fun a ha => hpost.fields_old a (seg_lt hwf.seg a ha))]
  · intro hw
    rw [hpost.file_eq, if_pos hw]

/-- C2 on the manager holding the record A: adding B. -/
theorem addContact_builtByAdds_witness :
    ∃ s1 l recs, addContact sampleStore "B" "0987654321" "y" = some (Report.added, s1) ∧
      storeOrder sampleStore = some l ∧ storeRecords sampleStore = some recs ∧
      storeOrder s1 = some (sampleStore.heap.length :: l) ∧
      storeRecords s1 = some (("B", "0987654321", "y") :: recs) ∧
      s1.undoStack = sampleStore.heap.length :: sampleStore.undoStack ∧
      s1.graph = sampleStore.graph ++ [sampleStore.nodes.length] ∧
      graphLabels s1 = graphLabels sampleStore ++ [("B", "y")] ∧
      (sampleStore.writable = true →
        s1.file = some (serialize (("B", "0987654321", "y") :: recs))) :=
  addContact_builtByAdds sampleStore builtByAdds_sampleStore "B" "0987654321" "y"
    (by decide) (by decide) (by decide) (by decide)

/-! ## Claim C3 -/

/-- C3: on a store built by successful adds, adding a valid record B and then
calling `undo` gives back the store order there was before the add, and a
further `redo` gives the store with B in front of the earlier records in their
order, which is the store there was after the add. -/
theorem add_undo_redo (s : State) (hs : BuiltByAdds s)
    (name phone category : String) (hn : name ≠ "") (hp : phone.length = 10)
    (hd : ∀ ch ∈ phone.data, 48 ≤ ch.toNat ∧ ch.toNat ≤ 57) (hc : category ≠ "") :
    ∃ sA sU sR l recs, storeOrder s = some l ∧ storeRecords s = some recs ∧
      addContact s name phone category = some (Report.added, sA) ∧
      undo sA = some (Report.undone, sU) ∧
      redo sU = some (Report.redone, sR) ∧
      storeOrder sU = some l ∧ storeRecords sU = some recs ∧
      storeOrder sR = some (s.heap.length :: l) ∧
      storeRecords sR = some ((name, phone, category) :: recs) ∧
      storeOrder sR = storeOrder sA ∧ storeRecords sR = storeRecords sA := by
  obtain ⟨l, hwf, -⟩ := builtByAdds_wf hs
  have hlt := seg_lt hwf.seg
  have hnotin : s.heap.length ∉ l := fun hm => Nat.lt_irrefl _ (hlt _ hm)
  obtain ⟨sA, hadd, hA⟩ := addContact_wf hwf name phone category hn hp hd hc
  obtain ⟨sU, hundo, hU⟩ := undo_wf hA.wf hA.undoStack_eq (List.mem_cons_self _ _)
  have hwfU : WF sU l := by
    have := hU.wf
    rwa [List.erase_cons_head] at this
  obtain ⟨c, hcA, hcprev, hcnext, -⟩ := hA.wf.seg
  have hcU : sU.heap[s.heap.length]? = some c := by rw [hU.cell_self]; exact hcA
  obtain ⟨sR, hredo, hR⟩ := redo_wf hwfU hU.redoStack_eq hcU hcprev
    (fun hnil => by rw [hcnext, hnil]; rfl) hnotin
  have hfU : ∀ a ∈ l, fields sU.heap a = fields s.heap a := fun a ha => by
    rw [hU.fields_eq, hA.fields_old a (hlt a ha)]
  have hfR : ∀ a, fields sR.heap a = fields sA.heap a := fun a => by
    rw [hR.fields_eq, hU.fields_eq]
  have hrecA : storeRecords sA = some ((name, phone, category) :: l.map (fields s.heap)) := by
    rw [storeRecords_of_wf hA.wf, List.map_cons, hA.fields_new,
      map_fields_congr (fun a ha => hA.fields_old a (hlt a ha))]
  have hrecR : storeRecords sR = storeRecords sA := by
    rw [storeRecords_of_wf hR.wf, storeRecords_of_wf hA.wf,
      map_fields_congr (fun a _ => hfR a)]
  refine ⟨sA, sU, sR, l, l.map (fields s.heap), storeOrder_of_wf hwf, storeRecords_of_wf hwf,
    hadd, hundo, hredo, storeOrder_of_wf hwfU, ?_, storeOrder_of_wf hR.wf, ?_, ?_, hrecR⟩
  · rw [storeRecords_of_wf hwfU, map_fields_congr hfU]
  · rw [hrecR, hrecA]
  · rw [storeOrder_of_wf hR.wf, storeOrder_of_wf hA.wf]

/-- C3 on the manager holding the record A: after `add(B)` and `undo()` the store
holds A only, after `redo()` it holds B in front of A. -/
theorem add_undo_redo_witness :
    ∃ sA sU sR, addContact sampleStore "B" "0987654321" "y" = some (Report.added, sA) ∧
      undo sA = some (Report.undone, sU) ∧
      redo sU = some (Report.redone, sR) ∧
      storeRecords sU = some [("A", "1234567890", "x")] ∧
      storeRecords sR = some [("B", "0987654321", "y"), ("A", "1234567890", "x")] := by
  obtain ⟨sA, sU, sR, l, recs, -, hrecs, hadd, hundo, hredo, -, hU, -, hR, -, -⟩ :=
    add_undo_redo sampleStore builtByAdds_sampleStore "B" "0987654321" "y"
      (by decide) (by decide) (by decide) (by decide)
  have hsample : storeRecords sampleStore = some [("A", "1234567890", "x")] := by decide
  rw [hsample] at hrecs
  cases hrecs
  exact ⟨sA, sU, sR, hadd, hundo, hredo, hU, hR⟩

/-! ## Removing the first record of a name -/

theorem map_eraseP_of_find {l : List Nat} {r : Nat} (f : Nat → String × String × String)
    (name : String) (h : l.find? (fun a => decide ((f a).1 = name)) = some r) :
    (l.map f).eraseP (fun rec => decide (rec.1 = name)) = (l.erase r).map f := by
  induction l with
  | nil => cases h
  | cons a rest ih =>
    by_cases hn : (f a).1 = name
    · have : r = a := by
        rw [List.find?_cons_of_pos _ (by simpa using hn)] at h
        exact (Option.some.inj h).symm
      subst this
      rw [List.map_cons, List.eraseP_cons_of_pos (by simpa using hn), List.erase_cons_head]
    · rw [List.find?_cons_of_neg _ (by simpa using hn)] at h
      have hr : (f r).1 = name := by simpa using List.find?_some h
      have hne : a ≠ r := fun hEq => hn (hEq ▸ hr)
      rw [List.map_cons, List.eraseP_cons_of_neg (by simpa using hn), ih h,
        List.erase_cons_tail (by simpa using hne), List.map_cons]

theorem find_of_exists {l : List Nat} (f : Nat → String × String × String) (name : String)
    (h : ∃ rec ∈ l.map f, rec.1 = name) :
    ∃ r, l.find? (fun a => decide ((f a).1 = name)) = some r := by
  obtain ⟨rec, hrec, hname⟩ := h
  obtain ⟨a, ha, rfl⟩ := List.mem_map.1 hrec
  cases hfind : l.find? (fun a => decide ((f a).1 = name)) with
  | some r => exact ⟨r, rfl⟩
  | none =>
    rw [List.find?_eq_none] at hfind
    exact absurd (by simpa using hname) (hfind a ha)

theorem find_map_of_find {l : List Nat} {r : Nat} (f : Nat → String × String × String)
    (name : String) (h : l.find? (fun a => decide ((f a).1 = name)) = some r) :
    (l.map f).find? (fun rec => decide (rec.1 = name)) = some (f r) := by
  rw [List.find?_map]
  show Option.map f (l.find? (fun a => decide ((f a).1 = name))) = _
  rw [h]
  rfl

/-! ## Claims C7, C9 and C10 -/

/-- C7: on a store built by successful adds that holds a record of the given
name, `updateContact` with any of the three selectors and any new value,
followed by `undo`, leaves the store order there was before the update with
the first record of that name removed: the updated record is gone, it is not
reverted. -/
theorem update_then_undo (s : State) (hs : BuiltByAdds s)
    (name newPhone newCategory : String) (updateChoice : Int) (input : String)
    (hch : updateChoice = 1 ∨ updateChoice = 2 ∨ updateChoice = 3)
    (recs : List (String × String × String)) (hrecs : storeRecords s = some recs)
    (hex : ∃ rec ∈ recs, rec.1 = name) :
    ∃ rep s1 s2 l r, updateContact s name newPhone newCategory updateChoice input =
        some (rep, s1) ∧
      undo s1 = some (Report.undone, s2) ∧
      storeOrder s = some l ∧
      l.find? (fun a => decide ((fields s.heap a).1 = name)) = some r ∧
      storeOrder s2 = some (l.erase r) ∧ r ∉ l.erase r ∧
      storeRecords s2 = some (recs.eraseP (fun rec => decide (rec.1 = name))) := by
  obtain ⟨l, hwf, -⟩ := builtByAdds_wf hs
  rw [storeRecords_of_wf hwf] at hrecs
  cases hrecs
  obtain ⟨r, hfind⟩ := find_of_exists (fields s.heap) name hex
  have hr : r ∈ l := List.mem_of_find?_eq_some hfind
  have hrlt : r < s.heap.length := seg_lt hwf.seg r hr
  have hc : s.heap[r]? = some s.heap[r] := List.getElem?_eq_getElem hrlt
  obtain ⟨c1, hedit⟩ : ∃ c1,
      (if updateChoice = 1 then some { s.heap[r] with name := input }
        else if updateChoice = 2 then some { s.heap[r] with phone := input }
        else if updateChoice = 3 then some { s.heap[r] with category := input }
        else none) = some c1 := by
    rcases hch with h | h | h <;> subst h <;> exact ⟨_, rfl⟩
  obtain ⟨s1, hupd, hP⟩ :=
    updateContact_wf hwf name newPhone newCategory updateChoice input hfind hc hedit
  obtain ⟨s2, hundo, hU⟩ := undo_wf hP.wf hP.undoStack_eq hr
  have hnot : r ∉ l.erase r := fun hm => (List.Nodup.mem_erase_iff hwf.nodup).1 hm |>.1 rfl
  refine ⟨_, s1, s2, l, r, hupd, hundo, storeOrder_of_wf hwf, hfind, storeOrder_of_wf hU.wf,
    hnot, ?_⟩
  rw [storeRecords_of_wf hU.wf, map_eraseP_of_find (fields s.heap) name hfind]
  congr 1
  apply List.map_congr_left
  intro a ha
  have hne : r ≠ a := fun hEq => hnot (hEq ▸ ha)
  rw [hU.fields_eq, hP.heap_eq]
  exact fields_congr (getElem?_set_other _ _ _ _ hne)

/-- C7 on the manager holding the record A: `update("A", category = "new")`
followed by `undo()` leaves an empty store. -/
theorem update_then_undo_witness :
    ∃ rep s1 s2, updateContact sampleStore "A" "" "" 3 "new" = some (rep, s1) ∧
      undo s1 = some (Report.undone, s2) ∧ storeRecords s2 = some [] := by
  obtain ⟨rep, s1, s2, l, r, hupd, hundo, -, -, -, -, hrec⟩ :=
    update_then_undo sampleStore builtByAdds_sampleStore "A" "" "" 3 "new"
      (Or.inr (Or.inr rfl)) [("A", "1234567890", "x")] (by decide)
      ⟨("A", "1234567890", "x"), by decide, rfl⟩
  exact ⟨rep, s1, s2, hupd, hundo, hrec⟩

/-- C9: on a store built by successful adds that holds a record of the given
name, `deleteContact` reports and removes the first record of that name and
keeps the others in their order, removes the first graph node of that name,
leaves both stacks as they were and, when the file opens, leaves in the file
the serialization of the new store order. -/
theorem deleteContact_builtByAdds (s : State) (hs : BuiltByAdds s) (name : String)
    (recs : List (String × String × String)) (hrecs : storeRecords s = some recs)
    (hex : ∃ rec ∈ recs, rec.1 = name) :
    ∃ rec s1 l r, recs.find? (fun x => decide (x.1 = name)) = some rec ∧
      deleteContact s name = some (Report.deleted rec.1 rec.2.1 rec.2.2, s1) ∧
      storeOrder s = some l ∧
      l.find? (fun a => decide ((fields s.heap a).1 = name)) = some r ∧
      storeOrder s1 = some (l.erase r) ∧ r ∉ l.erase r ∧
      storeRecords s1 = some (recs.eraseP (fun x => decide (x.1 = name))) ∧
      graphLabels s1 = (graphLabels s).eraseP (fun lab => decide (lab.1 = name)) ∧
      (s.writable = true →
        s1.file = some (serialize (recs.eraseP (fun x => decide (x.1 = name))))) ∧
      s1.undoStack = s.undoStack ∧ s1.redoStack = s.redoStack := by
  obtain ⟨l, hwf, -⟩ := builtByAdds_wf hs
  rw [storeRecords_of_wf hwf] at hrecs
  cases hrecs
  obtain ⟨r, hfind⟩ := find_of_exists (fields s.heap) name hex
  obtain ⟨s1, hdel, hP⟩ := deleteContact_wf hwf name hfind
  have hnot : r ∉ l.erase r := fun hm => (List.Nodup.mem_erase_iff hwf.nodup).1 hm |>.1 rfl
  have hrec1 : (l.erase r).map (fields s1.heap) =
      (l.map (fields s.heap)).eraseP (fun x => decide (x.1 = name)) := by
    rw [map_eraseP_of_find (fields s.heap) name hfind]
    exact map_fields_congr (fun a _ => hP.fields_eq a)
  refine ⟨fields s.heap r, s1, l, r, find_map_of_find (fields s.heap) name hfind, hdel,
    storeOrder_of_wf hwf, hfind, storeOrder_of_wf hP.wf, hnot, ?_, hP.graphLabels_eq, ?_,
    hP.undoStack_eq, hP.redoStack_eq⟩
  · rw [storeRecords_of_wf hP.wf, hrec1]
  · intro hw
    rw [hP.file_eq, if_pos hw, map_eraseP_of_find (fields s.heap) name hfind]

/-- C9 on the manager holding the record A: `delete("A")`. -/
theorem deleteContact_builtByAdds_witness :
    ∃ s1, deleteContact sampleStore "A" = some (Report.deleted "A" "1234567890" "x", s1) ∧
      storeRecords s1 = some [] ∧ graphLabels s1 = [] ∧ s1.file = some "" ∧
      s1.undoStack = [0] ∧ s1.redoStack = [] := by
  obtain ⟨rec, s1, l, r, hrec, hdel, -, -, -, -, hrecs, hg, hfile, hu, hr⟩ :=
    deleteContact_builtByAdds sampleStore builtByAdds_sampleStore "A"
      [("A", "1234567890", "x")] (by decide) ⟨("A", "1234567890", "x"), by decide, rfl⟩
  have hrec1 : rec = ("A", "1234567890", "x") := by
    have h : List.find? (fun x => decide (x.1 = "A")) [("A", "1234567890", "x")] =
        some ("A", "1234567890", "x") := by decide
    rw [h] at hrec
    exact (Option.some.inj hrec).symm
  subst hrec1
  exact ⟨s1, hdel, hrecs, hg, hfile rfl, hu, hr⟩

/-- C10, amended: in a state whose store is a finite list (following `next`
from `head` reaches null), `deleteContact` with a name that no store record has
reports that nothing was found ("No contacts to delete." for the empty store,
"Contact not found. Deletion failed." otherwise) and returns the state it was
given: store order, file content, graph and both stacks are unchanged. -/
theorem deleteContact_not_found (s : State) (name : String) (l : List Nat)
    (hl : storeOrder s = some l) (habs : ∀ a ∈ l, (fields s.heap a).1 ≠ name) :
    deleteContact s name =
      some (if l = [] then Report.noContacts else Report.notFound, s) :=
  deleteContact_absent name hl habs

/-- C10, amended, on the manager holding the record A, and on an empty manager. -/
theorem deleteContact_not_found_witness :
    deleteContact sampleStore "Zed" = some (Report.notFound, sampleStore) ∧
    deleteContact (emptyManager (some "old") true) "Zed" =
      some (Report.noContacts, emptyManager (some "old") true) :=
  ⟨deleteContact_not_found sampleStore "Zed" [0] (by decide) (by decide),
   deleteContact_not_found (emptyManager (some "old") true) "Zed" [] (by decide) (by decide)⟩

/-- C10 fails on the code for a store that is not a finite list.  With a file
that does not open, `add(A)`, `update(A)`, `undo()`, `undo()`, `redo()`,
`redo()` all return and leave the single record A with `head = A` and
`A->next = A`.  No record is named Zed, but the search loop of
`deleteContact("Zed")` follows `next` for ever: the traversal finds no end
whatever the number of steps, and the call does not return. -/
theorem delete_absent_never_returns :
    run (emptyManager none false)
        [Call.add "A" "1234567890" "x", Call.update "A" "" "" 3 "y",
         Call.undo, Call.undo, Call.redo, Call.redo] = some cyclicStore ∧
    cyclicStore.heap.map (fun c => c.name) = ["A"] ∧
    (∀ fuel, findByName cyclicStore.heap "Zed" fuel cyclicStore.head = none) ∧
    deleteContact cyclicStore "Zed" = none := by
  refine ⟨by decide, by decide, ?_, by decide⟩
  intro fuel
  induction fuel with
  | zero => rfl
  | succ k ih =>
    have h0 : cyclicStore.heap[0]? = some (Contact.mk "A" "1234567890" "y" (some 0) (some 0)) :=
      rfl
    have hhead : cyclicStore.head = some 0 := rfl
    rw [hhead] at ih ⊢
    have hne : ¬ ("A" = "Zed") := by decide
    simp only [findByName, h0, hne, if_false]
    exact ih

/-! ## Claims C4, C5 and C8: what the code does -/

/-- C4 fails on the code: after `add(A)`, `add(B)`, `update(A)`, `undo()`, `redo()`
the store order is A, B and A is on top of the undo stack, but A still carries
the `prev` pointer to B it had before it was removed.  The next `undo()` then
writes `B->prev = B`, `B->next = B` and leaves `head` at A.  With a writable
file `saveToFile` never comes back from the cycle; with a file that does not
open the call returns and A is still the head, followed by B for ever. -/
theorem undo_after_update_redo_keeps_head :
    (run (emptyManager none true)
        [Call.add "A" "1234567890" "x", Call.add "B" "1234567890" "x",
         Call.update "A" "" "" 3 "y", Call.undo, Call.redo]).map
      (fun s => (storeOrder s, s.undoStack)) = some (some [0, 1], [0, 1, 0]) ∧
    (run (emptyManager none true)
        [Call.add "A" "1234567890" "x", Call.add "B" "1234567890" "x",
         Call.update "A" "" "" 3 "y", Call.undo, Call.redo]).bind undo = none ∧
    ((run (emptyManager none false)
        [Call.add "A" "1234567890" "x", Call.add "B" "1234567890" "x",
         Call.update "A" "" "" 3 "y", Call.undo, Call.redo]).bind undo).map
      (fun p => (p.1, p.2.head, p.2.redoStack)) = some (Report.undone, some 0, [0]) ∧
    ((run (emptyManager none false)
        [Call.add "A" "1234567890" "x", Call.add "B" "1234567890" "x",
         Call.update "A" "" "" 3 "y", Call.undo, Call.redo]).bind undo).map
      (fun p => (p.2.heap.map (fun c => c.next), storeOrder p.2)) =
      some ([some 1, some 1], none) :=
  ⟨by decide, by decide, by decide, by decide⟩

/-- C5 fails on the code: in `add(A)`, `update(A)`, `undo()`, `undo()`, `redo()`,
`redo()` the second `redo` links A in front of a list whose head is A itself.
With a writable file that call never returns (the first five calls do); with a
file that does not open all six calls return and the state has `head = A`,
`A->next = A`: following `next` from `head` does not terminate. -/
theorem redo_twice_makes_cycle :
    (run (emptyManager none true)
        [Call.add "A" "1234567890" "x", Call.update "A" "" "" 3 "y",
         Call.undo, Call.undo, Call.redo]).map storeOrder = some (some [0]) ∧
    run (emptyManager none true)
        [Call.add "A" "1234567890" "x", Call.update "A" "" "" 3 "y",
         Call.undo, Call.undo, Call.redo, Call.redo] = none ∧
    (run (emptyManager none false)
        [Call.add "A" "1234567890" "x", Call.update "A" "" "" 3 "y",
         Call.undo, Call.undo, Call.redo, Call.redo]).map
      (fun s => (s.head, s.heap.map (fun c => c.next), storeOrder s)) =
      some (some 0, [some 0], none) :=
  ⟨by decide, by decide, by decide⟩

/-- C8 fails on the code: `updateContact` stores the line it reads without any
check, so after `add("A", "1234567890", "x")` and an update of the phone to
`abc` the store holds the record `("A", "abc", "x")`, which `addContact` itself
rejects. -/
theorem update_stores_unchecked_phone :
    (run (emptyManager none true)
        [Call.add "A" "1234567890" "x", Call.update "A" "" "" 2 "abc"]).bind storeRecords =
      some [("A", "abc", "x")] ∧
    addContact (emptyManager none true) "A" "abc" "x" =
      some (Report.badPhone, emptyManager none true) :=
  ⟨by decide, by decide⟩

/-! ## Save and load -/

theorem builtByAdds_sampleStore2 : BuiltByAdds sampleStore2 :=
  BuiltByAdds.add "B" "0987654321" "y" builtByAdds_sampleStore (by decide)

theorem takeLine_line (line rest : List Char) (h : '\n' ∉ line) :
    takeLine (line ++ '\n' :: rest) = (line, some rest) := by
  induction line with
  | nil => simp [takeLine]
  | cons ch line1 ih =>
    have hch : ch ≠ '\n' := fun hEq => h (hEq ▸ List.mem_cons_self _ _)
    have ih1 := ih (fun hm => h (List.mem_cons_of_mem _ hm))
    rw [List.cons_append]
    simp only [takeLine, hch, if_false, ih1]

theorem takeLine_none (line : List Char) (h : '\n' ∉ line) :
    takeLine line = (line, none) := by
  induction line with
  | nil => rfl
  | cons ch line1 ih =>
    have hch : ch ≠ '\n' := fun hEq => h (hEq ▸ List.mem_cons_self _ _)
    have ih1 := ih (fun hm => h (List.mem_cons_of_mem _ hm))
    simp only [takeLine, hch, if_false, ih1]

theorem getline_found (bufSize : Nat) (content : List Char) (fuel : Nat)
    (acc buf : List Char) (pos : Nat) {part rest : List Char}
    (h : takeLine buf = (part, some rest)) :
    getline bufSize content (fuel + 1) acc buf pos =
      some (some (acc ++ part, Ifstream.mk rest pos false)) := by
  simp only [getline, h]

theorem getline_end (bufSize : Nat) (content : List Char) (fuel : Nat)
    (acc buf : List Char) (pos : Nat) {part : List Char}
    (h : takeLine buf = (part, none)) (hpos : content.length ≤ pos) :
    getline bufSize content (fuel + 1) acc buf pos =
      if acc ++ part = [] then some none
      else some (some (acc ++ part, Ifstream.mk [] pos true)) := by
  have hdrop : content.drop pos = [] := List.drop_eq_nil_of_le hpos
  simp only [getline, h, hdrop, List.take_nil, if_true]

/-- The bound on the fetches of `getline` is never used up when it exceeds the
number of characters of the file behind the offset of the stream. -/
theorem getline_fuel (bufSize : Nat) (content : List Char) (fuel : Nat)
    (acc buf : List Char) (pos : Nat) (h : content.length < pos + (fuel + 1)) :
    getline bufSize content (fuel + 1) acc buf pos ≠ none := by
  induction fuel generalizing acc buf pos with
  | zero =>
    cases htl : takeLine buf with
    | mk part after =>
      cases after with
      | some rest =>
        rw [getline_found bufSize content 0 acc buf pos htl]
        exact fun hEq => Option.noConfusion hEq
      | none =>
        rw [getline_end bufSize content 0 acc buf pos htl (by omega)]
        split <;> exact fun hEq => Option.noConfusion hEq
  | succ k ih =>
    cases htl : takeLine buf with
    | mk part after =>
      cases after with
      | some rest =>
        rw [getline_found bufSize content (k + 1) acc buf pos htl]
        exact fun hEq => Option.noConfusion hEq
      | none =>
        by_cases hblock : (content.drop pos).take bufSize = []
        · have hstep : getline bufSize content (k + 1 + 1) acc buf pos =
              if acc ++ part = [] then some none
              else some (some (acc ++ part, Ifstream.mk [] pos true)) := by
            simp only [getline, htl, hblock, if_true]
          rw [hstep]
          split <;> exact fun hEq => Option.noConfusion hEq
        · have hstep : getline bufSize content (k + 1 + 1) acc buf pos =
              getline bufSize content (k + 1) (acc ++ part) ((content.drop pos).take bufSize)
                (pos + ((content.drop pos).take bufSize).length) := by
            simp only [getline, htl, hblock, if_false]
          rw [hstep]
          have hlen : 0 < ((content.drop pos).take bufSize).length := List.length_pos.2 hblock
          exact ih _ _ _ (by omega)

/-- Inside the loop of `loadFromFile` the bound on the fetches is not used up:
`getline` either delivers a line or fails at the end of the file. -/
theorem getline_returns (bufSize : Nat) (content acc buf : List Char) (pos : Nat) :
    getline bufSize content (content.length + 1) acc buf pos ≠ none :=
  getline_fuel bufSize content content.length acc buf pos (by omega)

theorem serialize_cons_data (rec : String × String × String)
    (rest : List (String × String × String)) :
    (serialize (rec :: rest)).data = lineChars rec ++ '\n' :: (serialize rest).data := by
  simp only [serialize, String.data_append, lineChars, List.append_assoc, List.cons_append]
  rfl

theorem takeWhile_until (l r : List Char) (h : ',' ∉ l) :
    (l ++ ',' :: r).takeWhile (fun ch => ch != ',') = l ∧
    (l ++ ',' :: r).dropWhile (fun ch => ch != ',') = ',' :: r := by
  induction l with
  | nil => simp
  | cons ch l1 ih =>
    have hch : ch ≠ ',' := fun hEq => h (hEq ▸ List.mem_cons_self _ _)
    obtain ⟨ih1, ih2⟩ := ih (fun hm => h (List.mem_cons_of_mem _ hm))
    simp only [List.cons_append, List.takeWhile_cons, List.dropWhile_cons, bne_iff_ne, ne_eq,
      hch, not_false_eq_true, decide_True, if_true, ih1, ih2, and_self]

theorem parseLine_lineChars (rec : String × String × String)
    (hname : ',' ∉ rec.1.data) (hphone : ',' ∉ rec.2.1.data) :
    parseLine (lineChars rec) = rec := by
  obtain ⟨name, phone, category⟩ := rec
  obtain ⟨h1, h2⟩ := takeWhile_until name.data (phone.data ++ ',' :: category.data) hname
  obtain ⟨h3, h4⟩ := takeWhile_until phone.data category.data hphone
  simp only [parseLine, lineChars, h1, h2, List.drop_one, List.tail_cons, h3, h4]

theorem digit_ne_of_range {l : List Char} (h : ∀ ch ∈ l, 48 ≤ ch.toNat ∧ ch.toNat ≤ 57)
    (c : Char) (hc : c.toNat < 48) : c ∉ l := by
  intro hm
  have := (h c hm).1
  omega

theorem lineChars_no_feed {rec : String × String × String}
    (hd : ∀ ch ∈ rec.2.1.data, 48 ≤ ch.toNat ∧ ch.toNat ≤ 57)
    (h1 : '\n' ∉ rec.1.data) (h3 : '\n' ∉ rec.2.2.data) : '\n' ∉ lineChars rec := by
  intro hm
  have hdig := digit_ne_of_range hd '\n' (by decide)
  unfold lineChars at hm
  rcases List.mem_append.1 hm with hm | hm
  · exact h1 hm
  · rcases List.mem_cons.1 hm with hm | hm
    · exact absurd hm (by decide)
    · rcases List.mem_append.1 hm with hm | hm
      · exact hdig hm
      · rcases List.mem_cons.1 hm with hm | hm
        · exact absurd hm (by decide)
        · exact h3 hm

/-- The loop of `loadFromFile` on a stream whose buffer holds the lines of the
valid records `recs` and whose offset is past the end of every file the loop
writes: every line is taken from the buffer, the fetch after the last line
meets the end of the file, and the records are added in front of the store one
after the other. -/
theorem loadLoop_valid (bufSize : Nat) {s : State} {l : List Nat} (h : WF s l)
    (recs : List (String × String × String))
    (hvalid : ∀ rec ∈ recs, rec.1 ≠ "" ∧ rec.2.1.length = 10 ∧
      (∀ ch ∈ rec.2.1.data, 48 ≤ ch.toNat ∧ ch.toNat ≤ 57) ∧ rec.2.2 ≠ "")
    (hcomma : ∀ rec ∈ recs, ',' ∉ rec.1.data)
    (hfeed : ∀ rec ∈ recs, '\n' ∉ lineChars rec)
    (pos : Nat)
    (hpos : (serialize (l.map (fields s.heap))).data.length + (serialize recs).data.length ≤ pos)
    (hfile : (fileChars s).length ≤ pos)
    (fuel : Nat) (hfuel : recs.length < fuel) :
    ∃ s1 l1, loadLoop bufSize fuel s (Ifstream.mk (serialize recs).data pos false) = some s1 ∧
      WF s1 l1 ∧ l1.map (fields s1.heap) = recs.reverse ++ l.map (fields s.heap) ∧
      s1.writable = s.writable := by
  induction recs generalizing s l fuel with
  | nil =>
    obtain ⟨fuel1, rfl⟩ : ∃ fuel1, fuel = fuel1 + 1 := ⟨fuel - 1, by simp at hfuel; omega⟩
    refine ⟨s, l, ?_, h, rfl, rfl⟩
    have hg : getline bufSize (fileChars s) ((fileChars s).length + 1) [] [] pos =
        some none := by
      rw [getline_end bufSize (fileChars s) _ [] [] pos (rfl : takeLine [] = ([], none)) hfile]
      rfl
    show loadLoop bufSize (fuel1 + 1) s (Ifstream.mk [] pos false) = some s
    simp only [loadLoop, hg, Bool.false_eq_true, if_false]
  | cons rec rest ih =>
    obtain ⟨fuel1, rfl⟩ : ∃ fuel1, fuel = fuel1 + 1 :=
      ⟨fuel - 1, by simp at hfuel; omega⟩
    obtain ⟨hn, hp, hd, hc⟩ := hvalid rec (List.mem_cons_self _ _)
    have hparse : parseLine (lineChars rec) = rec :=
      parseLine_lineChars rec (hcomma rec (List.mem_cons_self _ _))
        (digit_ne_of_range hd ',' (by decide))
    obtain ⟨sA, hadd, hA⟩ := addContact_wf h rec.1 rec.2.1 rec.2.2 hn hp hd hc
    have hmap : (s.heap.length :: l).map (fields sA.heap) = rec :: l.map (fields s.heap) := by
      rw [List.map_cons, hA.fields_new,
        map_fields_congr (fun a ha => hA.fields_old a (seg_lt h.seg a ha))]
    have hlen : (serialize (rec :: rest)).data.length =
        (lineChars rec).length + 1 + (serialize rest).data.length := by
      rw [serialize_cons_data, List.length_append, List.length_cons]
      omega
    have hlenA : (serialize (rec :: l.map (fields s.heap))).data.length =
        (lineChars rec).length + 1 + (serialize (l.map (fields s.heap))).data.length := by
      rw [serialize_cons_data, List.length_append, List.length_cons]
      omega
    have hposA : (serialize ((s.heap.length :: l).map (fields sA.heap))).data.length +
        (serialize rest).data.length ≤ pos := by
      rw [hmap, hlenA]
      rw [hlen] at hpos
      omega
    have hfileA : (fileChars sA).length ≤ pos := by
      unfold fileChars
      rw [hA.file_eq]
      by_cases hwr : s.writable = true
      · rw [if_pos hwr]
        show (serialize ((rec.1, rec.2.1, rec.2.2) :: l.map (fields s.heap))).data.length ≤ pos
        rw [hmap] at hposA
        exact Nat.le_trans (Nat.le_add_right _ _) hposA
      · rw [if_neg hwr]
        exact hfile
    obtain ⟨s1, l1, hload, hwf1, hrecs1, hw1⟩ := ih hA.wf
      (fun r hr => hvalid r (List.mem_cons_of_mem _ hr))
      (fun r hr => hcomma r (List.mem_cons_of_mem _ hr))
      (fun r hr => hfeed r (List.mem_cons_of_mem _ hr)) hposA hfileA fuel1
      (by simp at hfuel; omega)
    refine ⟨s1, l1, ?_, hwf1, ?_, ?_⟩
    · have hg : getline bufSize (fileChars s) ((fileChars s).length + 1) []
          (serialize (rec :: rest)).data pos =
          some (some (lineChars rec, Ifstream.mk (serialize rest).data pos false)) := by
        rw [serialize_cons_data, getline_found bufSize (fileChars s) _ [] _ pos
          (takeLine_line _ _ (hfeed rec (List.mem_cons_self _ _)))]
        rfl
      simp only [loadLoop, hg, hparse, hadd, hload, Bool.false_eq_true, if_false]
    · rw [hrecs1, hmap, List.reverse_cons, List.append_assoc]
      rfl
    · rw [hw1, hA.writable_eq]

/-- The first fetch of the stream brings the whole file into the buffer when
the file is not longer than a block. -/
theorem loadLoop_start (bufSize fuel : Nat) (s : State) (hne : fileChars s ≠ [])
    (hfit : (fileChars s).length ≤ bufSize) :
    loadLoop bufSize fuel s (Ifstream.mk [] 0 false) =
      loadLoop bufSize fuel s (Ifstream.mk (fileChars s) (fileChars s).length false) := by
  cases fuel with
  | zero => rfl
  | succ fuel1 =>
    have hg : getline bufSize (fileChars s) ((fileChars s).length + 1) [] [] 0 =
        getline bufSize (fileChars s) ((fileChars s).length + 1) [] (fileChars s)
          (fileChars s).length := by
      obtain ⟨n, hn⟩ : ∃ n, (fileChars s).length = n + 1 :=
        ⟨(fileChars s).length - 1, by
          have := List.length_pos.2 hne
          omega⟩
      have htake : ((fileChars s).drop 0).take bufSize = fileChars s := by
        rw [List.drop_zero, List.take_of_length_le hfit]
      have h1 : getline bufSize (fileChars s) ((fileChars s).length + 1) [] [] 0 =
          getline bufSize (fileChars s) (fileChars s).length [] (fileChars s)
            (fileChars s).length := by
        simp only [getline, takeLine, htake, hne, if_false, List.append_nil, Nat.zero_add]
      rw [h1, hn]
      cases htl : takeLine (fileChars s) with
      | mk part after =>
        cases after with
        | some rest =>
          rw [getline_found bufSize (fileChars s) n [] _ _ htl,
            getline_found bufSize (fileChars s) (n + 1) [] _ _ htl]
        | none =>
          rw [getline_end bufSize (fileChars s) n [] _ _ htl (by omega),
            getline_end bufSize (fileChars s) (n + 1) [] _ _ htl (by omega)]
    simp only [loadLoop, hg]

/-- Loading the file written for the valid records `recs` into a fresh manager,
when the file is not longer than a block of the stream: the loop returns and
the store holds the records in reverse order. -/
theorem load_serialized (bufSize : Nat) (recs : List (String × String × String))
    (hvalid : ∀ rec ∈ recs, rec.1 ≠ "" ∧ rec.2.1.length = 10 ∧
      (∀ ch ∈ rec.2.1.data, 48 ≤ ch.toNat ∧ ch.toNat ≤ 57) ∧ rec.2.2 ≠ "")
    (hclean : ∀ rec ∈ recs, ',' ∉ rec.1.data ∧ '\n' ∉ rec.1.data ∧ '\n' ∉ rec.2.2.data)
    (hfit : (serialize recs).length ≤ bufSize) (writable : Bool)
    (fuel : Nat) (hfuel : recs.length < fuel) :
    ∃ s2 l2, loadFromFile bufSize fuel (emptyManager (some (serialize recs)) writable) =
        some s2 ∧ WF s2 l2 ∧ l2.map (fields s2.heap) = recs.reverse ∧
      s2.writable = writable := by
  have hfeed : ∀ rec ∈ recs, '\n' ∉ lineChars rec := fun rec hrec =>
    lineChars_no_feed (hvalid rec hrec).2.2.1 (hclean rec hrec).2.1 (hclean rec hrec).2.2
  have hchars : fileChars (emptyManager (some (serialize recs)) writable) =
      (serialize recs).data := rfl
  have hload : loadFromFile bufSize fuel (emptyManager (some (serialize recs)) writable) =
      loadLoop bufSize fuel (emptyManager (some (serialize recs)) writable)
        (Ifstream.mk [] 0 false) := rfl
  by_cases hne : (serialize recs).data = []
  · obtain ⟨s2, l2, h2, hwf2, hrecs2, hw2⟩ := loadLoop_valid bufSize
      (wf_emptyManager (some (serialize recs)) writable) recs hvalid
      (fun rec hrec => (hclean rec hrec).1) hfeed 0
      (by rw [hne]; rfl) (by rw [hchars, hne]; exact Nat.le_refl _) fuel hfuel
    rw [hne] at h2
    exact ⟨s2, l2, by rw [hload]; exact h2, hwf2, by simpa [emptyManager] using hrecs2, hw2⟩
  · obtain ⟨s2, l2, h2, hwf2, hrecs2, hw2⟩ := loadLoop_valid bufSize
      (wf_emptyManager (some (serialize recs)) writable) recs hvalid
      (fun rec hrec => (hclean rec hrec).1) hfeed (serialize recs).data.length
      (by
        show (serialize []).data.length + _ ≤ _
        exact Nat.le_of_eq (Nat.zero_add _))
      (by rw [hchars]) fuel hfuel
    refine ⟨s2, l2, ?_, hwf2, by simpa [emptyManager] using hrecs2, hw2⟩
    rw [hload, loadLoop_start bufSize fuel _ (by rw [hchars]; exact hne)
      (by rw [hchars]; exact hfit), hchars]
    exact h2

theorem take_block (pre post : List Char) (x : Char) (n b : Nat)
    (h1 : pre.length ≤ b) (h2 : b ≤ pre.length + n) :
    (pre ++ (List.replicate n x ++ post)).take b =
      pre ++ List.replicate (b - pre.length) x := by
  have h3 : b - pre.length - n = 0 := by omega
  have h4 : min (b - pre.length) n = b - pre.length := by omega
  rw [List.take_append_eq_append_take, List.take_of_length_le h1,
    List.take_append_eq_append_take, List.take_replicate, List.length_replicate, h3, h4,
    List.take_zero, List.append_nil]

theorem parseLine_no_comma (line : List Char) (h : ',' ∉ line) :
    (parseLine line).2.1 = "" := by
  have h2 : line.dropWhile (fun ch => ch != ',') = [] := by
    rw [List.dropWhile_eq_nil_iff]
    intro ch hch
    have hne : ch ≠ ',' := fun hEq => h (hEq ▸ hch)
    simp [hne]
  simp only [parseLine, h2, List.drop_nil, List.takeWhile_nil]

/-- Loading a file of two lines whose first line fits in the first block of
the stream and whose second line ends outside it, with a file that opens for
writing: the first record is added and the file rewritten with that record
alone; the rest of the block has no line feed, the next fetch finds the end of
the rewritten file, and the fragment is rejected by `addContact`. -/
theorem load_first_block (bufSize n fuel : Nat) (hbuf : 15 ≤ bufSize)
    (hlong : bufSize ≤ n + 15) (hfuel : 3 ≤ fuel) :
    ∃ s2, loadFromFile bufSize fuel (emptyManager (some (serialize
        [("A", "1234567890", "x"), (String.mk (List.replicate n 'a'), "0987654321", "y")]))
        true) = some s2 ∧
      storeRecords s2 = some [("A", "1234567890", "x")] := by
  obtain ⟨f, rfl⟩ : ∃ f, fuel = f + 3 := ⟨fuel - 3, by omega⟩
  have hfeedA : '\n' ∉ lineChars ("A", "1234567890", "x") := by decide
  have hlenA : (lineChars ("A", "1234567890", "x")).length = 14 := by decide
  have hparseA : parseLine (lineChars ("A", "1234567890", "x")) = ("A", "1234567890", "x") :=
    parseLine_lineChars _ (by decide) (by decide)
  have hc : (serialize [("A", "1234567890", "x"),
      (String.mk (List.replicate n 'a'), "0987654321", "y")]).data =
      (lineChars ("A", "1234567890", "x") ++ ['\n']) ++ (List.replicate n 'a' ++
        (',' :: ("0987654321".data ++ ',' :: "y".data) ++ '\n' :: (serialize []).data)) := by
    rw [serialize_cons_data, serialize_cons_data]
    simp only [lineChars, List.append_assoc, List.cons_append, List.nil_append]
  have hpre : (lineChars ("A", "1234567890", "x") ++ ['\n']).length = 15 := by
    rw [List.length_append, hlenA]
    rfl
  have hchars : fileChars (emptyManager (some (serialize [("A", "1234567890", "x"),
      (String.mk (List.replicate n 'a'), "0987654321", "y")])) true) =
      (serialize [("A", "1234567890", "x"),
        (String.mk (List.replicate n 'a'), "0987654321", "y")]).data := rfl
  generalize hs0 : emptyManager (some (serialize [("A", "1234567890", "x"),
      (String.mk (List.replicate n 'a'), "0987654321", "y")])) true = s0 at hchars
  have hwf0 : WF s0 [] := by
    rw [← hs0]
    exact wf_emptyManager _ _
  have hw0 : s0.writable = true := by
    rw [← hs0]
    rfl
  have hfile0 : ∃ txt, s0.file = some txt := ⟨_, by rw [← hs0]; rfl⟩
  rw [hc] at hchars
  -- the first fetch: one block of the file
  have hblk : ((fileChars s0).drop 0).take bufSize =
      lineChars ("A", "1234567890", "x") ++ '\n' :: List.replicate (bufSize - 15) 'a' := by
    rw [List.drop_zero, hchars, take_block _ _ _ _ _ (by rw [hpre]; exact hbuf)
      (by rw [hpre]; omega), hpre]
    simp only [List.append_assoc, List.cons_append, List.nil_append]
  have hblklen : (lineChars ("A", "1234567890", "x") ++
      '\n' :: List.replicate (bufSize - 15) 'a').length = bufSize := by
    rw [List.length_append, List.length_cons, List.length_replicate, hlenA]
    omega
  obtain ⟨m, hm⟩ : ∃ m, (fileChars s0).length = m + 1 :=
    ⟨(fileChars s0).length - 1, by
      have : 0 < (fileChars s0).length := by
        rw [hchars, List.length_append, hpre]
        omega
      omega⟩
  have hg1 : getline bufSize (fileChars s0) ((fileChars s0).length + 1) [] [] 0 =
      some (some (lineChars ("A", "1234567890", "x"),
        Ifstream.mk (List.replicate (bufSize - 15) 'a') bufSize false)) := by
    have hne : ¬ (lineChars ("A", "1234567890", "x") ++
        '\n' :: List.replicate (bufSize - 15) 'a' = []) := by simp
    have h1 : getline bufSize (fileChars s0) ((fileChars s0).length + 1) [] [] 0 =
        getline bufSize (fileChars s0) (fileChars s0).length []
          (lineChars ("A", "1234567890", "x") ++ '\n' :: List.replicate (bufSize - 15) 'a')
          bufSize := by
      simp only [getline, takeLine, hblk, hne, if_false, List.append_nil, Nat.zero_add, hblklen]
    rw [h1, hm, getline_found bufSize _ m [] _ _ (takeLine_line _ _ hfeedA)]
    rfl
  -- the first record is added and the file rewritten
  obtain ⟨sA, haddA, hA⟩ := addContact_wf hwf0 "A" "1234567890" "x"
    (by decide) (by decide) (by decide) (by decide)
  have hfileA : fileChars sA = (serialize [("A", "1234567890", "x")]).data := by
    unfold fileChars
    rw [hA.file_eq, if_pos hw0]
    rfl
  have hlenfA : (fileChars sA).length ≤ bufSize := by
    have h15 : (serialize [("A", "1234567890", "x")]).data.length = 15 := by decide
    rw [hfileA, h15]
    exact hbuf
  have hrecsA : storeRecords sA = some [("A", "1234567890", "x")] := by
    rw [storeRecords_of_wf hA.wf, List.map_cons, hA.fields_new]
    rfl
  -- the rest of the block
  have hnoA : '\n' ∉ List.replicate (bufSize - 15) 'a' := by
    intro hmem
    exact absurd (List.eq_of_mem_replicate hmem) (by decide)
  have hnoC : ',' ∉ List.replicate (bufSize - 15) 'a' := by
    intro hmem
    exact absurd (List.eq_of_mem_replicate hmem) (by decide)
  have hg2 := getline_end bufSize (fileChars sA) (fileChars sA).length []
    (List.replicate (bufSize - 15) 'a') bufSize (takeLine_none _ hnoA) hlenfA
  rw [List.nil_append] at hg2
  obtain ⟨txt0, htxt0⟩ := hfile0
  refine ⟨sA, ?_, hrecsA⟩
  have hstart : loadFromFile bufSize (f + 3) s0 =
      loadLoop bufSize (f + 3) s0 (Ifstream.mk [] 0 false) := by
    unfold loadFromFile
    rw [htxt0]
  rw [hstart]
  by_cases hk : List.replicate (bufSize - 15) 'a' = []
  · rw [if_pos hk] at hg2
    simp only [loadLoop, hg1, hparseA, haddA, hg2, Bool.false_eq_true, if_false]
  · rw [if_neg hk] at hg2
    have hph := parseLine_no_comma _ hnoC
    rcases addContact_of_invalid sA (parseLine (List.replicate (bufSize - 15) 'a')).1
        (parseLine (List.replicate (bufSize - 15) 'a')).2.1
        (parseLine (List.replicate (bufSize - 15) 'a')).2.2 (Or.inr (Or.inl hph)) with
      hinv | hinv <;>
    simp only [loadLoop, hg1, hparseA, haddA, hg2, hinv, Bool.false_eq_true, if_false, if_true]

/-- The store built by adding a record whose name is
`n` letters `a` and then the record A holds names without comma and fields
without line feed, and its saved file has the line of A followed by the line of
the long name.  When the first block that the input stream fetches
(`bufSize` characters, at least the 15 of the first line) ends before the end
of the long name, loading that file into a fresh manager whose file opens for
writing returns a store with the record A alone: adding A rewrites the file
under the open stream, so the second record is lost. -/
theorem save_load_long_name (bufSize n fuel : Nat) (hbuf : 15 ≤ bufSize)
    (hlong : bufSize ≤ n + 15) (hn : 0 < n) (hfuel : 3 ≤ fuel) :
    ∃ s s1 s2, BuiltByAdds s ∧ s.writable = true ∧
      storeRecords s = some [("A", "1234567890", "x"),
        (String.mk (List.replicate n 'a'), "0987654321", "y")] ∧
      (∀ rec ∈ [("A", "1234567890", "x"),
          (String.mk (List.replicate n 'a'), "0987654321", "y")],
        ',' ∉ rec.1.data ∧ '\n' ∉ rec.1.data ∧ '\n' ∉ rec.2.1.data ∧ '\n' ∉ rec.2.2.data) ∧
      saveToFile s = some s1 ∧
      s1.file = some (serialize [("A", "1234567890", "x"),
        (String.mk (List.replicate n 'a'), "0987654321", "y")]) ∧
      loadFromFile bufSize fuel (emptyManager s1.file true) = some s2 ∧
      storeRecords s2 = some [("A", "1234567890", "x")] := by
  have hnL : String.mk (List.replicate n 'a') ≠ "" := by
    intro hEq
    have hlen := congrArg String.length hEq
    simp at hlen
    omega
  obtain ⟨sL, haddL, hL⟩ := addContact_wf (wf_emptyManager none true)
    (String.mk (List.replicate n 'a')) "0987654321" "y" hnL (by decide) (by decide) (by decide)
  obtain ⟨s, haddA, hA⟩ := addContact_wf hL.wf "A" "1234567890" "x"
    (by decide) (by decide) (by decide) (by decide)
  have hw : s.writable = true := by
    rw [hA.writable_eq, hL.writable_eq]
    rfl
  have hmap : (sL.heap.length :: [(emptyManager none true).heap.length]).map (fields s.heap) =
      [("A", "1234567890", "x"), (String.mk (List.replicate n 'a'), "0987654321", "y")] := by
    rw [List.map_cons, hA.fields_new, List.map_cons,
      hA.fields_old _ (by rw [hL.heap_length]; exact Nat.lt_succ_self _), hL.fields_new]
    rfl
  have hfile : (if s.writable = true then
      some (serialize ((sL.heap.length :: [(emptyManager none true).heap.length]).map
        (fields s.heap))) else s.file) =
      some (serialize [("A", "1234567890", "x"),
        (String.mk (List.replicate n 'a'), "0987654321", "y")]) := by
    rw [if_pos hw, hmap]
  obtain ⟨s2, hload, hrecs2⟩ := load_first_block bufSize n fuel hbuf hlong hfuel
  refine ⟨s, _, s2, BuiltByAdds.add _ _ _ (BuiltByAdds.add _ _ _ (BuiltByAdds.empty none true)
    haddL) haddA, hw, ?_, ?_, saveToFile_of_wf hA.wf, hfile, ?_, hrecs2⟩
  · rw [storeRecords_of_wf hA.wf, hmap]
  · intro rec hrec
    have hnoC : ',' ∉ List.replicate n 'a' := fun hmem =>
      absurd (List.eq_of_mem_replicate hmem) (by decide)
    have hnoF : '\n' ∉ List.replicate n 'a' := fun hmem =>
      absurd (List.eq_of_mem_replicate hmem) (by decide)
    rcases List.mem_cons.1 hrec with hEq | hrec
    · subst hEq
      exact ⟨by decide, by decide, by decide, by decide⟩
    · rcases List.mem_cons.1 hrec with hEq | hrec
      · subst hEq
        have h1 : '\n' ∉ "0987654321".data := by decide
        have h2 : '\n' ∉ "y".data := by decide
        exact ⟨hnoC, hnoF, h1, h2⟩
      · cases hrec
  · show loadFromFile bufSize fuel (emptyManager (if s.writable = true then _ else _) true) = _
    rw [hfile]
    exact hload

/-! ## Claim C6 -/

/-- C6 fails on the code: the store built by `add(A)`, `add(B)` holds B, A in
this order; saving it and loading the file into a fresh manager gives the
order A, B, because `loadFromFile` adds every line at the front.  A record
whose name holds a comma is not read back at all: the line `a,b,1234567890,x`
is parsed as the name `a` and the phone `b`, which `addContact` rejects.  And
a store whose saved file is longer than the 8191 characters that the stream
fetches at a time is not read back whole: of the records A and a name of 8200
letters only A is loaded. -/
theorem save_load_order_counterexample :
    BuiltByAdds sampleStore2 ∧
    storeRecords sampleStore2 = some [("B", "0987654321", "y"), ("A", "1234567890", "x")] ∧
    (saveToFile sampleStore2).bind
      (fun s1 => (loadFromFile 8191 4 (emptyManager s1.file true)).bind storeRecords) =
      some [("A", "1234567890", "x"), ("B", "0987654321", "y")] ∧
    (run (emptyManager none true) [Call.add "a,b" "1234567890" "x"]).bind storeRecords =
      some [("a,b", "1234567890", "x")] ∧
    ((run (emptyManager none true) [Call.add "a,b" "1234567890" "x"]).bind saveToFile).bind
      (fun s1 => (loadFromFile 8191 4 (emptyManager s1.file true)).bind storeRecords) = some [] ∧
    ∃ s s1 s2, BuiltByAdds s ∧
      storeRecords s = some [("A", "1234567890", "x"),
        (String.mk (List.replicate 8200 'a'), "0987654321", "y")] ∧
      saveToFile s = some s1 ∧
      loadFromFile 8191 4 (emptyManager s1.file true) = some s2 ∧
      storeRecords s2 = some [("A", "1234567890", "x")] := by
  obtain ⟨s, s1, s2, hb, -, hrecs, -, hsave, -, hload, hrecs2⟩ :=
    save_load_long_name 8191 8200 4 (by decide) (by decide) (by decide) (by decide)
  exact ⟨builtByAdds_sampleStore2, by decide, by decide, by decide, by decide,
    s, s1, s2, hb, hrecs, hsave, hload, hrecs2⟩

/-- C6, amended: for a store built by successful adds whose names hold no comma
and no line feed and whose categories hold no line feed, and whose saved file
is not longer than the block that the input stream fetches at a time: saving
to a file that opens and loading that file into a fresh empty manager returns
and gives a store with the same records in the reverse order. -/
theorem save_load_reverses (s : State) (hs : BuiltByAdds s) (hw : s.writable = true)
    (recs : List (String × String × String)) (hrecs : storeRecords s = some recs)
    (hclean : ∀ rec ∈ recs, ',' ∉ rec.1.data ∧ '\n' ∉ rec.1.data ∧ '\n' ∉ rec.2.2.data)
    (bufSize : Nat) (hfit : (serialize recs).length ≤ bufSize)
    (fuel : Nat) (hfuel : recs.length < fuel) (writable : Bool) :
    ∃ s1 s2, saveToFile s = some s1 ∧ s1.file = some (serialize recs) ∧
      loadFromFile bufSize fuel (emptyManager s1.file writable) = some s2 ∧
      storeRecords s2 = some recs.reverse := by
  obtain ⟨l, hwf, hval⟩ := builtByAdds_wf hs
  rw [storeRecords_of_wf hwf] at hrecs
  cases hrecs
  have hvalid : ∀ rec ∈ l.map (fields s.heap), rec.1 ≠ "" ∧ rec.2.1.length = 10 ∧
      (∀ ch ∈ rec.2.1.data, 48 ≤ ch.toNat ∧ ch.toNat ≤ 57) ∧ rec.2.2 ≠ "" := by
    intro rec hrec
    obtain ⟨a, ha, rfl⟩ := List.mem_map.1 hrec
    exact hval a ha
  obtain ⟨s2, l2, hload, hwf2, hrecs2, -⟩ :=
    load_serialized bufSize (l.map (fields s.heap)) hvalid hclean hfit writable fuel hfuel
  have hfile : (if s.writable = true then some (serialize (l.map (fields s.heap)))
      else s.file) = some (serialize (l.map (fields s.heap))) := by rw [if_pos hw]
  refine ⟨_, s2, saveToFile_of_wf hwf, hfile, ?_, ?_⟩
  · show loadFromFile bufSize fuel
      (emptyManager (if s.writable = true then _ else _) writable) = _
    rw [hfile]
    exact hload
  · rw [storeRecords_of_wf hwf2, hrecs2]

/-- C6, amended, on the manager holding B, A, with blocks of 8191 characters:
the reloaded store holds A, B. -/
theorem save_load_reverses_witness :
    ∃ s1 s2, saveToFile sampleStore2 = some s1 ∧
      s1.file = some (serialize [("B", "0987654321", "y"), ("A", "1234567890", "x")]) ∧
      loadFromFile 8191 3 (emptyManager s1.file true) = some s2 ∧
      storeRecords s2 = some [("A", "1234567890", "x"), ("B", "0987654321", "y")] :=
  save_load_reverses sampleStore2 builtByAdds_sampleStore2 rfl
    [("B", "0987654321", "y"), ("A", "1234567890", "x")] (by decide) (by decide)
    8191 (by decide) 3 (by decide) true

/-! ## The fuel of a traversal is enough -/

theorem walk_mono {heap : List Contact} {fuel : Nat} {p : Option Nat} {l : List Nat}
    (h : walk heap fuel p = some l) : walk heap (fuel + 1) p = some l := by
  induction fuel generalizing p l with
  | zero =>
    cases p with
    | none => rw [walk_null] at h ⊢; exact h
    | some a => cases h
  | succ f ih =>
    cases p with
    | none => rw [walk_null] at h ⊢; exact h
    | some a =>
      rw [walk_some_succ] at h ⊢
      cases hc : heap[a]? with
      | none => rw [hc] at h; cases h
      | some c =>
        rw [hc] at h
        simp only [Option.map_eq_some'] at h
        obtain ⟨r, hr, rfl⟩ := h
        simp only [ih hr, Option.map_some']

theorem walk_mono_le {heap : List Contact} {fuel fuel1 : Nat} {p : Option Nat} {l : List Nat}
    (h : walk heap fuel p = some l) (hle : fuel ≤ fuel1) : walk heap fuel1 p = some l := by
  induction hle with
  | refl => exact h
  | step _ ih => exact walk_mono ih

theorem walk_exact {heap : List Contact} {fuel : Nat} {p : Option Nat} {l : List Nat}
    (h : walk heap fuel p = some l) : walk heap l.length p = some l := by
  induction fuel generalizing p l with
  | zero =>
    cases p with
    | none => rw [walk_null] at h; cases h; rfl
    | some a => cases h
  | succ f ih =>
    cases p with
    | none => rw [walk_null] at h; cases h; rfl
    | some a =>
      rw [walk_some_succ] at h
      cases hc : heap[a]? with
      | none => rw [hc] at h; cases h
      | some c =>
        rw [hc] at h
        simp only [Option.map_eq_some'] at h
        obtain ⟨r, hr, rfl⟩ := h
        rw [List.length_cons, walk_some_succ, hc]
        simp only [ih hr, Option.map_some']

theorem walk_lt {heap : List Contact} {fuel : Nat} {p : Option Nat} {l : List Nat}
    (h : walk heap fuel p = some l) : ∀ a ∈ l, a < heap.length := by
  induction fuel generalizing p l with
  | zero =>
    cases p with
    | none => rw [walk_null] at h; cases h; intro a ha; cases ha
    | some a => cases h
  | succ f ih =>
    cases p with
    | none => rw [walk_null] at h; cases h; intro a ha; cases ha
    | some a =>
      rw [walk_some_succ] at h
      cases hc : heap[a]? with
      | none => rw [hc] at h; cases h
      | some c =>
        rw [hc] at h
        simp only [Option.map_eq_some'] at h
        obtain ⟨r, hr, rfl⟩ := h
        intro b hb
        rcases List.mem_cons.1 hb with rfl | hb
        · by_contra hlt
          rw [List.getElem?_eq_none (by omega)] at hc
          cases hc
        · exact ih hr b hb

theorem walk_suffix {heap : List Contact} {fuel : Nat} {p : Option Nat} {pre tail : List Nat}
    {a : Nat} (h : walk heap fuel p = some (pre ++ a :: tail)) :
    walk heap fuel (some a) = some (a :: tail) := by
  induction fuel generalizing p pre with
  | zero =>
    cases p with
    | none => rw [walk_null] at h; cases pre <;> cases h
    | some b => cases h
  | succ f ih =>
    cases p with
    | none => rw [walk_null] at h; cases pre <;> cases h
    | some b =>
      have h0 := h
      rw [walk_some_succ] at h
      cases hc : heap[b]? with
      | none => rw [hc] at h; cases h
      | some c =>
        rw [hc] at h
        simp only [Option.map_eq_some'] at h
        obtain ⟨r, hr, hEq⟩ := h
        cases pre with
        | nil =>
          rw [List.nil_append] at hEq h0
          cases hEq
          exact h0
        | cons b1 pre1 =>
          rw [List.cons_append] at hEq
          cases hEq
          exact walk_mono (ih hr)

theorem walk_nodup {heap : List Contact} {fuel : Nat} {p : Option Nat} {l : List Nat}
    (h : walk heap fuel p = some l) : l.Nodup := by
  induction fuel generalizing p l with
  | zero =>
    cases p with
    | none => rw [walk_null] at h; cases h; exact List.nodup_nil
    | some a => cases h
  | succ f ih =>
    cases p with
    | none => rw [walk_null] at h; cases h; exact List.nodup_nil
    | some a =>
      have h0 := h
      rw [walk_some_succ] at h
      cases hc : heap[a]? with
      | none => rw [hc] at h; cases h
      | some c =>
        rw [hc] at h
        simp only [Option.map_eq_some'] at h
        obtain ⟨r, hr, rfl⟩ := h
        refine List.nodup_cons.2 ⟨fun hmem => ?_, ih hr⟩
        obtain ⟨pre, tail, hsplit⟩ := List.append_of_mem hmem
        rw [hsplit] at hr
        have h1 := walk_mono (walk_suffix hr)
        rw [h0] at h1
        have hlen := congrArg List.length (List.cons.inj (Option.some.inj h1)).2
        rw [hsplit] at hlen
        simp only [List.length_append, List.length_cons] at hlen
        omega

/-- The fuel of `storeOrder` is enough: a traversal from `head` that reaches
`nullptr` with any fuel does so with the fuel `storeOrder` uses, so
`storeOrder s = none` means that following `next` from `head` never reaches
`nullptr` (or leaves the allocated cells). -/
theorem storeOrder_of_walk {s : State} {fuel : Nat} {l : List Nat}
    (h : walk s.heap fuel s.head = some l) : storeOrder s = some l :=
  walk_mono_le (walk_exact h) (length_le_of_nodup_lt (walk_nodup h) (walk_lt h))

theorem storeOrder_eq_none_iff (s : State) :
    storeOrder s = none ↔ ∀ fuel, walk s.heap fuel s.head = none := by
  constructor
  · intro h fuel
    cases hw : walk s.heap fuel s.head with
    | none => rfl
    | some l => rw [storeOrder_of_walk hw] at h; cases h
  · intro h
    exact h _

/-! ## Claims C11 and C20 -/

/-- C11: `undo` on a state with an empty undo stack and `redo` on a state with
an empty redo stack print their error message and return the state they were
given: store order, both stacks, graph and file content are unchanged. -/
theorem undo_redo_empty_history (s : State) :
    (s.undoStack = [] → undo s = some (Report.nothingToUndo, s)) ∧
    (s.redoStack = [] → redo s = some (Report.nothingToRedo, s)) := by
  constructor
  · intro h
    unfold undo
    rw [h]
  · intro h
    unfold redo
    rw [h]

/-- C11 on a fresh manager, and `redo` on the manager holding the record A. -/
theorem undo_redo_empty_history_witness :
    undo (emptyManager (some "old") true) =
      some (Report.nothingToUndo, emptyManager (some "old") true) ∧
    redo sampleStore = some (Report.nothingToRedo, sampleStore) :=
  ⟨(undo_redo_empty_history (emptyManager (some "old") true)).1 rfl,
   (undo_redo_empty_history sampleStore).2 rfl⟩

/-- C20 fails on the code: `deleteContact` releases the cell but leaves the
pointer to it on the undo stack.  After `add(A)`, `delete(A)` the top of the
undo stack is the released cell 0, and `undo()` reads its `next`, `prev` and
`name` and pushes the dangling pointer on the redo stack. -/
theorem undo_stack_keeps_deleted_record :
    (run (emptyManager none true)
        [Call.add "A" "1234567890" "x", Call.delete "A"]).map
      (fun s => (s.undoStack, s.freed, storeOrder s)) = some ([0], [0], some []) ∧
    (run (emptyManager none true)
        [Call.add "A" "1234567890" "x", Call.delete "A", Call.undo]).map
      (fun s => (s.redoStack, s.freed)) = some ([0], [0]) :=
  ⟨by decide, by decide⟩

/-! ## The search functions -/

theorem hasSubstr_iff (term text : List Char) : hasSubstr term text = true ↔ term <:+: text := by
  induction text with
  | nil =>
    simp only [hasSubstr, List.isPrefixOf_iff_prefix, List.prefix_nil, List.infix_nil]
  | cons ch rest ih =>
    simp only [hasSubstr, Bool.or_eq_true, List.isPrefixOf_iff_prefix, ih, List.infix_cons_iff]

theorem hasSubstr_self (text : List Char) : hasSubstr text text = true :=
  (hasSubstr_iff text text).2 List.infix_rfl

theorem searchLoop_eq_walk (heap : List Contact) (searchTerm : String) (fuel : Nat)
    (p : Option Nat) :
    searchLoop heap searchTerm fuel p =
      (walk heap fuel p).map (fun l => (l.map (fields heap)).filter (fun rec =>
        hasSubstr searchTerm.data rec.1.data || hasSubstr searchTerm.data rec.2.1.data ||
          hasSubstr searchTerm.data rec.2.2.data)) := by
  induction fuel generalizing p with
  | zero => cases p <;> rfl
  | succ f ih =>
    cases p with
    | none => rfl
    | some a =>
      cases hc : heap[a]? with
      | none => simp only [searchLoop, walk, hc, Option.map_none']
      | some c =>
        simp only [searchLoop, walk, hc, ih, Option.map_map]
        congr 1
        funext l
        simp only [Function.comp, List.map_cons, fields_of_getElem? hc, List.filter_cons]

theorem categoryLoop_eq_walk (heap : List Contact) (category : String) (fuel : Nat)
    (p : Option Nat) :
    categoryLoop heap category fuel p =
      (walk heap fuel p).map (fun l => (l.map (fields heap)).filter (fun rec =>
        decide (rec.2.2 = category))) := by
  induction fuel generalizing p with
  | zero => cases p <;> rfl
  | succ f ih =>
    cases p with
    | none => rfl
    | some a =>
      cases hc : heap[a]? with
      | none => simp only [categoryLoop, walk, hc, Option.map_none']
      | some c =>
        simp only [categoryLoop, walk, hc, ih, Option.map_map]
        congr 1
        funext l
        by_cases hcat : c.category = category <;>
          simp [Function.comp, fields_of_getElem? hc, List.filter_cons, hcat]

theorem searchContact_of_storeOrder {s : State} {l : List Nat} (searchTerm : String)
    (h : storeOrder s = some l) :
    searchContact s searchTerm =
      some ((l.map (fields s.heap)).filter (fun rec =>
        hasSubstr searchTerm.data rec.1.data || hasSubstr searchTerm.data rec.2.1.data ||
          hasSubstr searchTerm.data rec.2.2.data), s) := by
  unfold searchContact
  unfold storeOrder at h
  cases hh : s.head with
  | none =>
    rw [hh, walk_null] at h
    cases h
    rfl
  | some h0 =>
    rw [hh] at h
    simp only [searchLoop_eq_walk, h, Option.map_some']

theorem searchByCategory_of_storeOrder {s : State} {l : List Nat} (category : String)
    (h : storeOrder s = some l) :
    searchByCategory s category =
      some ((l.map (fields s.heap)).filter (fun rec => decide (rec.2.2 = category)), s) := by
  unfold searchByCategory
  unfold storeOrder at h
  cases hh : s.head with
  | none =>
    rw [hh, walk_null] at h
    cases h
    rfl
  | some h0 =>
    rw [hh] at h
    simp only [categoryLoop_eq_walk, h, Option.map_some']

/-! ## Claims C16 and C13 -/

theorem filter_hasSubstr_eq (term : String) (recs : List (String × String × String)) :
    recs.filter (fun rec =>
        hasSubstr term.data rec.1.data || hasSubstr term.data rec.2.1.data ||
          hasSubstr term.data rec.2.2.data) =
      recs.filter (fun rec => decide (term.data <:+: rec.1.data ∨
        term.data <:+: rec.2.1.data ∨ term.data <:+: rec.2.2.data)) := by
  apply List.filter_congr
  intro rec _
  rw [Bool.eq_iff_iff]
  simp only [Bool.or_eq_true, hasSubstr_iff, decide_eq_true_eq, or_assoc]

/-- C16: on a store built by successful adds, `searchContact` prints exactly
the records in which the term occurs as a block of consecutive characters of
the name, the phone or the category, and `searchByCategory` exactly the records
whose category equals the term; both print them in store order and return the
state they were given. -/
theorem search_builtByAdds (s : State) (hs : BuiltByAdds s) (term : String) :
    ∃ recs, storeRecords s = some recs ∧
      searchContact s term =
        some (recs.filter (fun rec => decide (term.data <:+: rec.1.data ∨
          term.data <:+: rec.2.1.data ∨ term.data <:+: rec.2.2.data)), s) ∧
      searchByCategory s term = some (recs.filter (fun rec => decide (rec.2.2 = term)), s) := by
  obtain ⟨l, hwf, -⟩ := builtByAdds_wf hs
  refine ⟨l.map (fields s.heap), storeRecords_of_wf hwf, ?_,
    searchByCategory_of_storeOrder term (storeOrder_of_wf hwf)⟩
  rw [searchContact_of_storeOrder term (storeOrder_of_wf hwf), filter_hasSubstr_eq]

/-- C16 on the manager holding B, A: the term `1234` is found in the phone of A
only, the term `y` is the category of B only. -/
theorem search_builtByAdds_witness :
    searchContact sampleStore2 "1234" = some ([("A", "1234567890", "x")], sampleStore2) ∧
    searchByCategory sampleStore2 "y" = some ([("B", "0987654321", "y")], sampleStore2) := by
  obtain ⟨recs, hrecs, h1, h2⟩ := search_builtByAdds sampleStore2 builtByAdds_sampleStore2 "y"
  obtain ⟨recs1, hrecs1, h3, -⟩ :=
    search_builtByAdds sampleStore2 builtByAdds_sampleStore2 "1234"
  have hsample : storeRecords sampleStore2 =
      some [("B", "0987654321", "y"), ("A", "1234567890", "x")] := by decide
  rw [hsample] at hrecs hrecs1
  cases hrecs
  cases hrecs1
  refine ⟨?_, ?_⟩
  · rw [h3]; decide
  · rw [h2]; decide

/-- C13: on a store built by successful adds, after `addContact` with a valid
triple `searchContact` with that name prints the new record, with exactly
those fields, first; the records after it are the earlier records in which the
name occurs, so on a store that was empty the new record is the only one. -/
theorem add_then_search (s : State) (hs : BuiltByAdds s)
    (name phone category : String) (hn : name ≠ "") (hp : phone.length = 10)
    (hd : ∀ ch ∈ phone.data, 48 ≤ ch.toNat ∧ ch.toNat ≤ 57) (hc : category ≠ "") :
    ∃ s1 recs rest, storeRecords s = some recs ∧
      addContact s name phone category = some (Report.added, s1) ∧
      searchContact s1 name = some ((name, phone, category) :: rest, s1) ∧
      rest = recs.filter (fun rec => decide (name.data <:+: rec.1.data ∨
        name.data <:+: rec.2.1.data ∨ name.data <:+: rec.2.2.data)) ∧
      (recs = [] → rest = []) := by
  obtain ⟨l, hwf, -⟩ := builtByAdds_wf hs
  obtain ⟨s1, hadd, hpost⟩ := addContact_wf hwf name phone category hn hp hd hc
  have hrecs1 : (s.heap.length :: l).map (fields s1.heap) =
      (name, phone, category) :: l.map (fields s.heap) := by
    rw [List.map_cons, hpost.fields_new,
      map_fields_congr (fun a ha => hpost.fields_old a (seg_lt hwf.seg a ha))]
  refine ⟨s1, l.map (fields s.heap), _, storeRecords_of_wf hwf, hadd, ?_, rfl, ?_⟩
  · rw [searchContact_of_storeOrder name (storeOrder_of_wf hpost.wf), hrecs1,
      List.filter_cons_of_pos (by simp [hasSubstr_self]), filter_hasSubstr_eq]
  · intro hnil
    rw [hnil]
    rfl

/-- C13 on an empty manager: after `add("A", "1234567890", "x")` the search for
`A` prints that record and nothing else. -/
theorem add_then_search_witness :
    ∃ s1, addContact (emptyManager none true) "A" "1234567890" "x" =
        some (Report.added, s1) ∧
      searchContact s1 "A" = some ([("A", "1234567890", "x")], s1) := by
  obtain ⟨s1, recs, rest, hrecs, hadd, hsearch, -, hone⟩ :=
    add_then_search (emptyManager none true) (BuiltByAdds.empty none true)
      "A" "1234567890" "x" (by decide) (by decide) (by decide) (by decide)
  have hempty : storeRecords (emptyManager none true) = some [] := by decide
  rw [hempty] at hrecs
  cases hrecs
  rw [hone rfl] at hsearch
  exact ⟨s1, hadd, hsearch⟩

/-! ## Claim C12: what the code does -/

/-- C12 fails on the code: `sortContacts` sorts the names, but prints by calling
the substring search `searchContact` for every name.  For records named Bob,
alice, Amy it prints Amy, Bob, alice; for the store built by `add("A", ...)`,
`add("AB", ...)` the sorted names are A, AB, and the search for `A` prints the
records AB and A, the search for `AB` prints AB again: three entries for two
records, and not in ascending order.  The state is returned as it was. -/
theorem sortContacts_prints_substring_matches :
    sortNames ["Bob", "alice", "Amy"] = ["Amy", "Bob", "alice"] ∧
    ((run (emptyManager none true)
        [Call.add "Bob" "1234567890" "x", Call.add "alice" "1234567890" "x",
         Call.add "Amy" "1234567890" "x"]).bind sortContacts).map
      (fun out => out.1.map (fun rec => rec.1)) = some ["Amy", "Bob", "alice"] ∧
    (run (emptyManager none true)
        [Call.add "A" "1234567890" "x", Call.add "AB" "0987654321" "y"]).bind storeRecords =
      some [("AB", "0987654321", "y"), ("A", "1234567890", "x")] ∧
    ((run (emptyManager none true)
        [Call.add "A" "1234567890" "x", Call.add "AB" "0987654321" "y"]).bind sortContacts).map
      (fun out => out.1) =
      some [("AB", "0987654321", "y"), ("A", "1234567890", "x"), ("AB", "0987654321", "y")] :=
  ⟨by decide, by decide, by decide, by decide⟩

/-! ## Mutations and the redo stack -/

theorem updateGraph_redoStack {s s1 : State} {name category : String}
    (h : updateGraph s name category = some s1) : s1.redoStack = s.redoStack := by
  unfold updateGraph at h
  dsimp only at h
  repeat' split at h
  all_goals first | (cases h; rfl) | cases h

theorem saveToFile_redoStack {s s1 : State} (h : saveToFile s = some s1) :
    s1.redoStack = s.redoStack := by
  unfold saveToFile at h
  repeat' split at h
  all_goals first | (cases h; rfl) | cases h

theorem addContact_redoStack {s s1 : State} {name phone category : String} {r : Report}
    (h : addContact s name phone category = some (r, s1)) : s1.redoStack = s.redoStack := by
  unfold addContact at h
  dsimp only at h
  repeat' split at h
  all_goals first
    | (cases h; rfl)
    | (cases h; rw [saveToFile_redoStack (by assumption), updateGraph_redoStack (by assumption)])
    | cases h

theorem updateContact_redoStack {s s1 : State} {name newPhone newCategory : String}
    {updateChoice : Int} {input : String} {r : Report}
    (h : updateContact s name newPhone newCategory updateChoice input = some (r, s1)) :
    s1.redoStack = s.redoStack := by
  unfold updateContact at h
  dsimp only at h
  repeat' split at h
  all_goals first
    | (cases h; rfl)
    | (cases h; rw [saveToFile_redoStack (by assumption), updateGraph_redoStack (by assumption)])
    | cases h

/-! ## Add followed by undo -/

/-- State after `addContact` of a valid record and `undo` on a store built by
adds: the store is as before and the new cell is on top of the redo stack,
with no `prev`. -/
theorem add_undo_state {s : State} (hs : BuiltByAdds s)
    (name phone category : String) (hn : name ≠ "") (hp : phone.length = 10)
    (hd : ∀ ch ∈ phone.data, 48 ≤ ch.toNat ∧ ch.toNat ≤ 57) (hc : category ≠ "") :
    ∃ sA sU l c, WF s l ∧ addContact s name phone category = some (Report.added, sA) ∧
      undo sA = some (Report.undone, sU) ∧ WF sU l ∧
      sU.redoStack = s.heap.length :: s.redoStack ∧
      sU.heap[s.heap.length]? = some c ∧ c.prev = none ∧
      fields sU.heap s.heap.length = (name, phone, category) ∧
      sU.heap.length = s.heap.length + 1 ∧ s.heap.length ∉ l ∧
      (∀ a ∈ l, fields sU.heap a = fields s.heap a) := by
  obtain ⟨l, hwf, -⟩ := builtByAdds_wf hs
  have hlt := seg_lt hwf.seg
  have hnotin : s.heap.length ∉ l := fun hm => Nat.lt_irrefl _ (hlt _ hm)
  obtain ⟨sA, hadd, hA⟩ := addContact_wf hwf name phone category hn hp hd hc
  obtain ⟨sU, hundo, hU⟩ := undo_wf hA.wf hA.undoStack_eq (List.mem_cons_self _ _)
  have hwfU : WF sU l := by
    have := hU.wf
    rwa [List.erase_cons_head] at this
  obtain ⟨c, hcA, hcprev, -, -⟩ := hA.wf.seg
  refine ⟨sA, sU, l, c, hwf, hadd, hundo, hwfU, ?_, ?_, hcprev, ?_, ?_, hnotin, ?_⟩
  · rw [hU.redoStack_eq, hA.redoStack_eq]
  · rw [hU.cell_self]; exact hcA
  · rw [hU.fields_eq, hA.fields_new]
  · rw [hU.heap_length, hA.heap_length]
  · intro a ha
    rw [hU.fields_eq, hA.fields_old a (hlt a ha)]

theorem find_congr {l : List Nat} {p q : Nat → Bool} (h : ∀ a ∈ l, p a = q a) :
    l.find? p = l.find? q := by
  induction l with
  | nil => rfl
  | cons a rest ih =>
    simp only [List.find?_cons, h a (List.mem_cons_self _ _),
      ih (fun b hb => h b (List.mem_cons_of_mem _ hb))]

theorem head_ne_of_not_mem {s : State} {l : List Nat} (h : WF s l) {b : Nat} (hb : b ∉ l) :
    s.head ≠ some b := by
  rw [h.head_eq]
  cases l with
  | nil => intro hEq; cases hEq
  | cons a rest =>
    intro hEq
    cases hEq
    exact hb (List.mem_cons_self _ _)

/-! ## Claim C17: the relationship graph is a chain -/

theorem updateGraph_step (s : State) (name category : String)
    (hg : s.graph = List.range s.nodes.length) :
    ∃ s1, updateGraph s name category = some s1 ∧
      s1.graph = s.graph ++ [s.nodes.length] ∧ s1.nodes.length = s.nodes.length + 1 ∧
      (∃ g, s1.nodes[s.nodes.length]? = some g ∧ g.name = name ∧ g.category = category ∧
        g.connections = if 0 < s.nodes.length then [s.nodes.length - 1] else []) ∧
      (∀ i, i + 1 = s.nodes.length → ∃ g g1, s.nodes[i]? = some g ∧ s1.nodes[i]? = some g1 ∧
        g1.connections = g.connections ++ [s.nodes.length] ∧ g1.name = g.name ∧
        g1.category = g.category) ∧
      (∀ i, i + 1 < s.nodes.length → s1.nodes[i]? = s.nodes[i]?) := by
  rcases Nat.eq_zero_or_pos s.nodes.length with hk | hk
  · have hgraph : s.graph = [] := by rw [hg, hk]; rfl
    have hnodes : s.nodes = [] := List.length_eq_zero.1 hk
    refine ⟨State.mk s.heap s.freed s.head s.undoStack s.redoStack
      (s.nodes ++ [GraphNode.mk name category []]) (s.graph ++ [s.nodes.length])
      s.file s.writable, ?_, rfl, by simp, ?_, ?_, ?_⟩
    · unfold updateGraph
      simp [hgraph]
    · exact ⟨GraphNode.mk name category [], by simp [hnodes], rfl, rfl, by simp [hk]⟩
    · intro i hi; omega
    · intro i hi; omega
  · obtain ⟨k, hk1⟩ : ∃ k, s.nodes.length = k + 1 := ⟨s.nodes.length - 1, by omega⟩
    have hklt : k < s.nodes.length := by omega
    have hlen1 : (s.graph ++ [s.nodes.length]).length = k + 2 := by
      rw [List.length_append, hg, List.length_range, hk1]; rfl
    have hget : (s.graph ++ [s.nodes.length])[(s.graph ++ [s.nodes.length]).length - 2]? =
        some k := by
      rw [hlen1, hg]
      have hkr : k < (List.range s.nodes.length).length := by rw [List.length_range]; exact hklt
      rw [show k + 2 - 2 = k from rfl, List.getElem?_append_left hkr,
        List.getElem?_eq_getElem hkr, List.getElem_range]
    have hgk : s.nodes[k]? = some s.nodes[k] := List.getElem?_eq_getElem hklt
    have hgk1 : (s.nodes ++ [GraphNode.mk name category []])[k]? = some s.nodes[k] := by
      rw [List.getElem?_append_left hklt, hgk]
    have hp1 : pushConnection (s.nodes ++ [GraphNode.mk name category []]) k s.nodes.length =
        some ((s.nodes ++ [GraphNode.mk name category []]).set k
          { s.nodes[k] with connections := s.nodes[k].connections ++ [s.nodes.length] }) := by
      simp only [pushConnection, hgk1]
    have hnew2 : ((s.nodes ++ [GraphNode.mk name category []]).set k
          { s.nodes[k] with connections := s.nodes[k].connections ++ [s.nodes.length] })[
          s.nodes.length]? = some (GraphNode.mk name category []) := by
      rw [List.getElem?_set_ne (by omega)]
      simp
    have hp2 : pushConnection ((s.nodes ++ [GraphNode.mk name category []]).set k
          { s.nodes[k] with connections := s.nodes[k].connections ++ [s.nodes.length] })
          s.nodes.length k =
        some (((s.nodes ++ [GraphNode.mk name category []]).set k
          { s.nodes[k] with connections := s.nodes[k].connections ++ [s.nodes.length] }).set
          s.nodes.length (GraphNode.mk name category ([] ++ [k]))) := by
      simp only [pushConnection, hnew2]
    refine ⟨State.mk s.heap s.freed s.head s.undoStack s.redoStack
      (((s.nodes ++ [GraphNode.mk name category []]).set k
          { s.nodes[k] with connections := s.nodes[k].connections ++ [s.nodes.length] }).set
          s.nodes.length (GraphNode.mk name category ([] ++ [k])))
      (s.graph ++ [s.nodes.length]) s.file s.writable, ?_, rfl, by simp, ?_, ?_, ?_⟩
    · unfold updateGraph
      have hgt : (s.graph ++ [s.nodes.length]).length > 1 := by rw [hlen1]; omega
      simp only [hgt, if_true, hget, hp1, hp2]
    · refine ⟨GraphNode.mk name category ([] ++ [k]), ?_, rfl, rfl, ?_⟩
      · show (List.set _ _ _)[s.nodes.length]? = _
        rw [List.getElem?_set_self (by simp)]
      · rw [if_pos hk, hk1]
        rfl
    · intro i hi
      have hik : i = k := by omega
      subst hik
      refine ⟨s.nodes[i], { s.nodes[i] with
        connections := s.nodes[i].connections ++ [s.nodes.length] }, hgk, ?_, rfl, rfl, rfl⟩
      show (List.set _ _ _)[i]? = _
      rw [List.getElem?_set_ne (by omega), List.getElem?_set_self (by simp; omega)]
    · intro i hi
      show (List.set _ _ _)[i]? = _
      rw [List.getElem?_set_ne (by omega), List.getElem?_set_ne (by omega),
        List.getElem?_append_left (by omega)]

theorem builtByLinks_chain {s : State} (hs : BuiltByLinks s) :
    s.graph = List.range s.nodes.length ∧
    ∀ i, i < s.nodes.length → ∃ g, s.nodes[i]? = some g ∧
      g.connections = (if 0 < i then [i - 1] else []) ++
        (if i + 1 < s.nodes.length then [i + 1] else []) := by
  induction hs with
  | empty s hn hg =>
    refine ⟨by rw [hg, hn]; rfl, fun i hi => ?_⟩
    rw [hn] at hi
    cases hi
  | link name category _ hupd ih =>
    rename_i s s1 _
    obtain ⟨hgr, hconn⟩ := ih
    obtain ⟨s2, hupd2, hg2, hl2, ⟨g, hgk, -, -, hgc⟩, hprev, hother⟩ :=
      updateGraph_step s name category hgr
    rw [hupd2] at hupd
    cases hupd
    refine ⟨by rw [hg2, hgr, hl2, List.range_succ], fun i hi => ?_⟩
    rw [hl2] at hi ⊢
    rcases Nat.lt_or_ge (i + 1) s.nodes.length with h1 | h1
    · obtain ⟨g0, hg0, hc0⟩ := hconn i (by omega)
      refine ⟨g0, by rw [hother i h1]; exact hg0, ?_⟩
      rw [hc0, if_pos h1, if_pos (show i + 1 < s.nodes.length + 1 by omega)]
    · rcases Nat.lt_or_ge i s.nodes.length with h2 | h2
      · obtain ⟨g0, hg0, hc0⟩ := hconn i h2
        obtain ⟨g', g1, hg', hg1, hc1, -, -⟩ := hprev i (by omega)
        rw [hg0] at hg'
        cases hg'
        refine ⟨g1, hg1, ?_⟩
        have hik : i + 1 = s.nodes.length := by omega
        rw [hc1, hc0, if_neg (show ¬ i + 1 < s.nodes.length by omega),
          if_pos (show i + 1 < s.nodes.length + 1 by omega), List.append_nil, hik]
      · have hik : i = s.nodes.length := by omega
        subst hik
        refine ⟨g, hgk, ?_⟩
        rw [hgc, if_neg (show ¬ s.nodes.length + 1 < s.nodes.length + 1 by omega),
          List.append_nil]

/-- C17: in a graph built from the empty graph by `updateGraph` calls only, the
vector holds the nodes in creation order and the i-th node is connected
exactly to the node before it (if any) and the node after it (if any): a
chain.  A further call creates a node with the given name and category that is
connected to the previously last node only (to none when it is the first),
adds the new node to the connections of that node, and changes no other
node. -/
theorem updateGraph_chain (s : State) (hs : BuiltByLinks s) (name category : String) :
    s.graph = List.range s.nodes.length ∧
    (∀ i, i < s.nodes.length → ∃ g, s.nodes[i]? = some g ∧
      g.connections = (if 0 < i then [i - 1] else []) ++
        (if i + 1 < s.nodes.length then [i + 1] else [])) ∧
    ∃ s1, updateGraph s name category = some s1 ∧
      s1.graph = s.graph ++ [s.nodes.length] ∧ s1.nodes.length = s.nodes.length + 1 ∧
      (∃ g, s1.nodes[s.nodes.length]? = some g ∧ g.name = name ∧ g.category = category ∧
        g.connections = if 0 < s.nodes.length then [s.nodes.length - 1] else []) ∧
      (∀ i, i + 1 = s.nodes.length → ∃ g g1, s.nodes[i]? = some g ∧ s1.nodes[i]? = some g1 ∧
        g1.connections = g.connections ++ [s.nodes.length] ∧ g1.name = g.name ∧
        g1.category = g.category) ∧
      (∀ i, i + 1 < s.nodes.length → s1.nodes[i]? = s.nodes[i]?) :=
  ⟨(builtByLinks_chain hs).1, (builtByLinks_chain hs).2,
    updateGraph_step s name category (builtByLinks_chain hs).1⟩

theorem builtByLinks_sampleStore2 : BuiltByLinks sampleStore2 :=
  @BuiltByLinks.link { sampleStore2 with nodes := [GraphNode.mk "A" "x" []], graph := [0] }
    sampleStore2 "B" "y"
    (@BuiltByLinks.link { sampleStore2 with nodes := [], graph := [] }
      { sampleStore2 with nodes := [GraphNode.mk "A" "x" []], graph := [0] } "A" "x"
      (BuiltByLinks.empty _ rfl rfl) (by decide))
    (by decide)

/-- C17 on the graph of the manager holding B, A (nodes A, B): a third link. -/
theorem updateGraph_chain_witness :
    sampleStore2.graph = [0, 1] ∧
    ∃ s1, updateGraph sampleStore2 "C" "z" = some s1 ∧ s1.graph = [0, 1, 2] ∧
      s1.nodes.map (fun g => g.connections) = [[1], [0, 2], [1]] := by
  obtain ⟨hg, -, s1, hupd, hg1, -, -, -, -⟩ :=
    updateGraph_chain sampleStore2 builtByLinks_sampleStore2 "C" "z"
  refine ⟨hg, s1, hupd, hg1, ?_⟩
  have heval : (updateGraph sampleStore2 "C" "z").map
      (fun t => t.nodes.map (fun g => g.connections)) = some [[1], [0, 2], [1]] := by decide
  rw [hupd] at heval
  exact Option.some.inj heval

/-! ## Files and flags -/

theorem updateGraph_writable {s s1 : State} {name category : String}
    (h : updateGraph s name category = some s1) : s1.writable = s.writable := by
  unfold updateGraph at h
  dsimp only at h
  repeat' split at h
  all_goals first | (cases h; rfl) | cases h

theorem saveToFile_writable {s s1 : State} (h : saveToFile s = some s1) :
    s1.writable = s.writable := by
  unfold saveToFile at h
  repeat' split at h
  all_goals first | (cases h; rfl) | cases h

theorem addContact_writable {s s1 : State} {name phone category : String} {r : Report}
    (h : addContact s name phone category = some (r, s1)) : s1.writable = s.writable := by
  unfold addContact at h
  dsimp only at h
  repeat' split at h
  all_goals first
    | (cases h; rfl)
    | (cases h; rw [saveToFile_writable (by assumption), updateGraph_writable (by assumption)])
    | cases h

/-! ## Claim C19: what the code does -/

/-- C19 fails on the code.  The store built by adding a record whose name is
`n` letters `a` and then the record A holds names without comma and fields
without line feed, and its saved file has the line of A followed by the line of
the long name.  When the first block that the input stream fetches
(`bufSize` characters, at least the 15 of the first line) ends before the end
of the long name, loading that file into a fresh manager whose file opens for
writing returns a store with the record A alone: adding A rewrites the file
under the open stream, so the second record is lost, where the claim promises
both records in reverse order. -/
theorem load_loses_records (bufSize n fuel : Nat) (hbuf : 15 ≤ bufSize)
    (hlong : bufSize ≤ n + 15) (hn : 0 < n) (hfuel : 3 ≤ fuel) :
    ∃ s s1 s2, BuiltByAdds s ∧ s.writable = true ∧
      storeRecords s = some [("A", "1234567890", "x"),
        (String.mk (List.replicate n 'a'), "0987654321", "y")] ∧
      (∀ rec ∈ [("A", "1234567890", "x"),
          (String.mk (List.replicate n 'a'), "0987654321", "y")],
        ',' ∉ rec.1.data ∧ '\n' ∉ rec.1.data ∧ '\n' ∉ rec.2.1.data ∧ '\n' ∉ rec.2.2.data) ∧
      saveToFile s = some s1 ∧
      s1.file = some (serialize [("A", "1234567890", "x"),
        (String.mk (List.replicate n 'a'), "0987654321", "y")]) ∧
      loadFromFile bufSize fuel (emptyManager s1.file true) = some s2 ∧
      storeRecords s2 = some [("A", "1234567890", "x")] :=
  save_load_long_name bufSize n fuel hbuf hlong hn hfuel

/-- C19 at the block size of libstdc++ (8191 characters) with a name of 8200
letters: the saved file has two lines, the reloaded store has one record. -/
theorem load_loses_records_witness :
    (15 ≤ 8191 ∧ 8191 ≤ 8200 + 15 ∧ 0 < 8200 ∧ 3 ≤ 3) ∧
    ∃ s s1 s2, BuiltByAdds s ∧ s.writable = true ∧
      storeRecords s = some [("A", "1234567890", "x"),
        (String.mk (List.replicate 8200 'a'), "0987654321", "y")] ∧
      (∀ rec ∈ [("A", "1234567890", "x"),
          (String.mk (List.replicate 8200 'a'), "0987654321", "y")],
        ',' ∉ rec.1.data ∧ '\n' ∉ rec.1.data ∧ '\n' ∉ rec.2.1.data ∧ '\n' ∉ rec.2.2.data) ∧
      saveToFile s = some s1 ∧
      s1.file = some (serialize [("A", "1234567890", "x"),
        (String.mk (List.replicate 8200 'a'), "0987654321", "y")]) ∧
      loadFromFile 8191 3 (emptyManager s1.file true) = some s2 ∧
      storeRecords s2 = some [("A", "1234567890", "x")] :=
  ⟨⟨by decide, by decide, by decide, by decide⟩,
    load_loses_records 8191 8200 3 (by decide) (by decide) (by decide) (by decide)⟩

/-! ## States reachable by add, undo and redo -/

theorem redoOK_frame {heap heap1 : List Contact} {stack l l1 : List Nat}
    (hcell : ∀ a ∈ stack, heap1[a]? = heap[a]?) (hsub : ∀ x ∈ l, x ∈ l1)
    (h : RedoOK heap stack l) : RedoOK heap1 stack l1 := by
  induction stack generalizing l l1 with
  | nil => trivial
  | cons r rest ih =>
    obtain ⟨⟨c, hc, hprev, hnext⟩, hrest⟩ := h
    refine ⟨⟨c, by rw [hcell r (List.mem_cons_self _ _)]; exact hc, hprev, ?_⟩, ?_⟩
    · rcases hnext with hn | ⟨x, hx, hxl⟩
      · exact Or.inl hn
      · exact Or.inr ⟨x, hx, hsub x hxl⟩
    · refine ih (fun a ha => hcell a (List.mem_cons_of_mem _ ha)) ?_ hrest
      intro x hx
      rcases List.mem_cons.1 hx with rfl | hx
      · exact List.mem_cons_self _ _
      · exact List.mem_cons_of_mem _ (hsub x hx)

theorem redoOK_lt {heap : List Contact} {stack l : List Nat} (h : RedoOK heap stack l) :
    ∀ a ∈ stack, a < heap.length := by
  induction stack generalizing l with
  | nil => intro a ha; cases ha
  | cons r rest ih =>
    obtain ⟨⟨c, hc, -, -⟩, hrest⟩ := h
    intro a ha
    rcases List.mem_cons.1 ha with rfl | ha
    · by_contra hlt
      rw [List.getElem?_eq_none (by omega)] at hc
      cases hc
    · exact ih hrest a ha

theorem histInv_empty (file : Option String) (writable : Bool) :
    HistInv (emptyManager file writable) [] :=
  { wf := wf_emptyManager file writable
    undo_eq := rfl
    nodup := List.nodup_nil
    redo_ok := trivial }

theorem histInv_add {s : State} {l : List Nat} (h : HistInv s l)
    (name phone category : String) (hn : name ≠ "") (hp : phone.length = 10)
    (hd : ∀ ch ∈ phone.data, 48 ≤ ch.toNat ∧ ch.toNat ≤ 57) (hc : category ≠ "") :
    ∃ s1, addContact s name phone category = some (Report.added, s1) ∧
      HistInv s1 (s.heap.length :: l) := by
  obtain ⟨s1, hadd, hP⟩ := addContact_wf h.wf name phone category hn hp hd hc
  have hlt := seg_lt h.wf.seg
  have hrlt := redoOK_lt h.redo_ok
  have hnd := h.nodup
  refine ⟨s1, hadd, ⟨hP.wf, by rw [hP.undoStack_eq, h.undo_eq], ?_, ?_⟩⟩
  · rw [hP.redoStack_eq, List.nodup_middle, List.nodup_cons]
    refine ⟨fun hm => ?_, hnd⟩
    rcases List.mem_append.1 hm with hm | hm
    · exact Nat.lt_irrefl _ (hrlt _ hm)
    · exact Nat.lt_irrefl _ (hlt _ hm)
  · rw [hP.redoStack_eq]
    refine redoOK_frame (fun a ha => ?_) (fun x hx => List.mem_cons_of_mem _ hx) h.redo_ok
    refine hP.cell_old a (hrlt a ha) (head_ne_of_not_mem h.wf (fun hal => ?_))
    exact (List.nodup_append.1 hnd).2.2 ha hal

theorem histInv_undo {s : State} {u : Nat} {l : List Nat} (h : HistInv s (u :: l)) :
    ∃ s1, undo s = some (Report.undone, s1) ∧ HistInv s1 l := by
  obtain ⟨s1, hundo, hP⟩ := undo_wf h.wf h.undo_eq (List.mem_cons_self _ _)
  have hwf1 : WF s1 l := by
    have := hP.wf
    rwa [List.erase_cons_head] at this
  obtain ⟨c, hc, hprev, hnext, -⟩ := h.wf.seg
  have hnd := h.nodup
  refine ⟨s1, hundo, ⟨hwf1, hP.undoStack_eq, ?_, ?_⟩⟩
  · rw [hP.redoStack_eq, List.cons_append, ← List.nodup_middle]
    exact hnd
  · rw [hP.redoStack_eq]
    refine ⟨⟨c, by rw [hP.cell_self]; exact hc, hprev, ?_⟩, ?_⟩
    · cases l with
      | nil => exact Or.inl hnext
      | cons b rest => exact Or.inr ⟨b, hnext, List.mem_cons_self _ _⟩
    · refine redoOK_frame (fun a ha => hP.cell_other a (fun hal => ?_)) (fun x hx => hx)
        h.redo_ok
      exact (List.nodup_append.1 hnd).2.2 ha hal

theorem histInv_redo {s : State} {l : List Nat} (h : HistInv s l) {r : Nat} {rest : List Nat}
    (hR : s.redoStack = r :: rest) :
    ∃ s1, redo s = some (Report.redone, s1) ∧ HistInv s1 (r :: l) := by
  have hnd := h.nodup
  rw [hR] at hnd
  have hok := h.redo_ok
  rw [hR] at hok
  obtain ⟨⟨c, hc, hprev, hnext⟩, hrestok⟩ := hok
  have hrl : r ∉ l := fun hm =>
    (List.nodup_append.1 hnd).2.2 (List.mem_cons_self _ _) hm
  obtain ⟨s1, hredo, hP⟩ := redo_wf h.wf hR hc hprev
    (fun hnil => by
      rcases hnext with hn | ⟨x, -, hxl⟩
      · exact hn
      · rw [hnil] at hxl; cases hxl) hrl
  refine ⟨s1, hredo, ⟨hP.wf, by rw [hP.undoStack_eq, h.undo_eq], ?_, ?_⟩⟩
  · rw [hP.redoStack_eq, List.nodup_middle]
    exact hnd
  · rw [hP.redoStack_eq]
    refine redoOK_frame (fun a ha => hP.cell_other a (fun hEq => ?_) ?_) (fun x hx => hx) hrestok
    · rw [List.cons_append, List.nodup_cons] at hnd
      exact hnd.1 (hEq ▸ List.mem_append_left _ ha)
    · refine head_ne_of_not_mem h.wf (fun hal => ?_)
      exact (List.nodup_append.1 hnd).2.2 (List.mem_cons_of_mem _ ha) hal

theorem reachAUR_inv {s : State} (hs : ReachAUR s) : ∃ l, HistInv s l := by
  induction hs with
  | empty file writable => exact ⟨[], histInv_empty file writable⟩
  | add name phone category r _ hadd ih =>
    obtain ⟨l, hinv⟩ := ih
    by_cases hv : name = "" ∨ phone = "" ∨ category = "" ∨
        ¬ (phone.length = 10 ∧ ∀ ch ∈ phone.data, 48 ≤ ch.toNat ∧ ch.toNat ≤ 57)
    · rcases addContact_of_invalid _ name phone category hv with h1 | h1 <;>
        rw [h1] at hadd <;> cases hadd <;> exact ⟨l, hinv⟩
    · simp only [not_or, not_not] at hv
      obtain ⟨s2, hadd2, hinv2⟩ := histInv_add hinv name phone category hv.1 hv.2.2.2.1
        hv.2.2.2.2 hv.2.2.1
      rw [hadd2] at hadd
      cases hadd
      exact ⟨_, hinv2⟩
  | undo r _ hundo ih =>
    obtain ⟨l, hinv⟩ := ih
    cases l with
    | nil =>
      have hU := hinv.undo_eq
      unfold ContactManager.undo at hundo
      rw [hU] at hundo
      cases hundo
      exact ⟨[], hinv⟩
    | cons u l1 =>
      obtain ⟨s2, hundo2, hinv2⟩ := histInv_undo hinv
      rw [hundo2] at hundo
      cases hundo
      exact ⟨_, hinv2⟩
  | redo r _ hredo ih =>
    rename_i s0 s1 _
    obtain ⟨l, hinv⟩ := ih
    cases hR : s0.redoStack with
    | nil =>
      unfold ContactManager.redo at hredo
      rw [hR] at hredo
      cases hredo
      exact ⟨l, hinv⟩
    | cons r0 rest =>
      obtain ⟨s2, hredo2, hinv2⟩ := histInv_redo hinv hR
      rw [hredo2] at hredo
      cases hredo
      exact ⟨_, hinv2⟩

/-! ## Claim C18 -/

theorem seg_pointwise {heap : List Contact} {p : Option Nat} {l : List Nat}
    (h : Seg heap p l none) :
    ∀ i, i < l.length → ∃ c, (l[i]?).bind (fun a => heap[a]?) = some c ∧
      c.next = l[i + 1]? ∧ c.prev = if i = 0 then p else l[i - 1]? := by
  induction l generalizing p with
  | nil => intro i hi; cases hi
  | cons a rest ih =>
    obtain ⟨c, hc, hprev, hnext, hrest⟩ := h
    intro i hi
    cases i with
    | zero =>
      refine ⟨c, by simpa using hc, ?_, by simpa using hprev⟩
      rw [hnext]
      cases rest <;> simp [headOr]
    | succ j =>
      obtain ⟨c1, hc1, hn1, hp1⟩ := ih hrest j (by simpa using hi)
      refine ⟨c1, by simpa using hc1, by simpa using hn1, ?_⟩
      rw [hp1]
      cases j with
      | zero => simp
      | succ k => simp

theorem reachAUR_sampleStore2 : ReachAUR sampleStore2 :=
  @ReachAUR.add sampleStore sampleStore2 "B" "0987654321" "y" Report.added
    (@ReachAUR.add (emptyManager none true) sampleStore "A" "1234567890" "x" Report.added
      (ReachAUR.empty none true) (by decide))
    (by decide)

/-- C18: in every state reachable from an empty manager by `addContact`, `undo`
and `redo`, the store order is a finite list without repetition that equals
the undo stack read from the top; the cells are doubly linked in that order
(the head has no `prev`, each `next` is the following cell or null at the end,
each `prev` the preceding cell); `undo` returns and removes exactly the front
record, and `redo` returns. -/
theorem add_undo_redo_invariant (s : State) (hs : ReachAUR s) :
    ∃ l, storeOrder s = some l ∧ s.undoStack = l ∧ l.Nodup ∧ s.head = l.head? ∧
      (∀ i, i < l.length → ∃ c, (l[i]?).bind (fun a => s.heap[a]?) = some c ∧
        c.next = l[i + 1]? ∧ c.prev = if i = 0 then none else l[i - 1]?) ∧
      (∃ rep s1, undo s = some (rep, s1) ∧ storeOrder s1 = some l.tail ∧ ReachAUR s1) ∧
      (∃ rep s1, redo s = some (rep, s1) ∧ ReachAUR s1) := by
  obtain ⟨l, hinv⟩ := reachAUR_inv hs
  have hhead : s.head = l.head? := by
    rw [hinv.wf.head_eq]
    cases l <;> rfl
  refine ⟨l, storeOrder_of_wf hinv.wf, hinv.undo_eq, hinv.wf.nodup, hhead,
    seg_pointwise hinv.wf.seg, ?_, ?_⟩
  · cases l with
    | nil =>
      have hU : undo s = some (Report.nothingToUndo, s) := by
        unfold undo
        rw [hinv.undo_eq]
      exact ⟨_, s, hU, storeOrder_of_wf hinv.wf, hs⟩
    | cons u l1 =>
      obtain ⟨s1, hundo, hinv1⟩ := histInv_undo hinv
      exact ⟨_, s1, hundo, storeOrder_of_wf hinv1.wf, ReachAUR.undo _ hs hundo⟩
  · cases hR : s.redoStack with
    | nil =>
      have hRd : redo s = some (Report.nothingToRedo, s) := by
        unfold redo
        rw [hR]
      exact ⟨_, s, hRd, hs⟩
    | cons r rest =>
      obtain ⟨s1, hredo, -⟩ := histInv_redo hinv hR
      exact ⟨_, s1, hredo, ReachAUR.redo _ hs hredo⟩

/-- C18 on the manager holding B, A: the undo stack is the store order, and
`undo` leaves the record A. -/
theorem add_undo_redo_invariant_witness :
    storeOrder sampleStore2 = some [1, 0] ∧ sampleStore2.undoStack = [1, 0] ∧
    ∃ rep s1, undo sampleStore2 = some (rep, s1) ∧ storeOrder s1 = some [0] := by
  obtain ⟨l, hl, hu, -, -, -, ⟨rep, s1, hundo, hs1, -⟩, -⟩ :=
    add_undo_redo_invariant sampleStore2 reachAUR_sampleStore2
  have hl2 : l = [1, 0] := hu.symm
  subst hl2
  exact ⟨hl, hu, rep, s1, hundo, hs1⟩

/-! ## Outcomes of add, update and delete -/

theorem contactExists_of_wf {s : State} {l : List Nat} (h : WF s l) (name : String) :
    contactExists s name =
      some (l.find? (fun a => decide ((fields s.heap a).1 = name))).isSome := by
  unfold contactExists
  rw [findByName_eq_walk name (storeOrder_of_wf h)]
  rfl

theorem updateContact_absent {s : State} {l : List Nat}
    (name newPhone newCategory : String) (updateChoice : Int) (input : String)
    (hl : storeOrder s = some l) (habs : ∀ a ∈ l, (fields s.heap a).1 ≠ name) :
    updateContact s name newPhone newCategory updateChoice input =
      some (if l = [] then Report.noContacts else Report.notFound, s) := by
  have hf := findByName_eq_walk name hl
  have hnone : l.find? (fun a => decide ((fields s.heap a).1 = name)) = none := by
    rw [List.find?_eq_none]
    intro a ha
    simpa using habs a ha
  rw [hnone] at hf
  unfold updateContact
  unfold storeOrder at hl
  cases hh : s.head with
  | none =>
    rw [hh] at hl
    have : l = [] := by
      rw [walk_null] at hl
      exact (Option.some.inj hl).symm
    simp [this]
  | some h0 =>
    rw [hh] at hf hl
    have : l ≠ [] := by
      intro hnil
      cases hfuel : s.heap.length with
      | zero => rw [hfuel] at hl; simp [walk] at hl
      | succ f =>
        rw [hfuel, walk_some_succ] at hl
        cases hc : s.heap[h0]? with
        | none => rw [hc] at hl; cases hl
        | some c =>
          rw [hc] at hl
          simp only [Option.map_eq_some'] at hl
          obtain ⟨r, -, hr⟩ := hl
          rw [hnil] at hr
          cases hr
    simp only [hf, this, if_false]

theorem updateContact_invalid {s : State} {l : List Nat} (h : WF s l)
    (name newPhone newCategory : String) (updateChoice : Int) (input : String) {r : Nat}
    (hfind : l.find? (fun a => decide ((fields s.heap a).1 = name)) = some r)
    (h1 : updateChoice ≠ 1) (h2 : updateChoice ≠ 2) (h3 : updateChoice ≠ 3) :
    updateContact s name newPhone newCategory updateChoice input =
      some (Report.invalidChoice, s) := by
  have hr : r ∈ l := List.mem_of_find?_eq_some hfind
  have hf : findByName s.heap name s.heap.length s.head = some (some r) := by
    rw [findByName_eq_walk name (storeOrder_of_wf h), hfind]
  obtain ⟨h0, hh⟩ : ∃ h0, s.head = some h0 := by
    rw [h.head_eq]
    cases l with
    | nil => cases hr
    | cons b l1 => exact ⟨b, rfl⟩
  have hrlt : r < s.heap.length := seg_lt h.seg r hr
  have hc : s.heap[r]? = some s.heap[r] := List.getElem?_eq_getElem hrlt
  rw [hh] at hf
  unfold updateContact
  simp only [hh, hf, hc, h1, h2, h3, if_false]

theorem updateContact_outcome {s : State} {l : List Nat} (h : WF s l)
    (name newPhone newCategory : String) (updateChoice : Int) (input : String)
    {rep : Report} {s1 : State}
    (hres : updateContact s name newPhone newCategory updateChoice input = some (rep, s1)) :
    s1 = s ∨ ∃ r c1, l.find? (fun a => decide ((fields s.heap a).1 = name)) = some r ∧
      UpdatePost s name newCategory r c1 l s1 := by
  cases hfind : l.find? (fun a => decide ((fields s.heap a).1 = name)) with
  | none =>
    have habs : ∀ a ∈ l, (fields s.heap a).1 ≠ name := by
      intro a ha
      simpa using (List.find?_eq_none.1 hfind) a ha
    rw [updateContact_absent name newPhone newCategory updateChoice input
      (storeOrder_of_wf h) habs] at hres
    cases hres
    exact Or.inl rfl
  | some r =>
    have hr : r ∈ l := List.mem_of_find?_eq_some hfind
    have hrlt : r < s.heap.length := seg_lt h.seg r hr
    have hc : s.heap[r]? = some s.heap[r] := List.getElem?_eq_getElem hrlt
    by_cases hch : updateChoice = 1 ∨ updateChoice = 2 ∨ updateChoice = 3
    · obtain ⟨c1, hedit⟩ : ∃ c1,
          (if updateChoice = 1 then some { s.heap[r] with name := input }
            else if updateChoice = 2 then some { s.heap[r] with phone := input }
            else if updateChoice = 3 then some { s.heap[r] with category := input }
            else none) = some c1 := by
        rcases hch with h1 | h1 | h1 <;> subst h1 <;> exact ⟨_, rfl⟩
      obtain ⟨s2, hupd, hP⟩ :=
        updateContact_wf h name newPhone newCategory updateChoice input hfind hc hedit
      rw [hupd] at hres
      cases hres
      exact Or.inr ⟨r, c1, rfl, hP⟩
    · simp only [not_or] at hch
      rw [updateContact_invalid h name newPhone newCategory updateChoice input hfind
        hch.1 hch.2.1 hch.2.2] at hres
      cases hres
      exact Or.inl rfl

theorem deleteContact_outcome {s : State} {l : List Nat} (h : WF s l) (name : String)
    {rep : Report} {s1 : State} (hres : deleteContact s name = some (rep, s1)) :
    s1 = s ∨ ∃ r, l.find? (fun a => decide ((fields s.heap a).1 = name)) = some r ∧
      DeletePost s name r l s1 := by
  cases hfind : l.find? (fun a => decide ((fields s.heap a).1 = name)) with
  | none =>
    have habs : ∀ a ∈ l, (fields s.heap a).1 ≠ name := by
      intro a ha
      simpa using (List.find?_eq_none.1 hfind) a ha
    rw [deleteContact_absent name (storeOrder_of_wf h) habs] at hres
    cases hres
    exact Or.inl rfl
  | some r =>
    obtain ⟨s2, hdel, hP⟩ := deleteContact_wf h name hfind
    rw [hdel] at hres
    cases hres
    exact Or.inr ⟨r, rfl, hP⟩

theorem addContact_outcome {s : State} {l : List Nat} (h : WF s l)
    (name phone category : String) {rep : Report} {s1 : State}
    (hres : addContact s name phone category = some (rep, s1)) :
    s1 = s ∨ AddPost s name phone category l s1 := by
  by_cases hv : name = "" ∨ phone = "" ∨ category = "" ∨
      ¬ (phone.length = 10 ∧ ∀ ch ∈ phone.data, 48 ≤ ch.toNat ∧ ch.toNat ≤ 57)
  · rcases addContact_of_invalid s name phone category hv with h1 | h1 <;>
      rw [h1] at hres <;> cases hres <;> exact Or.inl rfl
  · simp only [not_or, not_not] at hv
    obtain ⟨s2, hadd2, hP⟩ := addContact_wf h name phone category hv.1 hv.2.2.2.1
      hv.2.2.2.2 hv.2.2.1
    rw [hadd2] at hres
    cases hres
    exact Or.inr hP

/-! ## The graph and the store -/

theorem map_fst_eraseP (name : String) (recs : List (String × String × String)) :
    (recs.eraseP (fun rec => decide (rec.1 = name))).map (fun rec => rec.1) =
      (recs.map (fun rec => rec.1)).erase name := by
  induction recs with
  | nil => rfl
  | cons x xs ih =>
    by_cases hx : x.1 = name
    · rw [List.eraseP_cons_of_pos (by simpa using hx), List.map_cons, hx,
        List.erase_cons_head]
    · rw [List.eraseP_cons_of_neg (by simpa using hx), List.map_cons, List.map_cons,
        List.erase_cons_tail (by simpa using hx), ih]

theorem map_fst_eraseP_labels (name : String) (labs : List (String × String)) :
    (labs.eraseP (fun lab => decide (lab.1 = name))).map Prod.fst =
      (labs.map Prod.fst).erase name := by
  induction labs with
  | nil => rfl
  | cons x xs ih =>
    by_cases hx : x.1 = name
    · rw [List.eraseP_cons_of_pos (by simpa using hx), List.map_cons, hx,
        List.erase_cons_head]
    · rw [List.eraseP_cons_of_neg (by simpa using hx), List.map_cons, List.map_cons,
        List.erase_cons_tail (by simpa using hx), ih]

theorem fields_set_self {heap : List Contact} {r : Nat} (c1 : Contact) (hr : r < heap.length) :
    fields (heap.set r c1) r = (c1.name, c1.phone, c1.category) := by
  apply fields_of_getElem?
  rw [List.getElem?_set_self hr]

theorem namesInv_add {s s1 : State} {l : List Nat} (h : NamesInv s l)
    {name phone category : String} (hP : AddPost s name phone category l s1) :
    NamesInv s1 (s.heap.length :: l) := by
  have hrecs : (s.heap.length :: l).map (fields s1.heap) =
      (name, phone, category) :: l.map (fields s.heap) := by
    rw [List.map_cons, hP.fields_new,
      map_fields_congr (fun a ha => hP.fields_old a (seg_lt h.wf.seg a ha))]
  refine ⟨hP.wf, ?_⟩
  rw [hP.graphLabels_eq, hrecs]
  exact ((List.perm_append_singleton _ _).map Prod.fst).trans (List.Perm.cons _ h.perm)

theorem namesInv_delete {s s1 : State} {l : List Nat} (h : NamesInv s l)
    {name : String} {r : Nat}
    (hfind : l.find? (fun a => decide ((fields s.heap a).1 = name)) = some r)
    (hP : DeletePost s name r l s1) : NamesInv s1 (l.erase r) := by
  refine ⟨hP.wf, ?_⟩
  rw [hP.graphLabels_eq, map_fst_eraseP_labels, map_fields_congr (fun a _ => hP.fields_eq a),
    ← map_eraseP_of_find (fields s.heap) name hfind, map_fst_eraseP]
  exact List.Perm.erase _ h.perm

theorem namesInv_update {s s1 : State} {l : List Nat} (h : NamesInv s l)
    {name newCategory : String} {r : Nat} {c1 : Contact}
    (hfind : l.find? (fun a => decide ((fields s.heap a).1 = name)) = some r)
    (hP : UpdatePost s name newCategory r c1 l s1) : NamesInv s1 l := by
  refine ⟨hP.wf, ?_⟩
  have hr : r ∈ l := List.mem_of_find?_eq_some hfind
  have hrlt : r < s.heap.length := seg_lt h.wf.seg r hr
  have hstore : ((l.map (fields s1.heap)).map (fun rec => rec.1)).Perm
      (c1.name :: ((l.map (fields s.heap)).map (fun rec => rec.1)).erase name) := by
    have h1 : ((l.map (fields s1.heap)).map (fun rec => rec.1)).Perm
        (((r :: l.erase r).map (fields s1.heap)).map (fun rec => rec.1)) :=
      ((List.perm_cons_erase hr).map _).map _
    refine h1.trans ?_
    rw [List.map_cons, List.map_cons, hP.heap_eq, fields_set_self c1 hrlt,
      ← map_fst_eraseP, map_eraseP_of_find (fields s.heap) name hfind]
    have hsame : (l.erase r).map (fields (s.heap.set r c1)) = (l.erase r).map (fields s.heap) := by
      apply map_fields_congr
      intro a ha
      have hne : r ≠ a := fun hEq =>
        ((List.Nodup.mem_erase_iff h.wf.nodup).1 (hEq ▸ ha)).1 rfl
      exact fields_congr (getElem?_set_other _ _ _ _ hne)
    rw [hsame]
  rw [hP.graphLabels_eq, List.map_append, map_fst_eraseP_labels]
  refine ((List.perm_append_singleton _ _).trans ?_).trans hstore.symm
  exact List.Perm.cons _ (List.Perm.erase _ h.perm)

theorem reachAUD_inv {s : State} (hs : ReachAUD s) : ∃ l, NamesInv s l := by
  induction hs with
  | empty file writable =>
    exact ⟨[], wf_emptyManager file writable, List.Perm.refl _⟩
  | add name phone category r _ hadd ih =>
    obtain ⟨l, hinv⟩ := ih
    rcases addContact_outcome hinv.wf name phone category hadd with rfl | hP
    · exact ⟨l, hinv⟩
    · exact ⟨_, namesInv_add hinv hP⟩
  | update name newPhone newCategory updateChoice input r _ hupd ih =>
    obtain ⟨l, hinv⟩ := ih
    rcases updateContact_outcome hinv.wf name newPhone newCategory updateChoice input hupd
      with rfl | ⟨r0, c1, hfind, hP⟩
    · exact ⟨l, hinv⟩
    · exact ⟨l, namesInv_update hinv hfind hP⟩
  | delete name r _ hdel ih =>
    obtain ⟨l, hinv⟩ := ih
    rcases deleteContact_outcome hinv.wf name hdel with rfl | ⟨r0, hfind, hP⟩
    · exact ⟨l, hinv⟩
    · exact ⟨_, namesInv_delete hinv hfind hP⟩

theorem pairsInv_add {s s1 : State} {l : List Nat} (h : PairsInv s l)
    {name phone category : String} (hfresh : contactExists s name = some false)
    (hP : AddPost s name phone category l s1) : PairsInv s1 (s.heap.length :: l) := by
  have hrecs : (s.heap.length :: l).map (fields s1.heap) =
      (name, phone, category) :: l.map (fields s.heap) := by
    rw [List.map_cons, hP.fields_new,
      map_fields_congr (fun a ha => hP.fields_old a (seg_lt h.wf.seg a ha))]
  refine ⟨hP.wf, ?_, ?_⟩
  · rw [hP.graphLabels_eq, hrecs, List.map_cons]
    exact (List.perm_append_singleton _ _).trans (List.Perm.cons _ h.perm)
  · rw [hrecs, List.map_cons, List.nodup_cons]
    refine ⟨fun hm => ?_, h.nodup⟩
    rw [contactExists_of_wf h.wf] at hfresh
    have hnone : l.find? (fun a => decide ((fields s.heap a).1 = name)) = none := by
      cases hf : l.find? (fun a => decide ((fields s.heap a).1 = name)) with
      | none => rfl
      | some r => rw [hf] at hfresh; cases hfresh
    rw [List.map_map] at hm
    obtain ⟨a, ha, hEq⟩ := List.mem_map.1 hm
    have := (List.find?_eq_none.1 hnone) a ha
    exact this (by simpa using hEq)

theorem pairsInv_delete {s s1 : State} {l : List Nat} (h : PairsInv s l)
    {name : String} {r : Nat}
    (hfind : l.find? (fun a => decide ((fields s.heap a).1 = name)) = some r)
    (hP : DeletePost s name r l s1) : PairsInv s1 (l.erase r) := by
  have hrecs : (l.erase r).map (fields s1.heap) =
      (l.map (fields s.heap)).eraseP (fun rec => decide (rec.1 = name)) := by
    rw [map_fields_congr (fun a _ => hP.fields_eq a),
      map_eraseP_of_find (fields s.heap) name hfind]
  have hnames : ((graphLabels s).map Prod.fst).Nodup := by
    have hp := h.perm.map Prod.fst
    rw [List.map_map] at hp
    exact hp.nodup_iff.2 h.nodup
  have hpair : List.Pairwise (fun a b : String × String =>
      decide (a.1 = name) = true → decide (b.1 = name) = true → False) (graphLabels s) := by
    have hpw := List.pairwise_map.1 hnames
    refine hpw.imp ?_
    intro a b hab ha hb
    exact hab ((of_decide_eq_true ha).trans (of_decide_eq_true hb).symm)
  refine ⟨hP.wf, ?_, ?_⟩
  · rw [hP.graphLabels_eq, hrecs]
    have hp := List.Perm.eraseP (fun lab : String × String => decide (lab.1 = name)) hpair h.perm
    rw [List.eraseP_map] at hp
    exact hp
  · rw [hrecs]
    exact List.Nodup.sublist ((List.eraseP_sublist _).map _) h.nodup

theorem reachADFresh_inv {s : State} (hs : ReachADFresh s) : ∃ l, PairsInv s l := by
  induction hs with
  | empty file writable =>
    exact ⟨[], wf_emptyManager file writable, List.Perm.refl _, List.nodup_nil⟩
  | add name phone category r _ hfresh hadd ih =>
    obtain ⟨l, hinv⟩ := ih
    rcases addContact_outcome hinv.wf name phone category hadd with hEq | hP
    · subst hEq
      exact ⟨l, hinv⟩
    · exact ⟨_, pairsInv_add hinv hfresh hP⟩
  | delete name r _ hdel ih =>
    obtain ⟨l, hinv⟩ := ih
    rcases deleteContact_outcome hinv.wf name hdel with hEq | ⟨r0, hfind, hP⟩
    · subst hEq
      exact ⟨l, hinv⟩
    · exact ⟨_, pairsInv_delete hinv hfind hP⟩

/-! ## Claim C14 -/

theorem reachAUD_sampleStore2 : ReachAUD sampleStore2 :=
  @ReachAUD.add sampleStore sampleStore2 "B" "0987654321" "y" Report.added
    (@ReachAUD.add (emptyManager none true) sampleStore "A" "1234567890" "x" Report.added
      (ReachAUD.empty none true) (by decide))
    (by decide)

theorem reachADFresh_sampleStore2 : ReachADFresh sampleStore2 :=
  @ReachADFresh.add sampleStore sampleStore2 "B" "0987654321" "y" Report.added
    (@ReachADFresh.add (emptyManager none true) sampleStore "A" "1234567890" "x" Report.added
      (ReachADFresh.empty none true) (by decide) (by decide))
    (by decide) (by decide)

/-- C14 fails on the code.  After `add("A", "1234567890", "x")` and an update of
the phone of A (with the `newCategory` argument `""` that `main` always passes)
the store holds (A, x) but the graph holds (A, ""): `updateContact` calls
`updateGraph(current->name, newCategory)`.  And after `add(A, x)`, `add(A, y)`,
`delete("A")` the store holds (A, x) but the graph holds (A, y): the store is
searched from the newest record, the graph vector from the oldest node. -/
theorem graph_category_counterexample :
    (run (emptyManager none true)
        [Call.add "A" "1234567890" "x", Call.update "A" "" "" 2 "0987654321"]).map
      (fun s => (storeRecords s, graphLabels s)) =
      some (some [("A", "0987654321", "x")], [("A", "")]) ∧
    (run (emptyManager none true)
        [Call.add "A" "1234567890" "x", Call.add "A" "0987654321" "y", Call.delete "A"]).map
      (fun s => (storeRecords s, graphLabels s)) =
      some (some [("A", "1234567890", "x")], [("A", "y")]) :=
  ⟨by decide, by decide⟩

/-- C14, amended: in every state reachable from an empty manager by
`addContact`, `updateContact` and `deleteContact` the multiset of the names of
the graph entries equals the multiset of the names of the store records; and in
every state reachable by `addContact` and `deleteContact` in which a name is
added only when no record has it, the multiset of the (name, category) pairs of
the graph entries equals that of the store records. -/
theorem graph_mirrors_store :
    (∀ s, ReachAUD s → ∃ recs, storeRecords s = some recs ∧
      Multiset.ofList ((graphLabels s).map Prod.fst) =
        Multiset.ofList (recs.map (fun rec => rec.1))) ∧
    (∀ s, ReachADFresh s → ∃ recs, storeRecords s = some recs ∧
      Multiset.ofList (graphLabels s) =
        Multiset.ofList (recs.map (fun rec => (rec.1, rec.2.2)))) := by
  constructor
  · intro s hs
    obtain ⟨l, hinv⟩ := reachAUD_inv hs
    exact ⟨_, storeRecords_of_wf hinv.wf, Multiset.coe_eq_coe.2 hinv.perm⟩
  · intro s hs
    obtain ⟨l, hinv⟩ := reachADFresh_inv hs
    exact ⟨_, storeRecords_of_wf hinv.wf, Multiset.coe_eq_coe.2 hinv.perm⟩

/-- C14, amended, on the manager holding B, A, whose graph holds A, B. -/
theorem graph_mirrors_store_witness :
    graphLabels sampleStore2 = [("A", "x"), ("B", "y")] ∧
    Multiset.ofList ((graphLabels sampleStore2).map Prod.fst) = Multiset.ofList ["B", "A"] ∧
    Multiset.ofList (graphLabels sampleStore2) = Multiset.ofList [("B", "y"), ("A", "x")] := by
  obtain ⟨recs, hrecs, hnames⟩ := graph_mirrors_store.1 sampleStore2 reachAUD_sampleStore2
  obtain ⟨recs1, hrecs1, hpairs⟩ := graph_mirrors_store.2 sampleStore2 reachADFresh_sampleStore2
  have hsample : storeRecords sampleStore2 =
      some [("B", "0987654321", "y"), ("A", "1234567890", "x")] := by decide
  rw [hsample] at hrecs hrecs1
  cases hrecs
  cases hrecs1
  exact ⟨by decide, hnames, hpairs⟩

/-! ## Claim C15 -/

/-- C15 fails on the code in a state reached through an update.  After
`add(A)`, `update(A)`, `undo()`, `redo()`, `undo()`, `undo()`, `redo()` the
record A is in the store and also on the redo stack.  `add(B)` succeeds and
leaves the redo stack as it was, but the `redo()` issued right after it links
A in front of B while B still points to A: with a writable file the call never
returns, and with a file that does not open it returns a store in which A and B
point to each other, so nothing is reinserted in front of a list. -/
theorem redo_after_add_never_returns :
    (run (emptyManager none true)
        [Call.add "A" "1234567890" "x", Call.update "A" "" "" 3 "y", Call.undo, Call.redo,
         Call.undo, Call.undo, Call.redo]).map
      (fun s => (storeRecords s, s.redoStack)) =
      some (some [("A", "1234567890", "y")], [0]) ∧
    ((run (emptyManager none true)
        [Call.add "A" "1234567890" "x", Call.update "A" "" "" 3 "y", Call.undo, Call.redo,
         Call.undo, Call.undo, Call.redo]).bind
      (fun s => addContact s "B" "0987654321" "y")).map (fun p => (p.1, p.2.redoStack)) =
      some (Report.added, [0]) ∧
    ((run (emptyManager none true)
        [Call.add "A" "1234567890" "x", Call.update "A" "" "" 3 "y", Call.undo, Call.redo,
         Call.undo, Call.undo, Call.redo]).bind
      (fun s => addContact s "B" "0987654321" "y")).bind (fun p => storeRecords p.2) =
      some [("B", "0987654321", "y"), ("A", "1234567890", "y")] ∧
    ((run (emptyManager none true)
        [Call.add "A" "1234567890" "x", Call.update "A" "" "" 3 "y", Call.undo, Call.redo,
         Call.undo, Call.undo, Call.redo]).bind
      (fun s => addContact s "B" "0987654321" "y")).bind (fun p => redo p.2) = none ∧
    (((run (emptyManager none false)
        [Call.add "A" "1234567890" "x", Call.update "A" "" "" 3 "y", Call.undo, Call.redo,
         Call.undo, Call.undo, Call.redo]).bind
      (fun s => addContact s "B" "0987654321" "y")).bind (fun p => redo p.2)).map
      (fun p => (p.2.head, p.2.heap.map (fun c => c.next), storeOrder p.2)) =
      some (some 0, [some 1, some 0], none) :=
  ⟨by decide, by decide, by decide, by decide, by decide⟩

/-- In a state that satisfies the invariant of add, undo and redo, `redo`
returns and puts the top of the redo stack in front of the store. -/
theorem histInv_redo_post {s : State} {l : List Nat} (h : HistInv s l) {r : Nat}
    {rest : List Nat} (hR : s.redoStack = r :: rest) :
    ∃ s1, redo s = some (Report.redone, s1) ∧ RedoPost s r rest l s1 := by
  have hnd := h.nodup
  rw [hR] at hnd
  have hok := h.redo_ok
  rw [hR] at hok
  obtain ⟨⟨c, hc, hprev, hnext⟩, -⟩ := hok
  have hrl : r ∉ l := fun hm =>
    (List.nodup_append.1 hnd).2.2 (List.mem_cons_self _ _) hm
  exact redo_wf h.wf hR hc hprev
    (fun hnil => by
      rcases hnext with hn | ⟨x, -, hxl⟩
      · exact hn
      · rw [hnil] at hxl
        cases hxl) hrl

/-- A list of cells whose records are `pre ++ rec :: post` splits in the same
way. -/
theorem map_eq_split {l : List Nat} (f : Nat → String × String × String)
    {pre post : List (String × String × String)} {rec : String × String × String}
    (h : l.map f = pre ++ rec :: post) :
    ∃ l1 r0 l2, l = l1 ++ r0 :: l2 ∧ l1.map f = pre ∧ f r0 = rec ∧ l2.map f = post := by
  induction pre generalizing l with
  | nil =>
    cases l with
    | nil => cases h
    | cons a rest =>
      rw [List.map_cons, List.nil_append] at h
      cases h
      exact ⟨[], a, rest, rfl, rfl, rfl, rfl⟩
  | cons x pre1 ih =>
    cases l with
    | nil => cases h
    | cons a rest =>
      rw [List.map_cons, List.cons_append] at h
      obtain ⟨hx, hrest⟩ := List.cons.inj h
      obtain ⟨l1, r0, l2, hl, h1, h2, h3⟩ := ih hrest
      exact ⟨a :: l1, r0, l2, by rw [hl]; rfl, by rw [List.map_cons, hx, h1], h2, h3⟩

/-- C15, amended: `addContact` and `updateContact` never touch the redo stack,
whatever the state and whatever they report.  In a state reached from an empty
manager by `addContact`, `undo` and `redo` whose redo stack has the cell `r` on
top: a successful add puts its record in front and leaves the redo stack as it
was; a successful update (the first record of the given name, choice 1, 2 or
3) replaces exactly the chosen field of that record, reports the edited
record and leaves the redo stack as it was; and the `redo` issued right after
either of them returns, pops `r` and puts the record of `r` in front of the
store. -/
theorem mutation_keeps_redoStack (s : State) (hs : ReachAUR s) (r : Nat) (rest : List Nat)
    (hredo : s.redoStack = r :: rest) :
    (∀ (s0 s1 : State) (n p c : String) (rep : Report),
      addContact s0 n p c = some (rep, s1) → s1.redoStack = s0.redoStack) ∧
    (∀ (s0 s1 : State) (n np nc : String) (choice : Int) (input : String) (rep : Report),
      updateContact s0 n np nc choice input = some (rep, s1) → s1.redoStack = s0.redoStack) ∧
    ∃ recs, storeRecords s = some recs ∧
      (∀ (n p c : String), n ≠ "" → p.length = 10 →
        (∀ ch ∈ p.data, 48 ≤ ch.toNat ∧ ch.toNat ≤ 57) → c ≠ "" →
        ∃ sD sR, addContact s n p c = some (Report.added, sD) ∧
          sD.redoStack = r :: rest ∧ storeRecords sD = some ((n, p, c) :: recs) ∧
          redo sD = some (Report.redone, sR) ∧ sR.redoStack = rest ∧
          storeRecords sR = some (fields s.heap r :: (n, p, c) :: recs)) ∧
      (∀ (n np nc : String) (choice : Int) (input : String)
        (pre post : List (String × String × String)) (rec edited : String × String × String),
        recs = pre ++ rec :: post → (∀ x ∈ pre, x.1 ≠ n) → rec.1 = n →
        ((choice = 1 ∧ edited = (input, rec.2.1, rec.2.2)) ∨
          (choice = 2 ∧ edited = (rec.1, input, rec.2.2)) ∨
          (choice = 3 ∧ edited = (rec.1, rec.2.1, input))) →
        ∃ sP sR, updateContact s n np nc choice input =
            some (Report.updated edited.1 edited.2.1 edited.2.2, sP) ∧
          sP.redoStack = r :: rest ∧ storeRecords sP = some (pre ++ edited :: post) ∧
          redo sP = some (Report.redone, sR) ∧ sR.redoStack = rest ∧
          storeRecords sR = some (fields s.heap r :: (pre ++ edited :: post))) := by
  refine ⟨fun _ _ _ _ _ _ h => addContact_redoStack h,
    fun _ _ _ _ _ _ _ _ h => updateContact_redoStack h, ?_⟩
  obtain ⟨l, hinv⟩ := reachAUR_inv hs
  have hlt := seg_lt hinv.wf.seg
  have hnd := hinv.nodup
  rw [hredo] at hnd
  have hrl : r ∉ l := fun hm =>
    (List.nodup_append.1 hnd).2.2 (List.mem_cons_self _ _) hm
  have hok := hinv.redo_ok
  rw [hredo] at hok
  obtain ⟨⟨cr, hcr, hprev, hnext⟩, -⟩ := hok
  have hrlt : r < s.heap.length := by
    by_contra hge
    rw [List.getElem?_eq_none (by omega)] at hcr
    cases hcr
  refine ⟨l.map (fields s.heap), storeRecords_of_wf hinv.wf, ?_, ?_⟩
  · intro n p c hn hp hd hc
    obtain ⟨sD, haddD, hinvD⟩ := histInv_add hinv n p c hn hp hd hc
    obtain ⟨sD1, haddD1, hD⟩ := addContact_wf hinv.wf n p c hn hp hd hc
    rw [haddD] at haddD1
    cases haddD1
    have hredoD : sD.redoStack = r :: rest := hD.redoStack_eq.trans hredo
    obtain ⟨sR, hredoR, hR⟩ := histInv_redo_post hinvD hredoD
    have hrecsD : (s.heap.length :: l).map (fields sD.heap) =
        (n, p, c) :: l.map (fields s.heap) := by
      rw [List.map_cons, hD.fields_new,
        map_fields_congr (fun a ha => hD.fields_old a (hlt a ha))]
    refine ⟨sD, sR, haddD, hredoD, by rw [storeRecords_of_wf hD.wf, hrecsD], hredoR,
      hR.redoStack_eq, ?_⟩
    rw [storeRecords_of_wf hR.wf, List.map_cons, map_fields_congr (fun a _ => hR.fields_eq a),
      hR.fields_eq, hD.fields_old r hrlt, hrecsD]
  · intro n np nc choice input pre post rec edited hsplit hpre hrec hch
    obtain ⟨l1, r0, l2, hl, h1, h2, h3⟩ := map_eq_split (fields s.heap) hsplit
    have hfind : l.find? (fun a => decide ((fields s.heap a).1 = n)) = some r0 := by
      rw [hl, List.find?_append]
      have hnone : l1.find? (fun a => decide ((fields s.heap a).1 = n)) = none := by
        rw [List.find?_eq_none]
        intro a ha
        have hmem : fields s.heap a ∈ pre := by
          rw [← h1]
          exact List.mem_map_of_mem _ ha
        simpa using hpre _ hmem
      rw [hnone, List.find?_cons]
      simp [h2, hrec]
    have hr0 : r0 ∈ l := List.mem_of_find?_eq_some hfind
    have hr0lt : r0 < s.heap.length := hlt r0 hr0
    have hc0 : s.heap[r0]? = some s.heap[r0] := List.getElem?_eq_getElem hr0lt
    have hf0 : rec = (s.heap[r0].name, s.heap[r0].phone, s.heap[r0].category) := by
      rw [← h2]
      exact fields_of_getElem? hc0
    obtain ⟨c1, hedit, hc1⟩ : ∃ c1,
        (if choice = 1 then some { s.heap[r0] with name := input }
          else if choice = 2 then some { s.heap[r0] with phone := input }
          else if choice = 3 then some { s.heap[r0] with category := input }
          else none) = some c1 ∧ (c1.name, c1.phone, c1.category) = edited := by
      rcases hch with ⟨h, he⟩ | ⟨h, he⟩ | ⟨h, he⟩ <;> subst h <;>
        exact ⟨_, rfl, by rw [he, hf0]⟩
    obtain ⟨sP, hupd, hP⟩ := updateContact_wf hinv.wf n np nc choice input hfind hc0 hedit
    have hne : r0 ≠ r := fun hEq => hrl (hEq ▸ hr0)
    have hcellP : sP.heap[r]? = some cr := by
      rw [hP.heap_eq, getElem?_set_other _ _ _ _ hne]
      exact hcr
    have hredoP : sP.redoStack = r :: rest := hP.redoStack_eq.trans hredo
    obtain ⟨sR, hredoR, hR⟩ := redo_wf hP.wf hredoP hcellP hprev
      (fun hnil => by rw [hnil] at hr0; cases hr0) hrl
    have hndl : l.Nodup := hinv.wf.nodup
    rw [hl] at hndl
    have hnot1 : r0 ∉ l1 := fun hm =>
      (List.nodup_append.1 hndl).2.2 hm (List.mem_cons_self _ _)
    have hnot2 : r0 ∉ l2 := (List.nodup_cons.1 (List.nodup_append.1 hndl).2.1).1
    have hother : ∀ a, a ≠ r0 → fields sP.heap a = fields s.heap a := by
      intro a ha
      rw [hP.heap_eq]
      exact fields_congr (getElem?_set_other _ _ _ _ (Ne.symm ha))
    have hrecsP : l.map (fields sP.heap) = pre ++ edited :: post := by
      rw [hl, List.map_append, List.map_cons,
        map_fields_congr (fun a ha => hother a (fun hEq => hnot1 (hEq ▸ ha))),
        map_fields_congr (fun a ha => hother a (fun hEq => hnot2 (hEq ▸ ha))), h1, h3,
        hP.heap_eq, fields_set_self c1 hr0lt, hc1]
    have hrep : Report.updated c1.name c1.phone c1.category =
        Report.updated edited.1 edited.2.1 edited.2.2 := by
      rw [← hc1]
    rw [hrep] at hupd
    refine ⟨sP, sR, hupd, hredoP, by rw [storeRecords_of_wf hP.wf, hrecsP], hredoR,
      hR.redoStack_eq, ?_⟩
    rw [storeRecords_of_wf hR.wf, List.map_cons, map_fields_congr (fun a _ => hR.fields_eq a),
      hR.fields_eq, hother r (Ne.symm hne), hrecsP]

/-- C15, amended, on the manager after `add(A)`, `add(B)`, `undo()`: B is on the
redo stack; after `add(D)` or an update of the category of A the redo stack
still holds B, and `redo()` puts B back in front. -/
theorem mutation_keeps_redoStack_witness :
    ∃ s, ReachAUR s ∧ s.redoStack = [1] ∧
      (∃ sD sR, addContact s "D" "5555555555" "z" = some (Report.added, sD) ∧
        sD.redoStack = [1] ∧
        storeRecords sD = some [("D", "5555555555", "z"), ("A", "1234567890", "x")] ∧
        redo sD = some (Report.redone, sR) ∧ sR.redoStack = [] ∧
        storeRecords sR = some [("B", "0987654321", "y"), ("D", "5555555555", "z"),
          ("A", "1234567890", "x")]) ∧
      (∃ sP sR, updateContact s "A" "" "" 3 "new" =
          some (Report.updated "A" "1234567890" "new", sP) ∧
        sP.redoStack = [1] ∧ storeRecords sP = some [("A", "1234567890", "new")] ∧
        redo sP = some (Report.redone, sR) ∧ sR.redoStack = [] ∧
        storeRecords sR = some [("B", "0987654321", "y"), ("A", "1234567890", "new")]) := by
  cases h : undo sampleStore2 with
  | none => exact absurd h (by decide)
  | some q =>
    obtain ⟨rep, s⟩ := q
    have hreach : ReachAUR s := ReachAUR.undo rep reachAUR_sampleStore2 h
    have hredo : s.redoStack = [1] := by
      have h1 : (undo sampleStore2).map (fun q => q.2.redoStack) = some [1] := by decide
      rw [h] at h1
      exact Option.some.inj h1
    have hstore : storeRecords s = some [("A", "1234567890", "x")] := by
      have h1 : (undo sampleStore2).bind (fun q => storeRecords q.2) =
          some [("A", "1234567890", "x")] := by decide
      rw [h] at h1
      exact h1
    have hB : fields s.heap 1 = ("B", "0987654321", "y") := by
      have h1 : (undo sampleStore2).map (fun q => fields q.2.heap 1) =
          some ("B", "0987654321", "y") := by decide
      rw [h] at h1
      exact Option.some.inj h1
    obtain ⟨-, -, recs, hrecs, hD, hP⟩ := mutation_keeps_redoStack s hreach 1 [] hredo
    rw [hstore] at hrecs
    cases hrecs
    rw [hB] at hD hP
    exact ⟨s, hreach, hredo,
      hD "D" "5555555555" "z" (by decide) (by decide) (by decide) (by decide),
      hP "A" "" "" 3 "new" [] [] ("A", "1234567890", "x") ("A", "1234567890", "new") rfl
        (fun x hx => by cases hx) rfl (Or.inr (Or.inr ⟨rfl, rfl⟩))⟩

end ContactManager
